import Mathlib

/-!
mdbook-gen: the Markdown-to-HTML rendering core.

A shallow embedding of `internal/core/renderer.go` (functions `slugify`,
`generateTOC`, `markdownToBookHTML`, `renderTableRow`, `processInline`,
`escapeHTML`) and theorems about it.

Go strings are modelled as lists of Unicode code points (`List Char`), i.e.
as what `for _, r := range s` and the `regexp` package see on valid UTF-8.
-/

namespace MdBook

/-- A Go `string`, seen as its sequence of runes. -/
abbrev Str := List Char

/-! ## Library primitives (`strings`, `unicode`) -/

/-- The `unicode.IsSpace` predicate: the Unicode White_Space property. -/
def isSpace (c : Char) : Bool :=
  let n := c.toNat
  (9 ≤ n && n ≤ 13) || n == 32 || n == 0x85 || n == 0xA0 || n == 0x1680 ||
  (0x2000 ≤ n && n ≤ 0x200A) || n == 0x2028 || n == 0x2029 || n == 0x202F ||
  n == 0x205F || n == 0x3000

/-- The class `\s` of Go regular expressions (RE2): `[\t\n\f\r ]`. -/
def isRegexSpace (c : Char) : Bool :=
  let n := c.toNat
  n == 9 || n == 10 || n == 12 || n == 13 || n == 32

/-- The class `\d` of Go regular expressions: `[0-9]`. -/
def isDigit (c : Char) : Bool :=
  let n := c.toNat
  48 ≤ n && n ≤ 57

/-- The class `\p{Han}`: the Han script table of Go's `unicode` package
(Unicode 15.0.0). -/
def isHan (c : Char) : Bool :=
  let n := c.toNat
  (0x2E80 ≤ n && n ≤ 0x2E99) || (0x2E9B ≤ n && n ≤ 0x2EF3) ||
  (0x2F00 ≤ n && n ≤ 0x2FD5) || n == 0x3005 || n == 0x3007 ||
  (0x3021 ≤ n && n ≤ 0x3029) || (0x3038 ≤ n && n ≤ 0x303B) ||
  (0x3400 ≤ n && n ≤ 0x4DBF) || (0x4E00 ≤ n && n ≤ 0x9FFF) ||
  (0xF900 ≤ n && n ≤ 0xFA6D) || (0xFA70 ≤ n && n ≤ 0xFAD9) ||
  (0x16FE2 ≤ n && n ≤ 0x16FE3) || (0x16FF0 ≤ n && n ≤ 0x16FF1) ||
  (0x20000 ≤ n && n ≤ 0x2A6DF) || (0x2A700 ≤ n && n ≤ 0x2B739) ||
  (0x2B740 ≤ n && n ≤ 0x2B81D) || (0x2B820 ≤ n && n ≤ 0x2CEA1) ||
  (0x2CEB0 ≤ n && n ≤ 0x2EBE0) || (0x2F800 ≤ n && n ≤ 0x2FA1D) ||
  (0x30000 ≤ n && n ≤ 0x3134A) || (0x31350 ≤ n && n ≤ 0x323AF)

/-- The rune map of `strings.ToLower` (`unicode.ToLower`), given on every rune
whose image is an ASCII letter: `A`..`Z`, U+0130 (to `i`) and U+212A (to `k`).
Every other cased rune is sent by Go to a rune that is neither ASCII nor Han,
as the rune itself is; the only consumer, `slugify`, deletes both alike, so
such runes are left in place here. -/
def toLowerRune (c : Char) : Char :=
  let n := c.toNat
  if 65 ≤ n && n ≤ 90 then Char.ofNat (n + 32)
  else if n == 0x130 then 'i'
  else if n == 0x212A then 'k'
  else c

/-- The function `strings.ToLower`. -/
def toLower (s : Str) : Str := s.map toLowerRune

/-- The function `strings.HasPrefix`. -/
def hasPrefix (s p : Str) : Bool := p.isPrefixOf s

/-- The function `strings.HasSuffix`. -/
def hasSuffix (s p : Str) : Bool := p.reverse.isPrefixOf s.reverse

/-- The function `strings.TrimPrefix`. -/
def trimPrefix (s p : Str) : Str := if hasPrefix s p then s.drop p.length else s

/-- The function `strings.TrimSuffix`. -/
def trimSuffix (s p : Str) : Str :=
  if hasSuffix s p then s.take (s.length - p.length) else s

/-- Drop the trailing runes that satisfy `p`. -/
def dropRightWhile (p : Char → Bool) (s : Str) : Str :=
  (s.reverse.dropWhile p).reverse

/-- The function `strings.TrimSpace`. -/
def trimSpace (s : Str) : Str := dropRightWhile isSpace (s.dropWhile isSpace)

/-- The call `strings.Trim(s, cutset)` for a cutset of one rune. -/
def trimRune (c : Char) (s : Str) : Str :=
  dropRightWhile (fun x => x == c) (s.dropWhile (fun x => x == c))

/-- The function `strings.Contains`. -/
def containsStr : Str → Str → Bool
  | [], sub => sub.isEmpty
  | c :: cs, sub => hasPrefix (c :: cs) sub || containsStr cs sub

/-- The call `strings.Split(s, sep)` for a separator of one rune. -/
def splitRune (sep : Char) : Str → List Str
  | [] => [[]]
  | c :: cs =>
    if c == sep then [] :: splitRune sep cs
    else
      match splitRune sep cs with
      | [] => [[c]]
      | h :: t => (c :: h) :: t

/-- The function `strings.Join`. -/
def joinStr (sep : Str) : List Str → Str
  | [] => []
  | [x] => x
  | x :: y :: rest => x ++ sep ++ joinStr sep (y :: rest)

/-- The function `strings.Fields`: the maximal runs of non-space runes. -/
def fieldsAux : Str → Str → List Str
  | cur, [] => if cur.isEmpty then [] else [cur]
  | cur, c :: cs =>
    if isSpace c then
      (if cur.isEmpty then fieldsAux [] cs else cur :: fieldsAux [] cs)
    else fieldsAux (cur ++ [c]) cs

/-- The function `strings.Fields`. -/
def fields (s : Str) : List Str := fieldsAux [] s

/-- The call `strings.ReplaceAll(s, old, new)` for `old` of one rune. -/
def replaceRune (old : Char) (new : Str) (s : Str) : Str :=
  s.flatMap (fun c => if c == old then new else [c])

/-- The function `regexp.ReplaceAllString` for a pattern that never matches the
empty string. `m s` decides whether the pattern matches at the head of `s`
and, if so, gives the expanded replacement and the length of the match. The
text is scanned from the left; after a match the scan resumes right behind
it (`skip` counts the runes of the match still to be passed over). -/
def replaceAllGo (m : Str → Option (Str × Nat)) : Nat → Str → Str
  | _, [] => []
  | skip + 1, _ :: cs => replaceAllGo m skip cs
  | 0, c :: cs =>
    match m (c :: cs) with
    | some (rep, len) => rep ++ replaceAllGo m (len - 1) cs
    | none => c :: replaceAllGo m 0 cs

/-- The function `regexp.ReplaceAllString`, scanning from the start. -/
def replaceAll (m : Str → Option (Str × Nat)) (s : Str) : Str := replaceAllGo m 0 s

/-! ## `slugify` -/

/-- The class `[第\d\.\s章节：]` of the numbering prefix. -/
def isNumberingRune (c : Char) : Bool :=
  c == '第' || isDigit c || c == '.' || isRegexSpace c || c == '章' || c == '节' || c == '：'

/-- The class `[a-z0-9\p{Han}-]`, whose complement `slugify` deletes. -/
def isSlugRune (c : Char) : Bool :=
  let n := c.toNat
  (97 ≤ n && n ≤ 122) || isDigit c || isHan c || c == '-'

/-- Replacing the pattern `-+` by `-`: of two adjacent hyphens the first goes. -/
def collapseHyphens : Str → Str
  | [] => []
  | [c] => [c]
  | c :: d :: cs =>
    if c == '-' && d == '-' then collapseHyphens (d :: cs)
    else c :: collapseHyphens (d :: cs)

/-- The function `slugify` of `renderer.go`. The anchored pattern
`^([第\d\.\s章节：]+)` matches the longest leading run of the class. -/
def slugify (s : Str) : Str :=
  let s := s.dropWhile isNumberingRune
  let s := toLower s
  let s := replaceRune ' ' "-".toList s
  let s := s.filter isSlugRune
  let s := collapseHyphens s
  trimRune '-' s

/-! ## `processInline` and `escapeHTML` -/

/-- The pattern `!\[([^\]]*)\]\(([^)]+)\)` at the head of the text, with the
template `<figure class="img"><img src="$2" alt="$1"></figure>`. -/
def matchImage : Str → Option (Str × Nat)
  | '!' :: '[' :: r =>
    let alt := r.takeWhile (fun c => c != ']')
    match r.dropWhile (fun c => c != ']') with
    | ']' :: '(' :: r2 =>
      let src := r2.takeWhile (fun c => c != ')')
      match r2.dropWhile (fun c => c != ')') with
      | ')' :: _ =>
        if src.isEmpty then none
        else some ("<figure class=\"img\"><img src=\"".toList ++ src ++ "\" alt=\"".toList ++ alt
                    ++ "\"></figure>".toList, alt.length + src.length + 5)
      | _ => none
    | _ => none
  | _ => none

/-- The pattern `\*\*([^*]+)\*\*` at the head of the text, with the template
`<strong>$1</strong>`. -/
def matchBold : Str → Option (Str × Nat)
  | '*' :: '*' :: r =>
    let body := r.takeWhile (fun c => c != '*')
    match r.dropWhile (fun c => c != '*') with
    | '*' :: '*' :: _ =>
      if body.isEmpty then none
      else some ("<strong>".toList ++ body ++ "</strong>".toList, body.length + 4)
    | _ => none
  | _ => none

/-- The pattern `\*([^*]+)\*` at the head of the text, with the template
`<em>$1</em>`. -/
def matchItalic : Str → Option (Str × Nat)
  | '*' :: r =>
    let body := r.takeWhile (fun c => c != '*')
    match r.dropWhile (fun c => c != '*') with
    | '*' :: _ =>
      if body.isEmpty then none
      else some ("<em>".toList ++ body ++ "</em>".toList, body.length + 2)
    | _ => none
  | _ => none

/-- The pattern of inline code, a backtick, `([^backtick]+)` and a backtick, at
the head of the text, with the template `<code>$1</code>`. -/
def matchCode : Str → Option (Str × Nat)
  | '\x60' :: r =>
    let body := r.takeWhile (fun c => c != '\x60')
    match r.dropWhile (fun c => c != '\x60') with
    | '\x60' :: _ =>
      if body.isEmpty then none
      else some ("<code>".toList ++ body ++ "</code>".toList, body.length + 2)
    | _ => none
  | _ => none

/-- The pattern `\[([^\]]+)\]\(([^)]+)\)` at the head of the text, with the
template `<a href="$2">$1</a>`. -/
def matchLink : Str → Option (Str × Nat)
  | '[' :: r =>
    let txt := r.takeWhile (fun c => c != ']')
    match r.dropWhile (fun c => c != ']') with
    | ']' :: '(' :: r2 =>
      let href := r2.takeWhile (fun c => c != ')')
      match r2.dropWhile (fun c => c != ')') with
      | ')' :: _ =>
        if txt.isEmpty || href.isEmpty then none
        else some ("<a href=\"".toList ++ href ++ "\">".toList ++ txt ++ "</a>".toList,
                    txt.length + href.length + 4)
      | _ => none
    | _ => none
  | _ => none

/-- The function `processInline` of `renderer.go`: image, bold, italic, inline
code and link substitutions, in this order, each over the whole text. -/
def processInline (text : Str) : Str :=
  let text := replaceAll matchImage text
  let text := replaceAll matchBold text
  let text := replaceAll matchItalic text
  let text := replaceAll matchCode text
  let text := replaceAll matchLink text
  text

/-- The function `escapeHTML` of `renderer.go`. -/
def escapeHTML (s : Str) : Str :=
  let s := replaceRune '&' "&amp;".toList s
  let s := replaceRune '<' "&lt;".toList s
  let s := replaceRune '>' "&gt;".toList s
  s

/-! ## `renderTableRow` -/

/-- One cell of a table row: `<tag>`, the inline-formatted trimmed cell, `</tag>`
and a newline. -/
def renderCell (tag : Str) (p : Str) : Str :=
  "<".toList ++ tag ++ ">".toList ++ processInline (trimSpace p) ++ "</".toList ++ tag
    ++ ">\n".toList

/-- The function `renderTableRow` of `renderer.go`. -/
def renderTableRow (row : Str) (tag : Str) : Str :=
  let parts := splitRune '|' (trimRune '|' row)
  "<tr>\n".toList ++ parts.flatMap (renderCell tag) ++ "</tr>\n".toList

/-! ## `markdownToBookHTML` -/

/-- The values taken by the variable `currentListTag`: `""`, `"ul"`, `"ol"`. -/
inductive ListTag where
  | empty
  | ul
  | ol
  deriving DecidableEq, Repr

/-- The string held by `currentListTag`. -/
def ListTag.str : ListTag → Str
  | .empty => []
  | .ul => "ul".toList
  | .ol => "ol".toList

/-- One write to the output buffer of `markdownToBookHTML`, by the statement
that performs it. -/
inductive Out where
  /-- The text `</tbody>\n</table>\n`. -/
  | tableClose
  /-- The text `</div>\n` closing a diagram block. -/
  | mermaidClose
  /-- The text `</code></pre>\n</figure>\n`. -/
  | codeClose
  /-- The text `<div class="mermaid">\n`. -/
  | mermaidOpen
  /-- The text `<figure class="code LANG">\n`. -/
  | figureOpen (lang : Str)
  /-- The text `<figcaption>File: NAME</figcaption>\n`. -/
  | figcaption (name : Str)
  /-- The text `<pre><code class="language-LANG">`. -/
  | preCodeOpen (lang : Str)
  /-- A line of a diagram block, unescaped, and a newline. -/
  | mermaidLine (line : Str)
  /-- A line of a code block, escaped, and a newline. -/
  | codeLine (line : Str)
  /-- The text `</li>\n`. -/
  | liClose
  /-- The text `</TAG>\n` for the current list tag. -/
  | listClose (tag : ListTag)
  /-- The text `<table>\n<thead>\n`, the header row, `</thead>\n<tbody>\n`. -/
  | tableOpen (line : Str)
  /-- A body row of a table. -/
  | tableRow (line : Str)
  /-- A callout: `<aside class="CLS"><p>\n<strong>LABEL</strong> HTML\n</p></aside>\n`. -/
  | aside (cls label html : Str)
  /-- A heading `<hN id="SLUG">BODY</hN>\n\n` of level `N` for the raw title. -/
  | heading (level : Nat) (title : Str)
  /-- The text `<hr />\n\n`. -/
  | hr
  /-- The text `<TAG>\n` opening a list. -/
  | listOpen (tag : ListTag)
  /-- The text `<li><p>BODY</p>` for the raw item content. -/
  | li (content : Str)
  /-- The text `<p>BODY</p>\n\n` for the raw line. -/
  | para (line : Str)
  deriving DecidableEq, Repr

/-- The text that a write puts into the buffer. -/
def Out.render : Out → Str
  | .tableClose => "</tbody>\n</table>\n".toList
  | .mermaidClose => "</div>\n".toList
  | .codeClose => "</code></pre>\n</figure>\n".toList
  | .mermaidOpen => "<div class=\"mermaid\">\n".toList
  | .figureOpen lang => "<figure class=\"code ".toList ++ lang ++ "\">\n".toList
  | .figcaption name => "<figcaption>File: ".toList ++ name ++ "</figcaption>\n".toList
  | .preCodeOpen lang => "<pre><code class=\"language-".toList ++ lang ++ "\">".toList
  | .mermaidLine line => line ++ "\n".toList
  | .codeLine line => escapeHTML line ++ "\n".toList
  | .liClose => "</li>\n".toList
  | .listClose tag => "</".toList ++ tag.str ++ ">\n".toList
  | .tableOpen line =>
    "<table>\n<thead>\n".toList ++ renderTableRow line "th".toList ++ "</thead>\n<tbody>\n".toList
  | .tableRow line => renderTableRow line "td".toList
  | .aside cls label html =>
    "<aside class=\"".toList ++ cls ++ "\"><p>\n<strong>".toList ++ label ++ "</strong> ".toList
      ++ html ++ "\n</p></aside>\n".toList
  | .heading level title =>
    "<h".toList ++ [Char.ofNat (48 + level)] ++ " id=\"".toList ++ slugify title ++ "\">".toList
      ++ processInline title ++ "</h".toList ++ [Char.ofNat (48 + level)] ++ ">\n\n".toList
  | .hr => "<hr />\n\n".toList
  | .listOpen tag => "<".toList ++ tag.str ++ ">\n".toList
  | .li content => "<li><p>".toList ++ processInline content ++ "</p>".toList
  | .para line => "<p>".toList ++ processInline line ++ "</p>\n\n".toList

/-- The local variables of `markdownToBookHTML` that live across iterations of
its line loop, the loop index `i` among them; `buf` holds the writes made so
far, oldest first. -/
structure State where
  buf : List Out
  i : Nat
  inCodeBlock : Bool
  inTable : Bool
  inList : Bool
  inLI : Bool
  currentListTag : ListTag
  codeFileName : Str
  codeLang : Str
  deriving DecidableEq, Repr

/-- The variables as declared before the loop. -/
def State.init : State :=
  { buf := [], i := 0, inCodeBlock := false, inTable := false, inList := false, inLI := false,
    currentListTag := .empty, codeFileName := [], codeLang := [] }

/-- The call `buf.WriteString`. -/
@[simps] def State.write (st : State) (o : Out) : State := { st with buf := st.buf ++ [o] }

/-- An assignment to `i`. -/
@[simps] def State.setI (st : State) (n : Nat) : State := { st with i := n }

/-- An assignment to `inCodeBlock`. -/
@[simps] def State.setInCodeBlock (st : State) (b : Bool) : State := { st with inCodeBlock := b }

/-- An assignment to `inTable`. -/
@[simps] def State.setInTable (st : State) (b : Bool) : State := { st with inTable := b }

/-- An assignment to `inList`. -/
@[simps] def State.setInList (st : State) (b : Bool) : State := { st with inList := b }

/-- An assignment to `inLI`. -/
@[simps] def State.setInLI (st : State) (b : Bool) : State := { st with inLI := b }

/-- An assignment to `currentListTag`. -/
@[simps] def State.setCurrentListTag (st : State) (t : ListTag) : State :=
  { st with currentListTag := t }

/-- An assignment to `codeFileName`. -/
@[simps] def State.setCodeFileName (st : State) (s : Str) : State := { st with codeFileName := s }

/-- An assignment to `codeLang`. -/
@[simps] def State.setCodeLang (st : State) (s : Str) : State := { st with codeLang := s }

/-- The pattern `^\d+\. ` at the head of the text: the length of the match. -/
def matchOrdered (s : Str) : Option Nat :=
  let ds := s.takeWhile isDigit
  match s.dropWhile isDigit with
  | '.' :: ' ' :: _ => if ds.isEmpty then none else some (ds.length + 2)
  | _ => none

/-- The test `strings.HasPrefix(trimmed, "- ") || strings.HasPrefix(trimmed, "* ")`. -/
def isULLine (trimmed : Str) : Bool :=
  hasPrefix trimmed "- ".toList || hasPrefix trimmed "* ".toList

/-- The test `regexp.MustCompile("^\d+\. ").MatchString(trimmed)`. -/
def isOLLine (trimmed : Str) : Bool := (matchOrdered trimmed).isSome

/-- The indent counted by the list termination check: a space counts one, a
tab four, up to the first other rune. -/
def indentOf : Str → Nat
  | [] => 0
  | c :: cs => if c == ' ' then indentOf cs + 1 else if c == '\t' then indentOf cs + 4 else 0

/-- The closing procedure shared by the two list checks (lines 461-467 and
479-485): close the open item, close the list, reset the tag. -/
def closeList (st : State) : State :=
  let st := if st.inLI then (st.write .liClose).setInLI false else st
  let st := st.write (.listClose st.currentListTag)
  (st.setInList false).setCurrentListTag .empty

/-- The table closing of lines 383-386, 504-507: `if inTable` write the closing
tags and clear the flag. -/
def closeTable (st : State) : State :=
  if st.inTable then (st.write .tableClose).setInTable false else st

/-- The test of lines 412-415 on the line after a fence: the caption, if that
line is a comment whose second field holds a dot or a slash. -/
def captionOf (next : Str) : Option Str :=
  let nextLine := trimSpace next
  if hasPrefix nextLine "// ".toList || hasPrefix nextLine "# ".toList then
    match fields nextLine with
    | _ :: p1 :: _ =>
      if containsStr p1 ".".toList || containsStr p1 "/".toList then some p1 else none
    | _ => none
  else none

/-- The filename caption peek of lines 411-420: with a caption on the next
line, `codeFileName` takes it and `i` moves onto that line. -/
def peekCaption (lines : List Str) (st : State) : State :=
  match (lines[st.i + 1]?).bind captionOf with
  | some name => (st.setCodeFileName name).setI (st.i + 1)
  | none => st

/-- The fence branch, lines 381-430, up to its `continue`. -/
def stepFence (lines : List Str) (line : Str) (st : State) : State :=
  let st := closeTable st
  if st.inCodeBlock then
    let st := if st.codeLang == "mermaid".toList then st.write .mermaidClose
              else st.write .codeClose
    ((st.setInCodeBlock false).setCodeFileName []).setCodeLang []
  else
    let lang := trimPrefix line "\x60\x60\x60".toList
    let lang := if lang.isEmpty then "text".toList else lang
    let st := st.setCodeLang lang
    if lang == "mermaid".toList then
      (st.write .mermaidOpen).setInCodeBlock true
    else
      let st := peekCaption lines st
      let st := st.write (.figureOpen lang)
      let st := if st.codeFileName != [] then st.write (.figcaption st.codeFileName) else st
      let st := st.write (.preCodeOpen lang)
      st.setInCodeBlock true

/-- The class `[💡⚠️❌✅]` removed from callout text: U+1F4A1, U+26A0, U+FE0F,
U+274C, U+2705. -/
def isMarkerGlyph (c : Char) : Bool :=
  let n := c.toNat
  n == 0x1F4A1 || n == 0x26A0 || n == 0xFE0F || n == 0x274C || n == 0x2705

/-- The loop of lines 531-536: each non-empty trimmed line, inline-formatted
and followed by `<br>\n`. -/
def quoteHtml : List Str → Str
  | [] => []
  | q :: qs =>
    let qline := trimSpace q
    (if qline != [] then processInline qline ++ "<br>\n".toList else []) ++ quoteHtml qs

/-- The callout of lines 517-539 for the collected quote lines. -/
def renderQuote (quoteLines : List Str) : Out :=
  let fullContent := joinStr "\n".toList quoteLines
  let (cls, label) :=
    if containsStr fullContent "💡".toList || containsStr fullContent "提示".toList then
      ("hint".toList, "Hint:".toList)
    else if containsStr fullContent "⚠️".toList || containsStr fullContent "注意".toList
        || containsStr fullContent "警告".toList || containsStr fullContent "重要".toList then
      ("important".toList, "Important:".toList)
    else ("note".toList, "Note:".toList)
  let fullContent := fullContent.filter (fun c => !isMarkerGlyph c)
  let fullContent := trimSpace fullContent
  let htmlContent := quoteHtml (splitRune '\n' fullContent)
  let htmlContent := trimSuffix htmlContent "<br>\n".toList
  .aside cls label htmlContent

/-- The blockquote branch, lines 510-541: the run of lines from `i` on that
begin with `> ` is collected, `i` is left on the last line of the run. -/
def stepQuote (lines : List Str) (st : State) : State :=
  let run := (lines.drop st.i).takeWhile (fun l => hasPrefix l "> ".toList)
  let quoteLines := run.map (fun l => trimPrefix l "> ".toList)
  (st.write (renderQuote quoteLines)).setI (st.i + run.length - 1)

/-- The table branch, lines 494-503. -/
def stepTable (lines : List Str) (line : Str) (st : State) : State :=
  if !st.inTable then
    let st := (st.write (.tableOpen line)).setInTable true
    if (lines[st.i + 1]?).any (fun next => containsStr next "---".toList) then st.setI (st.i + 1)
    else st
  else st.write (.tableRow line)

/-- The list item branch, lines 572-604. -/
def stepListItem (trimmed : Str) (isUL isOL : Bool) (st : State) : State :=
  let targetTag := if isOL then ListTag.ol else ListTag.ul
  let st :=
    if st.inList && st.currentListTag != targetTag then
      let st := if st.inLI then st.write .liClose else st
      let st := st.write (.listClose st.currentListTag)
      (st.setInList false).setInLI false
    else st
  let st :=
    if !st.inList then
      ((st.write (.listOpen targetTag)).setInList true).setCurrentListTag targetTag
    else if st.inLI then st.write .liClose
    else st
  let content :=
    if isUL then trimPrefix (trimPrefix trimmed "- ".toList) "* ".toList
    else trimmed.drop ((matchOrdered trimmed).getD 0)
  (st.write (.li content)).setInLI true

/-- The generic list termination check, lines 444-469. -/
def listTermination (line trimmed : Str) (st : State) : State :=
  if st.inList then
    let isListItem := isULLine trimmed || isOLLine trimmed
    if indentOf line < 2 && !isListItem then closeList st else st
  else st

/-- The branches for headings, rules, list items and paragraphs, lines 544-609. -/
def stepPlain (line trimmed : Str) (isUL isOL : Bool) (st : State) : State :=
  if hasPrefix line "# ".toList then st.write (.heading 1 (trimPrefix line "# ".toList))
  else if hasPrefix line "## ".toList then st.write (.heading 2 (trimPrefix line "## ".toList))
  else if hasPrefix line "### ".toList then st.write (.heading 3 (trimPrefix line "### ".toList))
  else if hasPrefix line "#### ".toList then
    st.write (.heading 4 (trimPrefix line "#### ".toList))
  else if trimmed == "---".toList || trimmed == "***".toList then st.write .hr
  else if isUL || isOL then stepListItem trimmed isUL isOL st
  else if trimmed != [] then st.write (.para line)
  else st

/-- The body of the line loop outside a code block, from the list
termination check on (lines 441-609). -/
def stepBlock (lines : List Str) (line trimmed : Str) (st : State) : State :=
  let st := listTermination line trimmed st
  let isUL := isULLine trimmed
  let isOL := isOLLine trimmed
  let isHeader := hasPrefix trimmed "#".toList
  let isHR := trimmed == "---".toList || trimmed == "***".toList
  let isComment := hasPrefix trimmed "<!--".toList
  let st := if st.inList && (isHeader || isHR || isComment) then closeList st else st
  if isComment then st
  else if hasPrefix trimmed "|".toList && containsStr line "|".toList then stepTable lines line st
  else
    let st := closeTable st
    if hasPrefix line "> ".toList then stepQuote lines st
    else stepPlain line trimmed isUL isOL st

/-- The body of the line loop (lines 377-609) for the line at index `st.i`: the
state when the body ends, before the loop's own `i++`. -/
def step (lines : List Str) (st : State) : State :=
  let line := lines.getD st.i []
  let trimmed := trimSpace line
  if hasPrefix line "\x60\x60\x60".toList then stepFence lines line st
  else if st.inCodeBlock then
    (if st.codeLang == "mermaid".toList then st.write (.mermaidLine line)
     else st.write (.codeLine line))
  else stepBlock lines line trimmed st

/-- The line loop `for i := 0; i < len(lines); i++`, run for at most `fuel`
iterations. From `State.init` and with `fuel = k` this is the state of the
loop after its first `k` iterations (or at its exit, if it exits earlier). -/
def loop (lines : List Str) : Nat → State → State
  | 0, st => st
  | fuel + 1, st =>
    if st.i < lines.length then
      let st := step lines st
      loop lines fuel (st.setI (st.i + 1))
    else st

/-- The statements after the loop, lines 612-620. -/
def finish (st : State) : State :=
  let st := if st.inLI then st.write .liClose else st
  let st := if st.inList then st.write (.listClose st.currentListTag) else st
  let st := if st.inTable then st.write .tableClose else st
  st

/-- The writes of `markdownToBookHTML`, in order. Every iteration moves the
index forward, so `len(lines)` iterations exhaust the loop (`loop_exits`). -/
def markdownToBookHTMLOut (md : Str) : List Out :=
  let lines := splitRune '\n' md
  (finish (loop lines lines.length State.init)).buf

/-- The function `markdownToBookHTML` of `renderer.go`; `chapterNum` and
`isFront` are not used by its body. -/
def markdownToBookHTML (md : Str) (_chapterNum : Str) (_isFront : Bool) : Str :=
  (markdownToBookHTMLOut md).flatMap Out.render

/-- The `id` attributes of the `h2` elements among the writes, in order. -/
def h2Ids : List Out → List Str
  | [] => []
  | .heading 2 title :: rest => slugify title :: h2Ids rest
  | _ :: rest => h2Ids rest

/-! ## `generateTOC` -/

/-- The struct `Chapter` of `renderer.go` (without its `Content` field, which
`generateTOC` does not read). -/
structure Chapter where
  ID : Str
  Number : Str
  Title : Str
  InputFile : Str
  OutputFile : Str
  Category : Str
  IsContents : Bool
  IsFront : Bool
  deriving DecidableEq, Repr

/-- One write to the buffer of `generateTOC`. -/
inductive TocOut where
  /-- The text `<h1 id="contents">目录</h1>\n\n<nav epub:type="toc">\n<ol>\n`. -/
  | header
  /-- A chapter entry `<liCLASS><a href="FILE">NUMBER. TITLE</a></li>\n`. -/
  | chapter (cls file number title : Str)
  /-- A sub-entry `<li class="indent"><a href="FILE#ID">TITLE</a></li>\n`. -/
  | sub (file id title : Str)
  /-- The text `</ol>\n</nav>\n`. -/
  | footer
  deriving DecidableEq, Repr

/-- The text that a write of `generateTOC` puts into the buffer. -/
def TocOut.render : TocOut → Str
  | .header => "<h1 id=\"contents\">目录</h1>\n\n<nav epub:type=\"toc\">\n<ol>\n".toList
  | .chapter cls file number title =>
    "<li".toList ++ cls ++ "><a href=\"".toList ++ file ++ "\">".toList ++ number ++ ". ".toList
      ++ title ++ "</a></li>\n".toList
  | .sub file id title =>
    "<li class=\"indent\"><a href=\"".toList ++ file ++ "#".toList ++ id ++ "\">".toList ++ title
      ++ "</a></li>\n".toList
  | .footer => "</ol>\n</nav>\n".toList

/-- Deleting a match of the anchored pattern `^第\s*\d+\s*章[：:]\s*`. -/
def stripChapterLabel (title : Str) : Str :=
  match title with
  | '第' :: r =>
    let r1 := r.dropWhile isRegexSpace
    if (r1.takeWhile isDigit).isEmpty then title
    else
      match (r1.dropWhile isDigit).dropWhile isRegexSpace with
      | '章' :: c :: r3 =>
        if c == '：' || c == ':' then r3.dropWhile isRegexSpace else title
      | _ => title
  | _ => title

/-- The scan of lines 221-228 over the text of one chapter file: a sub-entry
for each line that begins with `## `. -/
def tocSubEntries (outputFile : Str) (content : Str) : List TocOut :=
  ((splitRune '\n' content).filter (fun line => hasPrefix line "## ".toList)).map
    (fun line =>
      let h2Title := trimSpace (trimPrefix line "## ".toList)
      TocOut.sub outputFile (slugify h2Title) h2Title)

/-- The body of the chapter loop of `generateTOC` for one chapter; `readFile`
stands for `os.ReadFile` (`none` is an error). -/
def tocChapter (readFile : Str → Option Str) (ch : Chapter) : List TocOut :=
  if ch.IsContents || ch.IsFront then []
  else
    let cls := if ch.Number.count '.' > 1 then " class=\"indent\"".toList else []
    let title := stripChapterLabel ch.Title
    let displayNumber := trimSuffix ch.Number ".".toList
    TocOut.chapter cls ch.OutputFile displayNumber title ::
      (match readFile ch.InputFile with
       | some content => tocSubEntries ch.OutputFile content
       | none => [])

/-- The writes of `generateTOC`, in order. -/
def generateTOCOut (readFile : Str → Option Str) (chapters : List Chapter) : List TocOut :=
  [TocOut.header] ++ chapters.flatMap (tocChapter readFile) ++ [TocOut.footer]

/-- The function `generateTOC` of `renderer.go`. -/
def generateTOC (readFile : Str → Option Str) (chapters : List Chapter) : Str :=
  (generateTOCOut readFile chapters).flatMap TocOut.render

/-- The anchors of the sub-entries among the writes of `generateTOC`, in order. -/
def tocAnchors : List TocOut → List Str
  | [] => []
  | .sub _ id _ :: rest => id :: tocAnchors rest
  | _ :: rest => tocAnchors rest

/-! ## Observations on the writes -/

/-- The text has no two adjacent hyphens. -/
def NoDouble (s : Str) : Prop := List.Chain' (fun a b => ¬ (a = '-' ∧ b = '-')) s

/-- Whether the pattern of the matcher `m` matches somewhere in the text. -/
def hasMatch (m : Str → Option (Str × Nat)) : Str → Bool
  | [] => (m []).isSome
  | c :: cs => (m (c :: cs)).isSome || hasMatch m cs

/-- A write of the tag `<ul>` or `<ol>`. -/
def isListOpen : Out → Bool
  | .listOpen .ul => true
  | .listOpen .ol => true
  | _ => false

/-- A write of the tag `</ul>` or `</ol>`. -/
def isListClose : Out → Bool
  | .listClose .ul => true
  | .listClose .ol => true
  | _ => false

/-- A write of the tag `<li>`. -/
def isLiOpen : Out → Bool
  | .li _ => true
  | _ => false

/-- A write of the tag `</li>`. -/
def isLiClose : Out → Bool
  | .liClose => true
  | _ => false

/-- A write of the tag `<table>`. -/
def isTableOpen : Out → Bool
  | .tableOpen _ => true
  | _ => false

/-- A write of the tag `</table>`. -/
def isTableClose : Out → Bool
  | .tableClose => true
  | _ => false

/-- What the block flags of the loop say about the writes made so far: each
kind of tag was opened once more than closed exactly when its flag is set; an
open item lies in an open list; an open list has a tag; no table is open inside
a code block. -/
structure Inv (st : State) : Prop where
  lists : st.buf.countP isListOpen = st.buf.countP isListClose + (if st.inList then 1 else 0)
  items : st.buf.countP isLiOpen = st.buf.countP isLiClose + (if st.inLI then 1 else 0)
  tables : st.buf.countP isTableOpen = st.buf.countP isTableClose + (if st.inTable then 1 else 0)
  itemInList : st.inLI = true → st.inList = true
  listTag : st.inList = true → st.currentListTag ≠ .empty
  codeNoTable : ¬ (st.inCodeBlock = true ∧ st.inTable = true)

/-- The lines of the blockquote run that starts at index `i`, each without its
`> ` (the `quoteLines` of lines 511-514). -/
def quoteRun (lines : List Str) (i : Nat) : List Str :=
  ((lines.drop i).takeWhile (fun l => hasPrefix l "> ".toList)).map
    (fun l => trimPrefix l "> ".toList)

/-- The test of line 520: a hint marker, `💡` or `提示`, in the joined content. -/
def hasHintMarker (fullContent : Str) : Bool :=
  containsStr fullContent "💡".toList || containsStr fullContent "提示".toList

/-- The test of line 523: a caution marker, `⚠️`, `注意`, `警告` or `重要`, in the
joined content. -/
def hasCautionMarker (fullContent : Str) : Bool :=
  containsStr fullContent "⚠️".toList || containsStr fullContent "注意".toList
    || containsStr fullContent "警告".toList || containsStr fullContent "重要".toList

/-- Every `&` of the text begins one of `&amp;`, `&lt;`, `&gt;`: at each position
that holds a `&`, the text from there on starts with one of the three. -/
def ampsEscaped : Str → Bool
  | [] => true
  | c :: cs =>
    (c != '&' || hasPrefix (c :: cs) "&amp;".toList || hasPrefix (c :: cs) "&lt;".toList
      || hasPrefix (c :: cs) "&gt;".toList) && ampsEscaped cs

/-- The chapter-level entry that `generateTOC` writes for a chapter (line 216). -/
def chapterEntry (ch : Chapter) : TocOut :=
  TocOut.chapter (if ch.Number.count '.' > 1 then " class=\"indent\"".toList else [])
    ch.OutputFile (trimSuffix ch.Number ".".toList) (stripChapterLabel ch.Title)

/-- A chapter-level entry among the writes of `generateTOC`. -/
def isChapterEntry : TocOut → Bool
  | .chapter _ _ _ _ => true
  | _ => false

/-- The chapters that `generateTOC` does not skip: neither the contents chapter
nor a front-matter chapter. -/
def isListed (ch : Chapter) : Bool := !(ch.IsContents || ch.IsFront)

/-- The content of an unordered item, line 597: the trimmed line without a
leading `- `, then without a leading `* `. -/
def itemContent (trimmed : Str) : Str :=
  trimPrefix (trimPrefix trimmed "- ".toList) "* ".toList

/-- A line that reaches the paragraph branch (line 607) when no list is open:
none of the tests for a fence, a comment, a table row, a quote, a heading, a
rule or a list item holds, and the trimmed line is not empty. -/
def isPlainLine (line : Str) : Bool :=
  let trimmed := trimSpace line
  !hasPrefix line "\x60\x60\x60".toList && !hasPrefix trimmed "<!--".toList
    && !(hasPrefix trimmed "|".toList && containsStr line "|".toList)
    && !hasPrefix line "> ".toList && !hasPrefix line "# ".toList
    && !hasPrefix line "## ".toList && !hasPrefix line "### ".toList
    && !hasPrefix line "#### ".toList
    && !(trimmed == "---".toList || trimmed == "***".toList)
    && !(isULLine trimmed || isOLLine trimmed) && trimmed != []

/-- An item line with the marker `- ` at its start and an item text after it. -/
def isDashItem (line : Str) : Bool :=
  hasPrefix line "- ".toList && hasPrefix (trimSpace line) "- ".toList

/-- A table row line: its trimmed text begins with `|`. -/
def isRowLine (line : Str) : Bool := hasPrefix (trimSpace line) "|".toList

/-- The structural elements whose tags are tracked for nesting. -/
inductive Block where
  | list
  | item
  | table
  deriving DecidableEq, Repr

/-- The stack of open structural elements after the writes, most recent first,
from the stack `stk`; `none` when a closing tag meets another element than its
own on top of the stack, or an empty stack. -/
def nestingStack : List Block → List Out → Option (List Block)
  | stk, [] => some stk
  | stk, .listOpen _ :: os => nestingStack (.list :: stk) os
  | stk, .li _ :: os => nestingStack (.item :: stk) os
  | stk, .tableOpen _ :: os => nestingStack (.table :: stk) os
  | .item :: stk, .liClose :: os => nestingStack stk os
  | _, .liClose :: _ => none
  | .list :: stk, .listClose _ :: os => nestingStack stk os
  | _, .listClose _ :: _ => none
  | .table :: stk, .tableClose :: os => nestingStack stk os
  | _, .tableClose :: _ => none
  | stk, _ :: os => nestingStack stk os

/-- The tags of lists, list items and tables among the writes are properly
nested: each closing tag closes the most recently opened element still open,
and nothing is left open. -/
def properlyNested (out : List Out) : Bool := nestingStack [] out == some []

/-- The indexing `lines[j]` of Go, which panics when `j` is out of range (`none`). -/
def lineAt (lines : List Str) (j : Nat) : Option Str := lines[j]?

/-- The filename caption peek of lines 411-420 with its read of `lines[i+1]` made
explicit, under the guard `i+1 < len(lines)`. -/
def peekCaptionChecked (lines : List Str) (st : State) : Option State :=
  if st.i + 1 < lines.length then
    (lineAt lines (st.i + 1)).map (fun next =>
      match captionOf next with
      | some name => (st.setCodeFileName name).setI (st.i + 1)
      | none => st)
  else some st

/-- The fence branch with the read of the caption peek made explicit. -/
def stepFenceChecked (lines : List Str) (line : Str) (st : State) : Option State :=
  let st := closeTable st
  if st.inCodeBlock then
    let st := if st.codeLang == "mermaid".toList then st.write .mermaidClose
              else st.write .codeClose
    some (((st.setInCodeBlock false).setCodeFileName []).setCodeLang [])
  else
    let lang := trimPrefix line "\x60\x60\x60".toList
    let lang := if lang.isEmpty then "text".toList else lang
    let st := st.setCodeLang lang
    if lang == "mermaid".toList then
      some ((st.write .mermaidOpen).setInCodeBlock true)
    else
      (peekCaptionChecked lines st).map (fun st =>
        let st := st.write (.figureOpen lang)
        let st := if st.codeFileName != [] then st.write (.figcaption st.codeFileName) else st
        let st := st.write (.preCodeOpen lang)
        st.setInCodeBlock true)

/-- The table branch with the read of `lines[i+1]` of line 497 made explicit,
under the guard `i+1 < len(lines)`. -/
def stepTableChecked (lines : List Str) (line : Str) (st : State) : Option State :=
  if !st.inTable then
    let st := (st.write (.tableOpen line)).setInTable true
    if st.i + 1 < lines.length then
      (lineAt lines (st.i + 1)).map (fun next =>
        if containsStr next "---".toList then st.setI (st.i + 1) else st)
    else some st
  else some (st.write (.tableRow line))

/-- The loop `for ; i < len(lines) && strings.HasPrefix(lines[i], "> "); i++` of
lines 512-514 with its reads of `lines[i]` made explicit: the index and the
quote lines when the loop ends, within `fuel` iterations. -/
def quoteLoop (lines : List Str) : Nat → Nat → List Str → Option (Nat × List Str)
  | 0, i, quoteLines => some (i, quoteLines)
  | fuel + 1, i, quoteLines =>
    if i < lines.length then
      match lineAt lines i with
      | none => none
      | some l =>
        if hasPrefix l "> ".toList then
          quoteLoop lines fuel (i + 1) (quoteLines ++ [trimPrefix l "> ".toList])
        else some (i, quoteLines)
    else some (i, quoteLines)

/-- The blockquote branch with the reads of its loop made explicit; the loop
gets as many iterations as there are lines. -/
def stepQuoteChecked (lines : List Str) (st : State) : Option State :=
  (quoteLoop lines lines.length st.i []).map (fun r =>
    (st.write (renderQuote r.2)).setI (r.1 - 1))

/-- The body of the line loop outside a code block, with the reads made
explicit. -/
def stepBlockChecked (lines : List Str) (line trimmed : Str) (st : State) : Option State :=
  let st := listTermination line trimmed st
  let isUL := isULLine trimmed
  let isOL := isOLLine trimmed
  let isHeader := hasPrefix trimmed "#".toList
  let isHR := trimmed == "---".toList || trimmed == "***".toList
  let isComment := hasPrefix trimmed "<!--".toList
  let st := if st.inList && (isHeader || isHR || isComment) then closeList st else st
  if isComment then some st
  else if hasPrefix trimmed "|".toList && containsStr line "|".toList then
    stepTableChecked lines line st
  else
    let st := closeTable st
    if hasPrefix line "> ".toList then stepQuoteChecked lines st
    else some (stepPlain line trimmed isUL isOL st)

/-- The body of the line loop with every read of a line made explicit: the read
`lines[i]` of line 377 and the look-aheads of the fence, table and blockquote
branches. The result is `none` when a read is out of range. -/
def stepChecked (lines : List Str) (st : State) : Option State :=
  match lineAt lines st.i with
  | none => none
  | some line =>
    let trimmed := trimSpace line
    if hasPrefix line "\x60\x60\x60".toList then stepFenceChecked lines line st
    else if st.inCodeBlock then
      some (if st.codeLang == "mermaid".toList then st.write (.mermaidLine line)
            else st.write (.codeLine line))
    else stepBlockChecked lines line trimmed st

/-- The line loop over the checked body: `none` when a read is out of range or
the fuel runs out before the loop condition fails. -/
def loopChecked (lines : List Str) : Nat → State → Option State
  | 0, st => if st.i < lines.length then none else some st
  | fuel + 1, st =>
    if st.i < lines.length then
      match stepChecked lines st with
      | none => none
      | some st => loopChecked lines fuel (st.setI (st.i + 1))
    else some st

/-- The language of an opening fence line, lines 398-401: the text after the
three backticks, `text` when there is none. -/
def fenceLang (line : Str) : Str :=
  let lang := trimPrefix line "\x60\x60\x60".toList
  if lang.isEmpty then "text".toList else lang

/-! ## Theorems -/

theorem collapseHyphens_subset : ∀ (s : Str) (c : Char), c ∈ collapseHyphens s → c ∈ s
  | [], c, h => by simp [collapseHyphens] at h
  | [x], c, h => by simpa [collapseHyphens] using h
  | x :: d :: cs, c, h => by
    unfold collapseHyphens at h
    split at h
    · exact List.mem_cons_of_mem _ (collapseHyphens_subset (d :: cs) c h)
    · rcases List.mem_cons.1 h with h | h
      · exact h ▸ List.mem_cons_self _ _
      · exact List.mem_cons_of_mem _ (collapseHyphens_subset (d :: cs) c h)

theorem collapseHyphens_head : ∀ (s : Str), (collapseHyphens s).head? = s.head?
  | [] => rfl
  | [x] => rfl
  | x :: d :: cs => by
    unfold collapseHyphens
    split
    · rename_i h
      simp only [Bool.and_eq_true, beq_iff_eq] at h
      rw [collapseHyphens_head (d :: cs)]
      simp [h.1, h.2]
    · simp

theorem collapseHyphens_noDouble : ∀ (s : Str), NoDouble (collapseHyphens s)
  | [] => by simp [collapseHyphens, NoDouble]
  | [x] => by simp [collapseHyphens, NoDouble]
  | x :: d :: cs => by
    unfold collapseHyphens
    split
    · exact collapseHyphens_noDouble (d :: cs)
    · rename_i h
      simp only [Bool.and_eq_true, beq_iff_eq] at h
      have ih := collapseHyphens_noDouble (d :: cs)
      unfold NoDouble at ih ⊢
      rw [List.chain'_cons']
      refine ⟨?_, ih⟩
      intro y hy
      rw [collapseHyphens_head (d :: cs)] at hy
      simp at hy
      subst hy
      exact h

theorem trimRune_isInfix (c : Char) (s : Str) : trimRune c s <:+: s := by
  unfold trimRune dropRightWhile
  have h1 : (List.dropWhile (fun x => x == c) s).rdropWhile (fun x => x == c)
      <+: List.dropWhile (fun x => x == c) s := List.rdropWhile_prefix _ _
  exact h1.isInfix.trans (List.dropWhile_suffix _).isInfix

theorem trimRune_head (c : Char) (s : Str) : (trimRune c s).head? ≠ some c := by
  unfold trimRune dropRightWhile
  intro h
  have h1 : (List.dropWhile (fun x => x == c) s).rdropWhile (fun x => x == c)
      <+: List.dropWhile (fun x => x == c) s := List.rdropWhile_prefix _ _
  change ((List.dropWhile (fun x => x == c) s).rdropWhile (fun x => x == c)).head? = some c at h
  obtain ⟨t, ht⟩ := h1
  have h2 : (List.dropWhile (fun x => x == c) s).head? = some c := by
    rw [← ht]
    cases hr : (List.dropWhile (fun x => x == c) s).rdropWhile (fun x => x == c) with
    | nil => rw [hr] at h; simp at h
    | cons a l => rw [hr] at h; simpa using h
  have h3 := List.head?_dropWhile_not (fun x => x == c) s
  rw [h2] at h3
  simp at h3

theorem trimRune_last (c : Char) (s : Str) : (trimRune c s).getLast? ≠ some c := by
  unfold trimRune dropRightWhile
  intro h
  rw [List.getLast?_reverse] at h
  have h3 := List.head?_dropWhile_not (fun x => x == c)
    (List.dropWhile (fun x => x == c) s).reverse
  rw [h] at h3
  simp at h3

/-- C3. Every rune of a slug is a lowercase ASCII letter, an ASCII digit, a Han
ideograph or a hyphen; a slug has no two adjacent hyphens, and it neither begins
nor ends with a hyphen. -/
theorem slugify_shape (s : Str) :
    (∀ c ∈ slugify s,
      (97 ≤ c.toNat ∧ c.toNat ≤ 122) ∨ (48 ≤ c.toNat ∧ c.toNat ≤ 57) ∨ isHan c = true ∨ c = '-') ∧
    ¬ ("--".toList <:+: slugify s) ∧
    (slugify s).head? ≠ some '-' ∧
    (slugify s).getLast? ≠ some '-' := by
  refine ⟨?_, ?_, trimRune_head _ _, trimRune_last _ _⟩
  · intro c hc
    have h1 := (trimRune_isInfix _ _).subset hc
    have h2 := collapseHyphens_subset _ _ h1
    have h3 := (List.mem_filter.1 h2).2
    simpa [isSlugRune, isDigit, or_assoc] using h3
  · intro h
    have h1 := h.trans (trimRune_isInfix _ _)
    have h2 : NoDouble "--".toList := List.Chain'.infix (collapseHyphens_noDouble _) h1
    simp [NoDouble] at h2

/-! ### The block flags and the writes -/

theorem ite_buf (c : Prop) [Decidable c] (a b : State) :
    (if c then a else b).buf = if c then a.buf else b.buf := by split <;> rfl

theorem ite_inList (c : Prop) [Decidable c] (a b : State) :
    (if c then a else b).inList = if c then a.inList else b.inList := by split <;> rfl

theorem ite_inLI (c : Prop) [Decidable c] (a b : State) :
    (if c then a else b).inLI = if c then a.inLI else b.inLI := by split <;> rfl

theorem ite_inTable (c : Prop) [Decidable c] (a b : State) :
    (if c then a else b).inTable = if c then a.inTable else b.inTable := by split <;> rfl

theorem ite_inCodeBlock (c : Prop) [Decidable c] (a b : State) :
    (if c then a else b).inCodeBlock = if c then a.inCodeBlock else b.inCodeBlock := by
  split <;> rfl

theorem ite_currentListTag (c : Prop) [Decidable c] (a b : State) :
    (if c then a else b).currentListTag = if c then a.currentListTag else b.currentListTag := by
  split <;> rfl

theorem inv_init : Inv State.init := by
  constructor <;> simp [State.init]

theorem inv_closeList (st : State) (h : Inv st) (hl : st.inList = true) : Inv (closeList st) := by
  obtain ⟨h1, h2, h3, h4, h5, h6⟩ := h
  have h5' := h5 hl
  rcases Bool.eq_false_or_eq_true st.inLI with hi | hi <;>
  cases ht : st.currentListTag <;>
  constructor <;>
  simp_all [closeList, List.countP_append, isListOpen, isListClose, isLiOpen,
      isLiClose, isTableOpen, isTableClose]


theorem inv_write_neutral (st : State) (o : Out) (h : Inv st)
    (ho : (isListOpen o || isListClose o || isLiOpen o || isLiClose o || isTableOpen o
      || isTableClose o) = false) :
    Inv (st.write o) := by
  obtain ⟨h1, h2, h3, h4, h5, h6⟩ := h
  simp only [Bool.or_eq_false_iff] at ho
  obtain ⟨⟨⟨⟨⟨a, b⟩, c⟩, d⟩, e⟩, f⟩ := ho
  constructor <;> simp_all [List.countP_append, List.countP_cons]

theorem inv_setI (st : State) (n : Nat) (h : Inv st) : Inv (st.setI n) := by
  obtain ⟨h1, h2, h3, h4, h5, h6⟩ := h
  constructor <;> simp_all

theorem closeTable_inTable (st : State) : (closeTable st).inTable = false := by
  unfold closeTable
  split <;> simp_all

theorem closeTable_inCodeBlock (st : State) : (closeTable st).inCodeBlock = st.inCodeBlock := by
  unfold closeTable
  split <;> simp_all

theorem inv_closeTable (st : State) (h : Inv st) : Inv (closeTable st) := by
  obtain ⟨h1, h2, h3, h4, h5, h6⟩ := h
  unfold closeTable
  split <;>
  constructor <;>
  simp_all [List.countP_append, isListOpen, isListClose, isLiOpen,
      isLiClose, isTableOpen, isTableClose]

theorem peekCaption_buf (lines : List Str) (st : State) : (peekCaption lines st).buf = st.buf := by
  unfold peekCaption; split <;> simp

theorem peekCaption_inList (lines : List Str) (st : State) :
    (peekCaption lines st).inList = st.inList := by
  unfold peekCaption; split <;> simp

theorem peekCaption_inLI (lines : List Str) (st : State) :
    (peekCaption lines st).inLI = st.inLI := by
  unfold peekCaption; split <;> simp

theorem peekCaption_inTable (lines : List Str) (st : State) :
    (peekCaption lines st).inTable = st.inTable := by
  unfold peekCaption; split <;> simp

theorem peekCaption_inCodeBlock (lines : List Str) (st : State) :
    (peekCaption lines st).inCodeBlock = st.inCodeBlock := by
  unfold peekCaption; split <;> simp

theorem peekCaption_currentListTag (lines : List Str) (st : State) :
    (peekCaption lines st).currentListTag = st.currentListTag := by
  unfold peekCaption; split <;> simp

theorem inv_peekCaption (lines : List Str) (st : State) (h : Inv st) :
    Inv (peekCaption lines st) := by
  obtain ⟨h1, h2, h3, h4, h5, h6⟩ := h
  constructor <;>
  simp_all [peekCaption_buf, peekCaption_inList, peekCaption_inLI, peekCaption_inTable,
    peekCaption_inCodeBlock, peekCaption_currentListTag]

theorem inv_stepFence (lines : List Str) (line : Str) (st : State) (h : Inv st) :
    Inv (stepFence lines line st) := by
  have h0 := inv_closeTable st h
  have ht := closeTable_inTable st
  unfold stepFence
  simp only []
  generalize closeTable st = s1 at h0 ht ⊢
  obtain ⟨h1, h2, h3, h4, h5, h6⟩ := h0
  split_ifs <;>
  constructor <;>
  simp_all [List.countP_append, isListOpen, isListClose, isLiOpen,
      isLiClose, isTableOpen, isTableClose, peekCaption_buf, peekCaption_inList, peekCaption_inLI,
      peekCaption_inTable, peekCaption_inCodeBlock, peekCaption_currentListTag]

theorem inv_stepListItem (trimmed : Str) (isUL isOL : Bool) (st : State) (h : Inv st) :
    Inv (stepListItem trimmed isUL isOL st) := by
  obtain ⟨h1, h2, h3, h4, h5, h6⟩ := h
  rcases Bool.eq_false_or_eq_true st.inList with hl | hl <;>
  rcases Bool.eq_false_or_eq_true st.inLI with hi | hi <;>
  cases ht : st.currentListTag <;>
  cases isOL <;>
  constructor <;>
  simp_all [stepListItem, List.countP_append, isListOpen, isListClose, isLiOpen,
      isLiClose, isTableOpen, isTableClose]

theorem inv_ite (c : Prop) [Decidable c] (a b : State) (ha : Inv a) (hb : Inv b) :
    Inv (if c then a else b) := by
  split <;> assumption

theorem closeList_inCodeBlock (st : State) : (closeList st).inCodeBlock = st.inCodeBlock := by
  unfold closeList
  simp only []
  split_ifs <;> simp

theorem listTermination_inCodeBlock (line trimmed : Str) (st : State) :
    (listTermination line trimmed st).inCodeBlock = st.inCodeBlock := by
  unfold listTermination
  simp only []
  split_ifs <;> simp [closeList_inCodeBlock]

theorem inv_listTermination (line trimmed : Str) (st : State) (h : Inv st) :
    Inv (listTermination line trimmed st) := by
  unfold listTermination
  simp only []
  split_ifs with h1 h2
  · exact inv_closeList st h h1
  · exact h
  · exact h

theorem inv_stepTable (lines : List Str) (line : Str) (st : State) (h : Inv st)
    (hc : st.inCodeBlock = false) : Inv (stepTable lines line st) := by
  obtain ⟨h1, h2, h3, h4, h5, h6⟩ := h
  unfold stepTable
  simp only []
  split_ifs <;>
  constructor <;>
  simp_all [List.countP_append, isListOpen, isListClose, isLiOpen,
      isLiClose, isTableOpen, isTableClose]

theorem inv_stepQuote (lines : List Str) (st : State) (h : Inv st) :
    Inv (stepQuote lines st) := by
  unfold stepQuote
  exact inv_setI _ _ (inv_write_neutral _ _ h (by simp [renderQuote, isListOpen, isListClose,
    isLiOpen, isLiClose, isTableOpen, isTableClose]))

theorem inv_stepPlain (line trimmed : Str) (isUL isOL : Bool) (st : State) (h : Inv st) :
    Inv (stepPlain line trimmed isUL isOL st) := by
  unfold stepPlain
  split_ifs
  all_goals first
    | exact h
    | exact inv_stepListItem _ _ _ _ h
    | exact inv_write_neutral _ _ h (by simp [isListOpen, isListClose, isLiOpen, isLiClose,
        isTableOpen, isTableClose])

theorem inv_stepBlock (lines : List Str) (line trimmed : Str) (st : State) (h : Inv st)
    (hc : st.inCodeBlock = false) : Inv (stepBlock lines line trimmed st) := by
  have h1 := inv_listTermination line trimmed st h
  have hc1 := (listTermination_inCodeBlock line trimmed st).trans hc
  unfold stepBlock
  simp only []
  generalize listTermination line trimmed st = s1 at h1 hc1 ⊢
  have h2 : Inv (if (s1.inList && (hasPrefix trimmed "#".toList
      || (trimmed == "---".toList || trimmed == "***".toList)
      || hasPrefix trimmed "<!--".toList)) = true then closeList s1 else s1) := by
    split_ifs with hl
    · exact inv_closeList _ h1 (by simp only [Bool.and_eq_true] at hl; exact hl.1)
    · exact h1
  have hc2 : (if (s1.inList && (hasPrefix trimmed "#".toList
      || (trimmed == "---".toList || trimmed == "***".toList)
      || hasPrefix trimmed "<!--".toList)) = true then closeList s1 else s1).inCodeBlock
      = false := by
    split_ifs
    · rw [closeList_inCodeBlock]; exact hc1
    · exact hc1
  generalize (if (s1.inList && (hasPrefix trimmed "#".toList
      || (trimmed == "---".toList || trimmed == "***".toList)
      || hasPrefix trimmed "<!--".toList)) = true then closeList s1 else s1) = s2 at h2 hc2 ⊢
  refine inv_ite _ _ _ h2 (inv_ite _ _ _ (inv_stepTable _ _ _ h2 hc2) (inv_ite _ _ _ ?_ ?_))
  · exact inv_stepQuote _ _ (inv_closeTable _ h2)
  · exact inv_stepPlain _ _ _ _ _ (inv_closeTable _ h2)

theorem inv_step (lines : List Str) (st : State) (h : Inv st) : Inv (step lines st) := by
  unfold step
  simp only []
  split_ifs with hf hc hm
  · exact inv_stepFence _ _ _ h
  · exact inv_write_neutral _ _ h (by simp [isListOpen, isListClose, isLiOpen, isLiClose,
        isTableOpen, isTableClose])
  · exact inv_write_neutral _ _ h (by simp [isListOpen, isListClose, isLiOpen, isLiClose,
        isTableOpen, isTableClose])
  · exact inv_stepBlock _ _ _ _ h (by simpa using hc)

theorem inv_loop (lines : List Str) : ∀ (fuel : Nat) (st : State), Inv st → Inv (loop lines fuel st)
  | 0, st, h => h
  | fuel + 1, st, h => by
    unfold loop
    split_ifs
    · exact inv_loop lines fuel _ (inv_setI _ _ (inv_step lines st h))
    · exact h

/-- C1. On the line `## 　1. 概述` (an ideographic space, U+3000, after the
heading marker) the two passes disagree: `generateTOC` trims the space and
then strips the numbering `1. `, giving the anchor `概述`, while
`markdownToBookHTML` slugs the untrimmed remainder, where the numbering is
not at the start, and puts the id `1-概述` on the `h2`. -/
theorem toc_anchor_ne_heading_id :
    tocAnchors (tocSubEntries "c.html".toList "## 　1. 概述".toList) = ["概述".toList] ∧
    h2Ids (markdownToBookHTMLOut "## 　1. 概述".toList) = ["1-概述".toList] ∧
    slugify (trimSpace (trimPrefix "## 　1. 概述".toList "## ".toList))
      ≠ slugify (trimPrefix "## 　1. 概述".toList "## ".toList) := by
  decide

/-- C2. For the chapter text made of a fence, the line `## x` and a closing
fence, `generateTOC` produces the sub-entry anchor `x`, while
`markdownToBookHTML` emits the line as code and no `h2` at all. -/
theorem toc_anchor_without_heading :
    tocAnchors (tocSubEntries "c.html".toList "\x60\x60\x60\n## x\n\x60\x60\x60".toList)
      = ["x".toList] ∧
    h2Ids (markdownToBookHTMLOut "\x60\x60\x60\n## x\n\x60\x60\x60".toList) = [] ∧
    markdownToBookHTMLOut "\x60\x60\x60\n## x\n\x60\x60\x60".toList
      = [.figureOpen "text".toList, .preCodeOpen "text".toList, .codeLine "## x".toList,
         .codeClose] := by
  decide

/-- C5. For the input of a fence line and one code line, never closed, the
output ends after the code line: no `</code></pre>`, no `</figure>`. -/
theorem unclosed_fence_not_closed :
    markdownToBookHTMLOut "\x60\x60\x60go\nx".toList
      = [.figureOpen "go".toList, .preCodeOpen "go".toList, .codeLine "x".toList] ∧
    markdownToBookHTML "\x60\x60\x60go\nx".toList [] false
      = "<figure class=\"code go\">\n<pre><code class=\"language-go\">x\n".toList ∧
    markdownToBookHTML "\x60\x60\x60mermaid\ngraph TD".toList [] false
      = "<div class=\"mermaid\">\ngraph TD\n".toList := by
  decide

theorem finish_balanced (st : State) (h : Inv st) :
    (finish st).buf.countP isListOpen = (finish st).buf.countP isListClose ∧
    (finish st).buf.countP isLiOpen = (finish st).buf.countP isLiClose ∧
    (finish st).buf.countP isTableOpen = (finish st).buf.countP isTableClose := by
  obtain ⟨h1, h2, h3, h4, h5, h6⟩ := h
  rcases Bool.eq_false_or_eq_true st.inList with hl | hl <;>
  rcases Bool.eq_false_or_eq_true st.inLI with hi | hi <;>
  rcases Bool.eq_false_or_eq_true st.inTable with ht | ht <;>
  cases hg : st.currentListTag <;>
  simp_all [finish, List.countP_append, isListOpen, isListClose, isLiOpen,
      isLiClose, isTableOpen, isTableClose]

/-- C4. In the writes of `markdownToBookHTML`, for every input, the tags
`<ul>`/`<ol>` are as many as the tags `</ul>`/`</ol>`, the `<li>` as many as
the `</li>`, and the `<table>` as many as the `</table>`. -/
theorem balanced_tags (md : Str) :
    (markdownToBookHTMLOut md).countP isListOpen = (markdownToBookHTMLOut md).countP isListClose ∧
    (markdownToBookHTMLOut md).countP isLiOpen = (markdownToBookHTMLOut md).countP isLiClose ∧
    (markdownToBookHTMLOut md).countP isTableOpen
      = (markdownToBookHTMLOut md).countP isTableClose :=
  finish_balanced _ (inv_loop _ _ _ inv_init)

/-- C7, counterexample. After the two lines `- a` and a fence, a list
and a code block are open together; after the two lines `- a` and an indented
table row, a list and a table are open together. -/
theorem two_blocks_open :
    (loop ["- a".toList, "\x60\x60\x60".toList] 2 State.init).inList = true ∧
    (loop ["- a".toList, "\x60\x60\x60".toList] 2 State.init).inCodeBlock = true ∧
    (loop ["- a".toList, "  | x |".toList] 2 State.init).inList = true ∧
    (loop ["- a".toList, "  | x |".toList] 2 State.init).inTable = true := by
  decide

/-- C7, amended. No state of the line loop has a code block and a table open
together (a list may be open along with either), an open list item lies in an
open list, and an open list has its tag. -/
theorem code_block_excludes_table (lines : List Str) (fuel : Nat) :
    ¬ ((loop lines fuel State.init).inCodeBlock = true
        ∧ (loop lines fuel State.init).inTable = true) ∧
    ((loop lines fuel State.init).inLI = true → (loop lines fuel State.init).inList = true) ∧
    ((loop lines fuel State.init).inList = true →
      (loop lines fuel State.init).currentListTag ≠ .empty) :=
  ⟨(inv_loop lines fuel _ inv_init).codeNoTable, (inv_loop lines fuel _ inv_init).itemInList,
    (inv_loop lines fuel _ inv_init).listTag⟩

/-- C6, counterexample. For the input of an item `- a`, a fence `go`,
a code line `x` and a closing fence, the figure is written inside the open list
item; `</li>` and `</ul>` come last, after `</figure>`. -/
theorem list_closed_after_figure :
    markdownToBookHTMLOut "- a\n\x60\x60\x60go\nx\n\x60\x60\x60".toList
      = [.listOpen .ul, .li "a".toList, .figureOpen "go".toList, .preCodeOpen "go".toList,
         .codeLine "x".toList, .codeClose, .liClose, .listClose .ul] ∧
    markdownToBookHTML "- a\n\x60\x60\x60go\nx\n\x60\x60\x60".toList [] false
      = ("<ul>\n<li><p>a</p><figure class=\"code go\">\n<pre><code class=\"language-go\">x\n"
          ++ "</code></pre>\n</figure>\n</li>\n</ul>\n").toList := by
  decide

theorem closeTable_writes (st : State) :
    ∃ ws, (closeTable st).buf = st.buf ++ ws ∧ ∀ o ∈ ws, o = Out.tableClose := by
  unfold closeTable
  split
  · exact ⟨[.tableClose], by simp, by simp⟩
  · exact ⟨[], by simp, by simp⟩

theorem closeTable_inList (st : State) : (closeTable st).inList = st.inList := by
  unfold closeTable; split <;> simp

theorem closeTable_inLI (st : State) : (closeTable st).inLI = st.inLI := by
  unfold closeTable; split <;> simp

theorem closeTable_currentListTag (st : State) :
    (closeTable st).currentListTag = st.currentListTag := by
  unfold closeTable; split <;> simp

/-- C6, amended. A fence line never closes a list: whatever the state, the step
for a fence line leaves `inList`, `inLI` and `currentListTag` as they are and
writes neither `</li>` nor a list closing tag; if no code block was open it
opens one, writing the figure (or the diagram container) while the list is
still open. The closing tags of the list come with a later line or at the end
of input. -/
theorem fence_keeps_list_open (lines : List Str) (st : State)
    (hf : hasPrefix (lines.getD st.i []) "\x60\x60\x60".toList = true) :
    (step lines st).inList = st.inList ∧
    (step lines st).inLI = st.inLI ∧
    (step lines st).currentListTag = st.currentListTag ∧
    (∃ ws, (step lines st).buf = st.buf ++ ws ∧
      (∀ o ∈ ws, isLiClose o = false ∧ ∀ t, o ≠ Out.listClose t) ∧
      (st.inCodeBlock = false →
        (step lines st).inCodeBlock = true ∧
        (Out.mermaidOpen ∈ ws ∨ ∃ lang, Out.figureOpen lang ∈ ws))) := by
  unfold step
  simp only [hf, if_true]
  obtain ⟨w0, hw0, hw0'⟩ := closeTable_writes st
  have e1 := closeTable_inList st
  have e2 := closeTable_inLI st
  have e3 := closeTable_currentListTag st
  have e4 := closeTable_inCodeBlock st
  unfold stepFence
  simp only []
  generalize closeTable st = s1 at hw0 e1 e2 e3 e4 ⊢
  have hw : ∀ o ∈ w0, isLiClose o = false ∧ ∀ t, o ≠ Out.listClose t := by
    intro o ho
    rw [hw0' o ho]
    simp [isLiClose]
  generalize (if (trimPrefix (lines.getD st.i []) "\x60\x60\x60".toList).isEmpty = true
      then "text".toList else trimPrefix (lines.getD st.i []) "\x60\x60\x60".toList) = lang
  split_ifs with h1 h2 h3 h4
  · refine ⟨by simpa using e1, by simpa using e2, by simpa using e3,
      w0 ++ [.mermaidClose], by simp [hw0], ?_, ?_⟩
    · intro o ho
      rcases List.mem_append.1 ho with ho | ho
      · exact hw o ho
      · simp at ho; subst ho; simp [isLiClose]
    · intro hc; rw [e4, hc] at h1; simp at h1
  · refine ⟨by simpa using e1, by simpa using e2, by simpa using e3,
      w0 ++ [.codeClose], by simp [hw0], ?_, ?_⟩
    · intro o ho
      rcases List.mem_append.1 ho with ho | ho
      · exact hw o ho
      · simp at ho; subst ho; simp [isLiClose]
    · intro hc; rw [e4, hc] at h1; simp at h1
  · refine ⟨by simpa using e1, by simpa using e2, by simpa using e3,
      w0 ++ [.mermaidOpen], by simp [hw0], ?_, ?_⟩
    · intro o ho
      rcases List.mem_append.1 ho with ho | ho
      · exact hw o ho
      · simp at ho; subst ho; simp [isLiClose]
    · intro _; simp
  · refine ⟨by simpa [peekCaption_inList] using e1, by simpa [peekCaption_inLI] using e2,
      by simpa [peekCaption_currentListTag] using e3,
      w0 ++ [.figureOpen lang, .figcaption (peekCaption lines (s1.setCodeLang lang)).codeFileName,
        .preCodeOpen lang],
      by simp [hw0, peekCaption_buf], ?_, ?_⟩
    · intro o ho
      rcases List.mem_append.1 ho with ho | ho
      · exact hw o ho
      · simp at ho; rcases ho with ho | ho | ho <;> subst ho <;> simp [isLiClose]
    · intro _; simp
  · refine ⟨by simpa [peekCaption_inList] using e1, by simpa [peekCaption_inLI] using e2,
      by simpa [peekCaption_currentListTag] using e3,
      w0 ++ [.figureOpen lang, .preCodeOpen lang],
      by simp [hw0, peekCaption_buf], ?_, ?_⟩
    · intro o ho
      rcases List.mem_append.1 ho with ho | ho
      · exact hw o ho
      · simp at ho; rcases ho with ho | ho <;> subst ho <;> simp [isLiClose]
    · intro _; simp

/-- C6, an instance: in the input of the item `- a` and the fence `go`, the
list is open when the fence line is reached and still open after it. -/
theorem fence_keeps_list_open_witness :
    hasPrefix (["- a".toList, "\x60\x60\x60go".toList].getD
      (loop ["- a".toList, "\x60\x60\x60go".toList] 1 State.init).i []) "\x60\x60\x60".toList
      = true ∧
    (loop ["- a".toList, "\x60\x60\x60go".toList] 1 State.init).inList = true ∧
    (step ["- a".toList, "\x60\x60\x60go".toList]
      (loop ["- a".toList, "\x60\x60\x60go".toList] 1 State.init)).inList = true :=
  ⟨by decide, by decide,
   (fence_keeps_list_open ["- a".toList, "\x60\x60\x60go".toList]
      (loop ["- a".toList, "\x60\x60\x60go".toList] 1 State.init) (by decide)).1.trans
      (by decide)⟩

theorem closeList_i (st : State) : (closeList st).i = st.i := by
  unfold closeList
  simp only []
  split_ifs <;> simp

theorem closeTable_i (st : State) : (closeTable st).i = st.i := by
  unfold closeTable; split <;> simp

theorem listTermination_i (line trimmed : Str) (st : State) :
    (listTermination line trimmed st).i = st.i := by
  unfold listTermination
  simp only []
  split_ifs <;> simp [closeList_i]

theorem peekCaption_i (lines : List Str) (st : State) (n : Nat) (h : st.i = n) :
    n ≤ (peekCaption lines st).i := by
  subst h
  unfold peekCaption; split <;> simp

theorem stepFence_i (lines : List Str) (line : Str) (st : State) :
    st.i ≤ (stepFence lines line st).i := by
  unfold stepFence
  simp only []
  have h := closeTable_i st
  generalize closeTable st = s1 at h ⊢
  split_ifs <;> simp [h.symm] <;> exact peekCaption_i lines _ _ rfl

theorem stepTable_i (lines : List Str) (line : Str) (st : State) :
    st.i ≤ (stepTable lines line st).i := by
  unfold stepTable
  simp only []
  split_ifs <;> simp

theorem stepListItem_i (trimmed : Str) (isUL isOL : Bool) (st : State) :
    (stepListItem trimmed isUL isOL st).i = st.i := by
  unfold stepListItem
  simp only []
  split_ifs <;> simp

theorem stepPlain_i (line trimmed : Str) (isUL isOL : Bool) (st : State) :
    (stepPlain line trimmed isUL isOL st).i = st.i := by
  unfold stepPlain
  split_ifs <;> simp [stepListItem_i]

theorem stepQuote_i (lines : List Str) (st : State)
    (hq : hasPrefix (lines.getD st.i []) "> ".toList = true) :
    st.i ≤ (stepQuote lines st).i := by
  unfold stepQuote
  simp only [State.setI_i]
  have hlt : st.i < lines.length := by
    by_contra hge
    rw [List.getD_eq_default _ _ (not_lt.1 hge)] at hq
    simp [hasPrefix] at hq
  have hd : lines.drop st.i = lines.getD st.i [] :: lines.drop (st.i + 1) := by
    rw [List.getD_eq_getElem _ _ hlt]
    exact List.drop_eq_getElem_cons hlt
  rw [hd, List.takeWhile_cons, if_pos hq, List.length_cons]
  omega

theorem stepBlock_i (lines : List Str) (st : State) :
    st.i ≤ (stepBlock lines (lines.getD st.i []) (trimSpace (lines.getD st.i [])) st).i := by
  unfold stepBlock
  simp only []
  have h1 := listTermination_i (lines.getD st.i []) (trimSpace (lines.getD st.i [])) st
  generalize listTermination (lines.getD st.i []) (trimSpace (lines.getD st.i [])) st = s1
    at h1 ⊢
  have h2 : (if (s1.inList && (hasPrefix (trimSpace (lines.getD st.i [])) "#".toList
      || (trimSpace (lines.getD st.i []) == "---".toList
        || trimSpace (lines.getD st.i []) == "***".toList)
      || hasPrefix (trimSpace (lines.getD st.i [])) "<!--".toList)) = true
      then closeList s1 else s1).i = st.i := by
    split_ifs
    · rw [closeList_i]; exact h1
    · exact h1
  generalize (if (s1.inList && (hasPrefix (trimSpace (lines.getD st.i [])) "#".toList
      || (trimSpace (lines.getD st.i []) == "---".toList
        || trimSpace (lines.getD st.i []) == "***".toList)
      || hasPrefix (trimSpace (lines.getD st.i [])) "<!--".toList)) = true
      then closeList s1 else s1) = s2 at h2 ⊢
  split_ifs with hc ht hq
  · exact h2.ge
  · rw [← h2]; exact stepTable_i _ _ _
  · have h3 := closeTable_i s2
    rw [← h2, ← h3]
    exact stepQuote_i lines _ (by rw [h3, h2]; exact hq)
  · rw [stepPlain_i, closeTable_i, h2]

theorem step_i (lines : List Str) (st : State) : st.i ≤ (step lines st).i := by
  unfold step
  simp only []
  split_ifs
  · exact stepFence_i _ _ _
  · simp
  · simp
  · exact stepBlock_i lines st

/-- The loop runs to its exit on the fuel that `markdownToBookHTMLOut` gives it:
every iteration moves the index forward, so with `fuel` at least the number of
lines still ahead the loop ends with `i` at or past the last line. -/
theorem loop_exits (lines : List Str) : ∀ (fuel : Nat) (st : State),
    lines.length ≤ st.i + fuel → lines.length ≤ (loop lines fuel st).i
  | 0, st, h => by simpa [loop] using h
  | fuel + 1, st, h => by
    unfold loop
    split_ifs with hlt
    · apply loop_exits lines fuel
      have := step_i lines st
      simp only [State.setI_i]
      omega
    · exact not_lt.1 hlt

/-- More fuel than the loop needs changes nothing. -/
theorem loop_fuel_irrelevant (lines : List Str) : ∀ (fuel extra : Nat) (st : State),
    lines.length ≤ st.i + fuel → loop lines (fuel + extra) st = loop lines fuel st
  | 0, extra, st, h => by
    have h' : ¬ st.i < lines.length := by omega
    cases extra with
    | zero => rfl
    | succ e => simp [loop, h']
  | fuel + 1, extra, st, h => by
    rw [Nat.add_right_comm]
    unfold loop
    split_ifs with hlt
    · apply loop_fuel_irrelevant lines fuel extra
      have := step_i lines st
      simp only [State.setI_i]
      omega
    · rfl

/-! ### Inline substitutions -/

theorem replaceAllGo_skip (m : Str → Option (Str × Nat)) :
    ∀ (xs ys : Str), replaceAllGo m xs.length (xs ++ ys) = replaceAllGo m 0 ys
  | [], ys => rfl
  | x :: xs, ys => by
    simp only [List.length_cons, List.cons_append, replaceAllGo]
    exact replaceAllGo_skip m xs ys

theorem replaceAllGo_pass (m : Str → Option (Str × Nat)) :
    ∀ (xs ys : Str), (∀ c ∈ xs, ∀ t, m (c :: t) = none) →
      replaceAllGo m 0 (xs ++ ys) = xs ++ replaceAllGo m 0 ys
  | [], ys, _ => rfl
  | x :: xs, ys, h => by
    have hx := h x (List.mem_cons_self _ _) (xs ++ ys)
    have ih := replaceAllGo_pass m xs ys (fun c hc => h c (List.mem_cons_of_mem _ hc))
    show replaceAllGo m 0 (x :: (xs ++ ys)) = x :: (xs ++ replaceAllGo m 0 ys)
    rw [replaceAllGo, hx, ih]

theorem replaceAllGo_nil (m : Str → Option (Str × Nat)) (k : Nat) : replaceAllGo m k [] = [] := by
  cases k <;> rfl

theorem replaceAll_pass (m : Str → Option (Str × Nat)) (s : Str)
    (h : ∀ c ∈ s, ∀ t, m (c :: t) = none) : replaceAll m s = s := by
  have := replaceAllGo_pass m s [] h
  simpa [replaceAll, replaceAllGo_nil] using this

theorem replaceAll_of_hasMatch_false (m : Str → Option (Str × Nat)) :
    ∀ (s : Str), hasMatch m s = false → replaceAll m s = s
  | [], _ => rfl
  | c :: cs, h => by
    simp only [hasMatch, Bool.or_eq_false_iff] at h
    have h1 : m (c :: cs) = none := by
      cases hm : m (c :: cs) with
      | none => rfl
      | some v => rw [hm] at h; simp at h
    have ih := replaceAll_of_hasMatch_false m cs h.2
    unfold replaceAll at ih ⊢
    simp only [replaceAllGo, h1, ih]

theorem matchBold_head (c : Char) (t : Str) (h : c ≠ '*') : matchBold (c :: t) = none := by
  unfold matchBold
  split
  · rename_i heq
    simp at heq
    exact absurd heq.1 h
  · rfl

theorem matchItalic_head (c : Char) (t : Str) (h : c ≠ '*') : matchItalic (c :: t) = none := by
  unfold matchItalic
  split
  · rename_i heq
    simp at heq
    exact absurd heq.1 h
  · rfl

theorem matchCode_head (c : Char) (t : Str) (h : c ≠ '\x60') : matchCode (c :: t) = none := by
  unfold matchCode
  split
  · rename_i heq
    simp at heq
    exact absurd heq.1 h
  · rfl

theorem matchLink_head (c : Char) (t : Str) (h : c ≠ '[') : matchLink (c :: t) = none := by
  unfold matchLink
  split
  · rename_i heq
    simp at heq
    exact absurd heq.1 h
  · rfl

theorem matchImage_none (s : Str) (h : ∀ c ∈ s, c ≠ '[') : matchImage s = none := by
  unfold matchImage
  split
  · rename_i r
    exact absurd rfl (h '[' (by simp))
  · rfl

theorem hasMatch_image_false : ∀ (s : Str), (∀ c ∈ s, c ≠ '[') → hasMatch matchImage s = false
  | [], _ => by simp [hasMatch, matchImage]
  | c :: cs, h => by
    simp only [hasMatch, Bool.or_eq_false_iff]
    refine ⟨by rw [matchImage_none _ h]; rfl, ?_⟩
    exact hasMatch_image_false cs (fun x hx => h x (List.mem_cons_of_mem _ hx))

/-- The text without `*`, backtick and `[` is left as it is by `processInline`. -/
theorem processInline_plain (text : Str)
    (h : ∀ c ∈ text, c ≠ '*' ∧ c ≠ '\x60' ∧ c ≠ '[') : processInline text = text := by
  unfold processInline
  simp only []
  rw [replaceAll_of_hasMatch_false _ _ (hasMatch_image_false text (fun c hc => (h c hc).2.2)),
    replaceAll_pass matchBold text (fun c hc t => matchBold_head c t (h c hc).1),
    replaceAll_pass matchItalic text (fun c hc t => matchItalic_head c t (h c hc).1),
    replaceAll_pass matchCode text (fun c hc t => matchCode_head c t (h c hc).2.1),
    replaceAll_pass matchLink text (fun c hc t => matchLink_head c t (h c hc).2.2)]

theorem takeWhile_stop (a rest : Str) (c : Char) (h : ∀ x ∈ a, x ≠ c) :
    (a ++ c :: rest).takeWhile (fun x => x != c) = a := by
  rw [List.takeWhile_append_of_pos (fun x hx => by simpa using h x hx)]
  simp

theorem dropWhile_stop (a rest : Str) (c : Char) (h : ∀ x ∈ a, x ≠ c) :
    (a ++ c :: rest).dropWhile (fun x => x != c) = c :: rest := by
  rw [List.dropWhile_append_of_pos (fun x hx => by simpa using h x hx)]
  simp

theorem matchBold_hit (a rest : Str) (ha : a ≠ []) (h : ∀ x ∈ a, x ≠ '*') :
    matchBold ('*' :: '*' :: (a ++ '*' :: '*' :: rest))
      = some ("<strong>".toList ++ a ++ "</strong>".toList, a.length + 4) := by
  simp [matchBold, takeWhile_stop a ('*' :: rest) '*' h, dropWhile_stop a ('*' :: rest) '*' h, ha]

theorem matchItalic_hit (b rest : Str) (hb : b ≠ []) (h : ∀ x ∈ b, x ≠ '*') :
    matchItalic ('*' :: (b ++ '*' :: rest))
      = some ("<em>".toList ++ b ++ "</em>".toList, b.length + 2) := by
  simp [matchItalic, takeWhile_stop b rest '*' h, dropWhile_stop b rest '*' h, hb]

theorem matchBold_second (c d : Char) (t : Str) (h : d ≠ '*') :
    matchBold (c :: d :: t) = none := by
  unfold matchBold
  split
  · rename_i heq
    simp at heq
    exact absurd heq.2.1 h
  · rfl


/-- C8. Bold is applied before italic and the two render as siblings: for
non-empty `a` and `b` without `*`, backtick, `[` and `]`, the text `**a** and
*b*` becomes `<strong>a</strong> and <em>b</em>`. -/
theorem bold_before_italic (a b : Str) (ha : a ≠ []) (hb : b ≠ [])
    (ha' : ∀ c ∈ a, c ≠ '*' ∧ c ≠ '\x60' ∧ c ≠ '[' ∧ c ≠ ']')
    (hb' : ∀ c ∈ b, c ≠ '*' ∧ c ≠ '\x60' ∧ c ≠ '[' ∧ c ≠ ']') :
    processInline ("**".toList ++ a ++ "** and *".toList ++ b ++ "*".toList)
      = "<strong>".toList ++ a ++ "</strong> and <em>".toList ++ b ++ "</em>".toList := by
  have hin : "**".toList ++ a ++ "** and *".toList ++ b ++ "*".toList
      = '*' :: '*' :: (a ++ '*' :: '*' :: (" and ".toList ++ '*' :: (b ++ ['*']))) := by
    simp
  have himg : ∀ c ∈ '*' :: '*' :: (a ++ '*' :: '*' :: (" and ".toList ++ '*' :: (b ++ ['*']))),
      c ≠ '[' := by
    intro c hc
    simp only [List.mem_cons, List.mem_append] at hc
    rcases hc with h | h | h | h | h | h | h | h | h
    · subst h; decide
    · subst h; decide
    · exact (ha' c h).2.2.1
    · subst h; decide
    · subst h; decide
    · revert c; decide
    · subst h; decide
    · exact (hb' c h).2.2.1
    · simp at h; subst h; decide
  -- the bold pass
  have hbold : replaceAll matchBold
      ('*' :: '*' :: (a ++ '*' :: '*' :: (" and ".toList ++ '*' :: (b ++ ['*']))))
      = "<strong>".toList ++ a ++ "</strong>".toList ++ (" and ".toList ++ '*' :: (b ++ ['*'])) := by
    unfold replaceAll
    rw [replaceAllGo, matchBold_hit a _ ha (fun x hx => (ha' x hx).1)]
    simp only []
    have e : '*' :: (a ++ '*' :: '*' :: (" and ".toList ++ '*' :: (b ++ ['*'])))
        = ('*' :: (a ++ ['*', '*'])) ++ (" and ".toList ++ '*' :: (b ++ ['*'])) := by simp
    have el : a.length + 4 - 1 = ('*' :: (a ++ ['*', '*'])).length := by simp
    rw [e, el, replaceAllGo_skip]
    congr 1
    rw [replaceAllGo_pass matchBold " and ".toList _
      (fun c hc t => matchBold_head c t (by revert c; decide))]
    congr 1
    obtain ⟨b0, bs, rfl⟩ := List.exists_cons_of_ne_nil hb
    have hb0 : b0 ≠ '*' := (hb' b0 (List.mem_cons_self _ _)).1
    rw [List.cons_append, replaceAllGo, matchBold_second _ _ _ hb0]
    have := replaceAllGo_pass matchBold (b0 :: bs) ['*']
      (fun c hc t => matchBold_head c t (hb' c hc).1)
    rw [List.cons_append] at this
    rw [this]
    rfl
  -- the italic pass
  have hital : replaceAll matchItalic
      ("<strong>".toList ++ a ++ "</strong>".toList ++ (" and ".toList ++ '*' :: (b ++ ['*'])))
      = "<strong>".toList ++ a ++ "</strong> and <em>".toList ++ b ++ "</em>".toList := by
    unfold replaceAll
    have e : "<strong>".toList ++ a ++ "</strong>".toList ++ (" and ".toList ++ '*' :: (b ++ ['*']))
        = ("<strong>".toList ++ a ++ "</strong> and ".toList) ++ '*' :: (b ++ ['*']) := by simp
    rw [e, replaceAllGo_pass]
    · rw [replaceAllGo, matchItalic_hit b [] hb (fun x hx => (hb' x hx).1)]
      simp only []
      have el : b.length + 2 - 1 = (b ++ ['*']).length := by simp
      rw [el]
      have := replaceAllGo_skip matchItalic (b ++ ['*']) []
      rw [List.append_nil] at this
      rw [this]
      simp [replaceAllGo]
    · intro c hc t
      apply matchItalic_head
      simp only [List.mem_append] at hc
      rcases hc with (h | h) | h
      · revert c; decide
      · exact (ha' c h).1
      · revert c; decide
  have hout : ∀ c ∈ "<strong>".toList ++ a ++ "</strong> and <em>".toList ++ b ++ "</em>".toList,
      c ≠ '\x60' ∧ c ≠ '[' := by
    intro c hc
    simp only [List.mem_append] at hc
    rcases hc with (((h | h) | h) | h) | h
    · revert c; decide
    · exact ⟨(ha' c h).2.1, (ha' c h).2.2.1⟩
    · revert c; decide
    · exact ⟨(hb' c h).2.1, (hb' c h).2.2.1⟩
    · revert c; decide
  unfold processInline
  simp only []
  rw [hin, replaceAll_of_hasMatch_false _ _ (hasMatch_image_false _ himg), hbold, hital,
    replaceAll_pass matchCode _ (fun c hc t => matchCode_head c t (hout c hc).1),
    replaceAll_pass matchLink _ (fun c hc t => matchLink_head c t (hout c hc).2)]

/-- C8, the case of the specification: `**bold** and *italic*`. -/
theorem bold_before_italic_witness :
    processInline "**bold** and *italic*".toList
      = "<strong>bold</strong> and <em>italic</em>".toList :=
  bold_before_italic "bold".toList "italic".toList (by decide) (by decide) (by decide) (by decide)

theorem matchImage_hit (alt src : Str) (hs : src ≠ [])
    (ha : ∀ x ∈ alt, x ≠ ']') (hs' : ∀ x ∈ src, x ≠ ')') :
    matchImage ('!' :: '[' :: (alt ++ ']' :: '(' :: (src ++ [')'])))
      = some ("<figure class=\"img\"><img src=\"".toList ++ src ++ "\" alt=\"".toList ++ alt
          ++ "\"></figure>".toList, alt.length + src.length + 5) := by
  simp [matchImage, takeWhile_stop alt _ ']' ha, dropWhile_stop alt _ ']' ha,
    takeWhile_stop src [] ')' hs', dropWhile_stop src [] ')' hs', hs]

/-- The image substitution alone puts `alt` and `src` into the figure as they
are. -/
theorem image_pass_verbatim (alt src : Str) (hs : src ≠ [])
    (ha : ∀ x ∈ alt, x ≠ ']') (hs' : ∀ x ∈ src, x ≠ ')') :
    replaceAll matchImage ("![".toList ++ alt ++ "](".toList ++ src ++ ")".toList)
      = "<figure class=\"img\"><img src=\"".toList ++ src ++ "\" alt=\"".toList ++ alt
          ++ "\"></figure>".toList := by
  have hin : "![".toList ++ alt ++ "](".toList ++ src ++ ")".toList
      = '!' :: '[' :: (alt ++ ']' :: '(' :: (src ++ [')'])) := by simp
  unfold replaceAll
  rw [hin, replaceAllGo, matchImage_hit alt src hs ha hs']
  simp only []
  have e : '[' :: (alt ++ ']' :: '(' :: (src ++ [')']))
      = ('[' :: (alt ++ ']' :: '(' :: (src ++ [')']))) ++ [] := by simp
  have el : alt.length + src.length + 5 - 1
      = ('[' :: (alt ++ ']' :: '(' :: (src ++ [')']))).length := by
    simp; omega
  rw [e, el, replaceAllGo_skip]
  simp [replaceAllGo]

/-- C9, counterexample. The alt text `*a*` has no `]`, the source `x`
is non-empty and has no `)`, and the alt text does not come out as it is: the
italic substitution rewrites it inside the attribute. -/
theorem image_alt_rewritten :
    processInline "![*a*](x)".toList
      = "<figure class=\"img\"><img src=\"x\" alt=\"<em>a</em>\"></figure>".toList ∧
    processInline "![*a*](x)".toList
      ≠ "<figure class=\"img\"><img src=\"x\" alt=\"*a*\"></figure>".toList := by
  decide

/-- C9, amended. For an alt text without `]` and a non-empty source without `)`,
both also without `*`, backtick and `[`, the text `![alt](src)` becomes the
figure with `alt` and `src` as they are. -/
theorem image_verbatim (alt src : Str) (hs : src ≠ [])
    (ha : ∀ x ∈ alt, x ≠ ']' ∧ x ≠ '*' ∧ x ≠ '\x60' ∧ x ≠ '[')
    (hs' : ∀ x ∈ src, x ≠ ')' ∧ x ≠ '*' ∧ x ≠ '\x60' ∧ x ≠ '[') :
    processInline ("![".toList ++ alt ++ "](".toList ++ src ++ ")".toList)
      = "<figure class=\"img\"><img src=\"".toList ++ src ++ "\" alt=\"".toList ++ alt
          ++ "\"></figure>".toList := by
  have hout : ∀ c ∈ "<figure class=\"img\"><img src=\"".toList ++ src ++ "\" alt=\"".toList ++ alt
      ++ "\"></figure>".toList, c ≠ '*' ∧ c ≠ '\x60' ∧ c ≠ '[' := by
    intro c hc
    simp only [List.mem_append] at hc
    rcases hc with (((h | h) | h) | h) | h
    · revert c; decide
    · exact (hs' c h).2
    · revert c; decide
    · exact (ha c h).2
    · revert c; decide
  unfold processInline
  simp only []
  rw [image_pass_verbatim alt src hs (fun x hx => (ha x hx).1) (fun x hx => (hs' x hx).1),
    replaceAll_pass matchBold _ (fun c hc t => matchBold_head c t (hout c hc).1),
    replaceAll_pass matchItalic _ (fun c hc t => matchItalic_head c t (hout c hc).1),
    replaceAll_pass matchCode _ (fun c hc t => matchCode_head c t (hout c hc).2.1),
    replaceAll_pass matchLink _ (fun c hc t => matchLink_head c t (hout c hc).2.2)]

/-- C9, an instance: the image `![a cat](img/cat.png)`. -/
theorem image_verbatim_witness :
    processInline "![a cat](img/cat.png)".toList
      = "<figure class=\"img\"><img src=\"img/cat.png\" alt=\"a cat\"></figure>".toList :=
  image_verbatim "a cat".toList "img/cat.png".toList (by decide) (by decide) (by decide)

/-- C10. `processInline` is the identity on a text in which none of the five
patterns (image, bold, italic, inline code, link) matches, and so on every text
that has no `*`, no backtick and no `[`. -/
theorem processInline_identity (text : Str)
    (h : (hasMatch matchImage text = false ∧ hasMatch matchBold text = false ∧
          hasMatch matchItalic text = false ∧ hasMatch matchCode text = false ∧
          hasMatch matchLink text = false)
        ∨ (∀ c ∈ text, c ≠ '*' ∧ c ≠ '\x60' ∧ c ≠ '[')) :
    processInline text = text := by
  rcases h with ⟨h1, h2, h3, h4, h5⟩ | h
  · unfold processInline
    simp only []
    rw [replaceAll_of_hasMatch_false _ _ h1, replaceAll_of_hasMatch_false _ _ h2,
      replaceAll_of_hasMatch_false _ _ h3, replaceAll_of_hasMatch_false _ _ h4,
      replaceAll_of_hasMatch_false _ _ h5]
  · exact processInline_plain text h

/-- C10, two instances: a text with a lone `*` and an unfinished link, in which
no pattern matches, and a text without any of the three marks. -/
theorem processInline_identity_witness :
    processInline "2 * 3 [see (a)".toList = "2 * 3 [see (a)".toList ∧
    processInline "plain text, 1 < 2 & (b)".toList = "plain text, 1 < 2 & (b)".toList :=
  ⟨processInline_identity "2 * 3 [see (a)".toList (Or.inl (by decide)),
   processInline_identity "plain text, 1 < 2 & (b)".toList (Or.inr (by decide))⟩

/-! ### Callouts, slugs of numbered headings, list items -/

/-- C11, counterexample. The one-line quote `> 💡 注意` holds the caution marker
`注意` and the hint marker `💡`: it renders with class `hint` and label `Hint:`,
not as `important`. -/
theorem caution_with_hint_is_hint :
    markdownToBookHTMLOut "> 💡 注意".toList
      = [.aside "hint".toList "Hint:".toList "注意".toList] ∧
    markdownToBookHTML "> 💡 注意".toList [] false
      = "<aside class=\"hint\"><p>\n<strong>Hint:</strong> 注意\n</p></aside>\n".toList := by
  decide

/-- C13, counterexample. For the heading text `第一节：概述` the slug is
`一节概述`: the prefix pattern takes `第` and stops at the numeral `一`, which is
not a digit. -/
theorem slugify_chinese_numeral :
    slugify "第一节：概述".toList = "一节概述".toList ∧
    slugify "第一节：概述".toList ≠ "概述".toList ∧
    h2Ids (markdownToBookHTMLOut "## 第一节：概述\n内容。\n- 项 一\n- 项 二\n".toList)
      = ["一节概述".toList] := by
  decide

/-- C17. For the item line `- * x` the content after the marker `- ` is `* x`;
the item is written with the content `x`: both markers are stripped. -/
theorem item_marker_stripped_twice :
    markdownToBookHTMLOut "- * x".toList = [.listOpen .ul, .li "x".toList, .liClose, .listClose .ul] ∧
    markdownToBookHTML "- * x".toList [] false = "<ul>\n<li><p>x</p></li>\n</ul>\n".toList ∧
    "<li><p>".toList ++ processInline "* x".toList ++ "</p>".toList = "<li><p>* x</p>".toList := by
  decide

/-- C18. For the input `- a`, an empty line, `- b`, the empty line closes the
list: two lists of one item each are written. -/
theorem blank_line_closes_list :
    markdownToBookHTMLOut "- a\n\n- b".toList
      = [.listOpen .ul, .li "a".toList, .liClose, .listClose .ul,
         .listOpen .ul, .li "b".toList, .liClose, .listClose .ul] ∧
    markdownToBookHTML "- a\n\n- b".toList [] false
      = "<ul>\n<li><p>a</p></li>\n</ul>\n<ul>\n<li><p>b</p></li>\n</ul>\n".toList ∧
    (step ["- a".toList, [], "- b".toList]
      (loop ["- a".toList, [], "- b".toList] 1 State.init)).inList = false := by
  decide

/-- C20, counterexample. The slug of `(1) intro` is `1-intro`, and the slug of
`1-intro` is `intro`: the leading `1` of the slug is taken for numbering. -/
theorem slugify_not_idempotent :
    slugify "(1) intro".toList = "1-intro".toList ∧
    slugify (slugify "(1) intro".toList) = "intro".toList ∧
    slugify (slugify "(1) intro".toList) ≠ slugify "(1) intro".toList := by
  decide

/-! ### The first rune of a line and of its trimmed text -/

theorem hasPrefix_cons_head (l : Str) (d : Char) (ds : Str) (h : hasPrefix l (d :: ds) = true) :
    l.head? = some d := by
  cases l with
  | nil => simp [hasPrefix, List.isPrefixOf] at h
  | cons a r =>
    simp only [hasPrefix, List.isPrefixOf, Bool.and_eq_true, beq_iff_eq] at h
    simp [h.1]

theorem hasPrefix_false_of_head (l : Str) (d e : Char) (es : Str) (h : l.head? = some d)
    (hne : e ≠ d) : hasPrefix l (e :: es) = false := by
  cases hp : hasPrefix l (e :: es) with
  | false => rfl
  | true =>
    have := hasPrefix_cons_head l e es hp
    rw [h] at this
    exact absurd (Option.some.inj this).symm hne

theorem trimSpace_head (l : Str) (d : Char) (h : l.head? = some d) (hd : isSpace d = false) :
    (trimSpace l).head? = some d := by
  cases l with
  | nil => simp at h
  | cons a r =>
    simp only [List.head?_cons, Option.some.injEq] at h
    subst h
    have h1 : (a :: r).dropWhile isSpace = a :: r := by simp [List.dropWhile, hd]
    unfold trimSpace dropRightWhile
    rw [h1]
    change ((a :: r).rdropWhile isSpace).head? = some a
    obtain ⟨t, ht⟩ := List.rdropWhile_prefix isSpace (a :: r)
    cases hr : (a :: r).rdropWhile isSpace with
    | nil =>
      have := (List.rdropWhile_eq_nil_iff).1 hr a (List.mem_cons_self _ _)
      rw [hd] at this
      exact absurd this (by simp)
    | cons b u =>
      rw [hr] at ht
      simp only [List.cons_append, List.cons.injEq] at ht
      simp [ht.1]

/-- A line that begins with the non-space rune `d` has a trimmed text that
begins with `d`, so no prefix test for another first rune succeeds on it. -/
theorem trimmed_hasPrefix_false (l : Str) (d e : Char) (es : Str) (h : l.head? = some d)
    (hd : isSpace d = false) (hne : e ≠ d) : hasPrefix (trimSpace l) (e :: es) = false :=
  hasPrefix_false_of_head _ d e es (trimSpace_head l d h hd) hne

theorem trimSpace_isInfix (l : Str) : trimSpace l <:+: l := by
  unfold trimSpace dropRightWhile
  have h1 : (l.dropWhile isSpace).rdropWhile isSpace <+: l.dropWhile isSpace :=
    List.rdropWhile_prefix _ _
  exact h1.isInfix.trans (List.dropWhile_suffix _).isInfix

theorem trimSpace_head_not_space (l : Str) (d : Char) (h : (trimSpace l).head? = some d) :
    isSpace d = false := by
  unfold trimSpace dropRightWhile at h
  change ((l.dropWhile isSpace).rdropWhile isSpace).head? = some d at h
  obtain ⟨t, ht⟩ := List.rdropWhile_prefix isSpace (l.dropWhile isSpace)
  have h2 : (l.dropWhile isSpace).head? = some d := by
    rw [← ht]
    cases hr : (l.dropWhile isSpace).rdropWhile isSpace with
    | nil => rw [hr] at h; simp at h
    | cons a u => rw [hr] at h; simpa using h
  have h3 := List.head?_dropWhile_not isSpace l
  rw [h2] at h3
  simpa using h3

/-- The first rune of the trimmed text is the first non-space rune of the
line: a line that begins with a non-space rune other than it has another
trimmed text. -/
theorem line_hasPrefix_false (l : Str) (d e : Char) (es : Str)
    (h : (trimSpace l).head? = some d) (he : isSpace e = false) (hne : e ≠ d) :
    hasPrefix l (e :: es) = false := by
  cases hp : hasPrefix l (e :: es) with
  | false => rfl
  | true =>
    have h1 := trimSpace_head l e (hasPrefix_cons_head l e es hp) he
    rw [h] at h1
    exact absurd (Option.some.inj h1).symm hne

theorem containsStr_of_mem (c : Char) : ∀ (l : Str), c ∈ l → containsStr l [c] = true
  | [], h => by simp at h
  | a :: r, h => by
    unfold containsStr
    rcases List.mem_cons.1 h with h | h
    · subst h
      simp [hasPrefix, List.isPrefixOf]
    · simp [containsStr_of_mem c r h]

/-! ### Steps of the line loop, by the kind of line -/

theorem step_outside_code (lines : List Str) (st : State)
    (hf : hasPrefix (lines.getD st.i []) "\x60\x60\x60".toList = false)
    (hc : st.inCodeBlock = false) :
    step lines st = stepBlock lines (lines.getD st.i []) (trimSpace (lines.getD st.i [])) st := by
  unfold step
  simp only [hf, hc, if_false, Bool.false_eq_true]

theorem step_quote (lines : List Str) (st : State)
    (hq : hasPrefix (lines.getD st.i []) "> ".toList = true) (hc : st.inCodeBlock = false) :
    step lines st = stepQuote lines (closeTable
      (listTermination (lines.getD st.i []) (trimSpace (lines.getD st.i [])) st)) := by
  have hh := hasPrefix_cons_head _ _ _ hq
  have hf : hasPrefix (lines.getD st.i []) "\x60\x60\x60".toList = false :=
    hasPrefix_false_of_head _ '>' _ _ hh (by decide)
  have t1 : hasPrefix (trimSpace (lines.getD st.i [])) "#".toList = false :=
    trimmed_hasPrefix_false _ '>' _ _ hh (by decide) (by decide)
  have t2 : hasPrefix (trimSpace (lines.getD st.i [])) "<!--".toList = false :=
    trimmed_hasPrefix_false _ '>' _ _ hh (by decide) (by decide)
  have t3 : hasPrefix (trimSpace (lines.getD st.i [])) "|".toList = false :=
    trimmed_hasPrefix_false _ '>' _ _ hh (by decide) (by decide)
  have t4 : (trimSpace (lines.getD st.i []) == "---".toList) = false := by
    have := trimSpace_head _ '>' hh (by decide)
    cases ht : trimSpace (lines.getD st.i []) with
    | nil => rfl
    | cons a r => rw [ht] at this; simp at this; subst this; rfl
  have t5 : (trimSpace (lines.getD st.i []) == "***".toList) = false := by
    have := trimSpace_head _ '>' hh (by decide)
    cases ht : trimSpace (lines.getD st.i []) with
    | nil => rfl
    | cons a r => rw [ht] at this; simp at this; subst this; rfl
  rw [step_outside_code lines st hf hc]
  unfold stepBlock
  simp only [t1, t2, t3, t4, t5, hq, Bool.or_false, Bool.and_false, Bool.false_and, if_false,
    if_true, Bool.false_eq_true]

theorem renderQuote_important (quoteLines : List Str)
    (hh : hasHintMarker (joinStr "\n".toList quoteLines) = false)
    (hc : hasCautionMarker (joinStr "\n".toList quoteLines) = true) :
    ∃ html, renderQuote quoteLines = .aside "important".toList "Important:".toList html := by
  unfold hasHintMarker at hh
  unfold hasCautionMarker at hc
  unfold renderQuote
  simp only [hh, hc, if_true, if_false, Bool.false_eq_true]
  exact ⟨_, rfl⟩

theorem renderQuote_hint (quoteLines : List Str)
    (hh : hasHintMarker (joinStr "\n".toList quoteLines) = true) :
    ∃ html, renderQuote quoteLines = .aside "hint".toList "Hint:".toList html := by
  unfold hasHintMarker at hh
  unfold renderQuote
  simp only [hh, if_true]
  exact ⟨_, rfl⟩

theorem listTermination_i' (line trimmed : Str) (st : State) :
    (closeTable (listTermination line trimmed st)).i = st.i := by
  rw [closeTable_i, listTermination_i]

/-- C11, amended. For a blockquote run reached outside a code block whose joined
content holds a caution marker (`⚠️`, `注意`, `警告`, `重要`) and no hint marker
(`💡`, `提示`), the step writes, last, a callout of class `important` with the
label `Important:`; with a hint marker in the run the callout is of class
`hint`, whatever else the run holds. -/
theorem caution_without_hint (lines : List Str) (st : State)
    (hq : hasPrefix (lines.getD st.i []) "> ".toList = true) (hc : st.inCodeBlock = false) :
    (hasHintMarker (joinStr "\n".toList (quoteRun lines st.i)) = false →
      hasCautionMarker (joinStr "\n".toList (quoteRun lines st.i)) = true →
      ∃ pre html, (step lines st).buf
        = pre ++ [.aside "important".toList "Important:".toList html]) ∧
    (hasHintMarker (joinStr "\n".toList (quoteRun lines st.i)) = true →
      ∃ pre html, (step lines st).buf = pre ++ [.aside "hint".toList "Hint:".toList html]) := by
  rw [step_quote lines st hq hc]
  unfold stepQuote
  simp only [State.setI_buf, State.write_buf, listTermination_i']
  constructor
  · intro hh hcm
    obtain ⟨html, h⟩ := renderQuote_important (quoteRun lines st.i) hh hcm
    exact ⟨_, html, by rw [← h]; rfl⟩
  · intro hh
    obtain ⟨html, h⟩ := renderQuote_hint (quoteRun lines st.i) hh
    exact ⟨_, html, by rw [← h]; rfl⟩

/-- C11, an instance: the quote `> ⚠️ 注意 x` at the start of the input. -/
theorem caution_without_hint_witness :
    (step ["> ⚠️ 注意 x".toList] State.init).buf
      = [.aside "important".toList "Important:".toList "注意 x".toList] ∧
    ∃ pre html, (step ["> ⚠️ 注意 x".toList] State.init).buf
        = pre ++ [.aside "important".toList "Important:".toList html] :=
  ⟨by decide,
   (caution_without_hint ["> ⚠️ 注意 x".toList] State.init (by decide) (by decide)).1
     (by decide) (by decide)⟩

/-! ### Slugs of slugs and of numbered headings -/

theorem collapseHyphens_of_noDouble : ∀ (s : Str), NoDouble s → collapseHyphens s = s
  | [], _ => rfl
  | [_], _ => rfl
  | c :: d :: cs, h => by
    unfold NoDouble at h
    rw [List.chain'_cons] at h
    unfold collapseHyphens
    have hcd : (c == '-' && d == '-') = false := by
      cases hb : (c == '-' && d == '-') with
      | false => rfl
      | true =>
        simp only [Bool.and_eq_true, beq_iff_eq] at hb
        exact absurd hb h.1
    rw [hcd]
    simp only [Bool.false_eq_true, if_false]
    rw [collapseHyphens_of_noDouble (d :: cs) h.2]

theorem noDouble_of_no_hyphen : ∀ (s : Str), (∀ c ∈ s, c ≠ '-') → NoDouble s
  | [], _ => by simp [NoDouble]
  | [_], _ => by simp [NoDouble]
  | c :: d :: cs, h => by
    unfold NoDouble
    rw [List.chain'_cons]
    exact ⟨fun hc => h c (List.mem_cons_self _ _) hc.1,
      noDouble_of_no_hyphen (d :: cs) (fun x hx => h x (List.mem_cons_of_mem _ hx))⟩

theorem dropWhile_of_head (p : Char → Bool) (s : Str)
    (h : ∀ c, s.head? = some c → p c = false) : s.dropWhile p = s := by
  cases s with
  | nil => rfl
  | cons a r => simp [List.dropWhile, h a rfl]

theorem trimRune_of_ends (c : Char) (s : Str) (hh : s.head? ≠ some c) (hl : s.getLast? ≠ some c) :
    trimRune c s = s := by
  unfold trimRune dropRightWhile
  have h1 : s.dropWhile (fun x => x == c) = s :=
    dropWhile_of_head _ s (fun a ha => by
      cases hb : (a == c) with
      | false => rfl
      | true => rw [beq_iff_eq] at hb; subst hb; exact absurd ha hh)
  rw [h1]
  change s.rdropWhile (fun x => x == c) = s
  rw [List.rdropWhile_eq_self_iff]
  intro hne hp
  rw [beq_iff_eq] at hp
  exact hl (by rw [List.getLast?_eq_getLast _ hne, hp])

theorem toLowerRune_of_slugRune (c : Char) (h : isSlugRune c = true) : toLowerRune c = c := by
  have hc : c = '-' → c.toNat = 45 := fun e => by rw [e]; rfl
  have hn : ¬ (65 ≤ c.toNat ∧ c.toNat ≤ 90) ∧ c.toNat ≠ 0x130 ∧ c.toNat ≠ 0x212A := by
    simp only [isSlugRune, isDigit, isHan, Bool.or_eq_true, Bool.and_eq_true, decide_eq_true_eq,
      beq_iff_eq] at h
    rcases h with h | h
    · omega
    · have := hc h; omega
  unfold toLowerRune
  simp [hn.1, hn.2.1, hn.2.2]

theorem slugRune_ne_space (c : Char) (h : isSlugRune c = true) : (c == ' ') = false := by
  cases hb : (c == ' ') with
  | false => rfl
  | true =>
    rw [beq_iff_eq] at hb
    subst hb
    exact absurd h (by decide)

/-- The slug of a text made of slug runes without two adjacent hyphens: only the
numbering prefix and the hyphens left at the ends go. -/
theorem slugify_of_slug (t : Str) (hr : ∀ c ∈ t, isSlugRune c = true) (hn : NoDouble t) :
    slugify t = trimRune '-' (t.dropWhile isNumberingRune) := by
  have hsuf : t.dropWhile isNumberingRune <:+ t := List.dropWhile_suffix _
  unfold slugify
  simp only []
  generalize t.dropWhile isNumberingRune = u at hsuf
  have hru : ∀ c ∈ u, isSlugRune c = true := fun c hc => hr c (hsuf.subset hc)
  have hnu : NoDouble u := List.Chain'.suffix hn hsuf
  have e1 : toLower u = u := by
    unfold toLower
    conv_rhs => rw [← List.map_id u]
    exact List.map_congr_left (fun c hc => toLowerRune_of_slugRune c (hru c hc))
  have e2 : replaceRune ' ' "-".toList u = u := by
    unfold replaceRune
    have : ∀ c ∈ u, (fun c => if (c == ' ') = true then "-".toList else [c]) c = [c] := by
      intro c hc
      simp [slugRune_ne_space c (hru c hc)]
    rw [List.flatMap_congr this]
    simp
  have e3 : u.filter isSlugRune = u := List.filter_eq_self.2 hru
  rw [e1, e2, e3, collapseHyphens_of_noDouble u hnu]

theorem slugify_slugRunes (s : Str) : ∀ c ∈ slugify s, isSlugRune c = true := by
  intro c hc
  have h1 := (trimRune_isInfix _ _).subset hc
  have h2 := collapseHyphens_subset _ _ h1
  exact (List.mem_filter.1 h2).2

theorem slugify_noDouble (s : Str) : NoDouble (slugify s) :=
  List.Chain'.infix (collapseHyphens_noDouble _) (trimRune_isInfix _ _)

/-- C20, amended. For every text, the slug of its slug is the slug with its
leading numbering runes (digits, `第`, `章`, `节`) dropped and the hyphens then
left at its ends trimmed; and the slug is its own slug exactly when it does not
begin with such a rune. -/
theorem slugify_idempotent_on (s : Str) :
    slugify (slugify s) = trimRune '-' ((slugify s).dropWhile isNumberingRune) ∧
    (slugify (slugify s) = slugify s ↔
      ∀ c, (slugify s).head? = some c → isNumberingRune c = false) := by
  have hg := slugify_of_slug (slugify s) (slugify_slugRunes s) (slugify_noDouble s)
  refine ⟨hg, ?_, ?_⟩
  · intro heq c hc
    cases hb : isNumberingRune c with
    | false => rfl
    | true =>
      exfalso
      have hlen : (slugify (slugify s)).length < (slugify s).length := by
        rw [hg]
        obtain ⟨r, hr⟩ : ∃ r, slugify s = c :: r := by
          cases h : slugify s with
          | nil => rw [h] at hc; simp at hc
          | cons a r =>
            rw [h] at hc
            simp only [List.head?_cons, Option.some.injEq] at hc
            exact ⟨r, by rw [hc]⟩
        rw [hr, List.dropWhile_cons_of_pos hb]
        have h1 := (trimRune_isInfix '-' (r.dropWhile isNumberingRune)).length_le
        have h2 := (List.dropWhile_suffix isNumberingRune (l := r)).length_le
        simp only [List.length_cons]
        omega
      rw [heq] at hlen
      exact lt_irrefl _ hlen
  · intro h
    rw [hg, dropWhile_of_head _ _ h]
    exact trimRune_of_ends _ _ (trimRune_head _ _) (trimRune_last _ _)

/-- C20, two instances: the slug `hello-world` of `Hello World` is its own slug;
the slug `1-intro` of `(1) intro` begins with a digit and its slug is `intro`. -/
theorem slugify_idempotent_on_witness :
    slugify "Hello World".toList = "hello-world".toList ∧
    slugify (slugify "Hello World".toList) = slugify "Hello World".toList ∧
    slugify (slugify "(1) intro".toList)
      = trimRune '-' ((slugify "(1) intro".toList).dropWhile isNumberingRune) ∧
    trimRune '-' ((slugify "(1) intro".toList).dropWhile isNumberingRune) = "intro".toList :=
  ⟨by decide, (slugify_idempotent_on "Hello World".toList).2.2 (by decide),
    (slugify_idempotent_on "(1) intro".toList).1, by decide⟩

theorem slugify_drop_numbering (p t : Str) (hp : ∀ c ∈ p, isNumberingRune c = true) :
    slugify (p ++ t) = slugify t := by
  unfold slugify
  simp only []
  rw [List.dropWhile_append_of_pos hp]

theorem han_ne_hyphen (c : Char) (h : isHan c = true) : c ≠ '-' := by
  intro e
  subst e
  exact absurd h (by decide)

/-- C13, amended. For a heading `第<n>节：<title>` or `第<n>章：<title>` in which
`<n>` is written in ASCII digits and `<title>` is made of Han ideographs, the
first of them not one of `第`, `章`, `节`, the slug is `<title>`. -/
theorem slugify_numbered_heading (digits title : Str) (mark : Char)
    (hm : mark = '节' ∨ mark = '章')
    (hd : ∀ c ∈ digits, isDigit c = true)
    (ht : ∀ c ∈ title, isHan c = true)
    (hh : ∀ c, title.head? = some c → isNumberingRune c = false) :
    slugify ("第".toList ++ digits ++ [mark] ++ "：".toList ++ title) = title := by
  have hp : ∀ c ∈ "第".toList ++ digits ++ [mark] ++ "：".toList, isNumberingRune c = true := by
    intro c hc
    simp only [List.mem_append] at hc
    rcases hc with ((h | h) | h) | h
    · revert c; decide
    · simp [isNumberingRune, hd c h]
    · simp only [List.mem_singleton] at h
      rcases hm with e | e <;> (subst h; subst e; decide)
    · revert c; decide
  rw [slugify_drop_numbering _ _ hp,
    slugify_of_slug title (fun c hc => by simp [isSlugRune, ht c hc])
      (noDouble_of_no_hyphen title (fun c hc => han_ne_hyphen c (ht c hc))),
    dropWhile_of_head _ _ hh]
  apply trimRune_of_ends
  · intro e
    cases title with
    | nil => simp at e
    | cons a r =>
      simp only [List.head?_cons, Option.some.injEq] at e
      exact han_ne_hyphen a (ht a (List.mem_cons_self _ _)) e
  · intro e
    exact han_ne_hyphen _ (ht _ (List.mem_of_getLast?_eq_some e)) rfl

/-- C13, an instance: the heading `第1节：概述`, numbered in digits. -/
theorem slugify_numbered_heading_witness :
    slugify "第1节：概述".toList = "概述".toList :=
  slugify_numbered_heading "1".toList "概述".toList '节' (Or.inl rfl) (by decide) (by decide)
    (by decide)

/-! ### Lines of a code block -/

theorem replaceRune_append (old : Char) (new a b : Str) :
    replaceRune old new (a ++ b) = replaceRune old new a ++ replaceRune old new b := by
  simp [replaceRune]

theorem escapeHTML_append (a b : Str) : escapeHTML (a ++ b) = escapeHTML a ++ escapeHTML b := by
  simp [escapeHTML, replaceRune_append]

theorem escapeHTML_single (c : Char) :
    escapeHTML [c] = if c = '&' then "&amp;".toList else if c = '<' then "&lt;".toList
      else if c = '>' then "&gt;".toList else [c] := by
  by_cases h1 : c = '&'
  · subst h1; decide
  · by_cases h2 : c = '<'
    · subst h2; decide
    · by_cases h3 : c = '>'
      · subst h3; decide
      · simp [escapeHTML, replaceRune, h1, h2, h3]

theorem escapeHTML_cons (c : Char) (s : Str) :
    escapeHTML (c :: s) = escapeHTML [c] ++ escapeHTML s := by
  rw [← escapeHTML_append]; rfl

theorem escapeHTML_no_angle : ∀ (s : Str), ∀ c ∈ escapeHTML s, c ≠ '<' ∧ c ≠ '>'
  | [], c, hc => by simp [escapeHTML, replaceRune] at hc
  | a :: s, c, hc => by
    rw [escapeHTML_cons, List.mem_append] at hc
    rcases hc with hc | hc
    · rw [escapeHTML_single] at hc
      split_ifs at hc with h1 h2 h3
      · revert c; decide
      · revert c; decide
      · revert c; decide
      · simp only [List.mem_singleton] at hc
        subst hc
        exact ⟨h2, h3⟩
    · exact escapeHTML_no_angle s c hc

theorem escapeHTML_amps (tail : Str) (ht : ampsEscaped tail = true) :
    ∀ (s : Str), ampsEscaped (escapeHTML s ++ tail) = true
  | [] => by simpa [escapeHTML, replaceRune] using ht
  | a :: s => by
    have ih := escapeHTML_amps tail ht s
    rw [escapeHTML_cons, escapeHTML_single, List.append_assoc]
    split_ifs with h1 h2 h3
    · simp [ampsEscaped, hasPrefix, List.isPrefixOf, ih]
    · simp [ampsEscaped, hasPrefix, List.isPrefixOf, ih]
    · simp [ampsEscaped, hasPrefix, List.isPrefixOf, ih]
    · simp [ampsEscaped, h1, ih]

/-- A line reached inside a code block that is not a fence line: in an
ordinary block the step writes `escapeHTML(line)` and a newline, a text without
`<` and `>` in which every `&` begins `&amp;`, `&lt;` or `&gt;`; in a `mermaid`
block it writes the line as it is and a newline. -/
theorem step_code_line (lines : List Str) (st : State)
    (hf : hasPrefix (lines.getD st.i []) "\x60\x60\x60".toList = false)
    (hc : st.inCodeBlock = true) :
    (st.codeLang ≠ "mermaid".toList →
      (step lines st).buf = st.buf ++ [.codeLine (lines.getD st.i [])] ∧
      (Out.codeLine (lines.getD st.i [])).render
        = escapeHTML (lines.getD st.i []) ++ "\n".toList ∧
      (∀ c ∈ (Out.codeLine (lines.getD st.i [])).render, c ≠ '<' ∧ c ≠ '>') ∧
      ampsEscaped (Out.codeLine (lines.getD st.i [])).render = true) ∧
    (st.codeLang = "mermaid".toList →
      (step lines st).buf = st.buf ++ [.mermaidLine (lines.getD st.i [])] ∧
      (Out.mermaidLine (lines.getD st.i [])).render = lines.getD st.i [] ++ "\n".toList) := by
  constructor
  · intro hm
    have hm' : (st.codeLang == "mermaid".toList) = false := by
      cases hb : (st.codeLang == "mermaid".toList) with
      | false => rfl
      | true => exact absurd (beq_iff_eq.1 hb) hm
    refine ⟨?_, rfl, ?_, ?_⟩
    · unfold step
      simp only [hf, hc, hm', if_false, if_true, Bool.false_eq_true, State.write_buf]
    · intro c hcm
      change c ∈ escapeHTML (lines.getD st.i []) ++ "\n".toList at hcm
      rcases List.mem_append.1 hcm with h | h
      · exact escapeHTML_no_angle _ c h
      · clear hcm; revert c; decide
    · exact escapeHTML_amps "\n".toList (by decide) _
  · intro hm
    have hm' : (st.codeLang == "mermaid".toList) = true := beq_iff_eq.2 hm
    refine ⟨?_, rfl⟩
    unfold step
    simp only [hf, hc, hm', if_false, if_true, Bool.false_eq_true, State.write_buf]

/-! ### The table of contents -/

theorem tocSubEntries_not_chapter (file content : Str) :
    (tocSubEntries file content).filter isChapterEntry = [] := by
  unfold tocSubEntries
  rw [List.filter_eq_nil_iff]
  intro o ho
  obtain ⟨l, _, rfl⟩ := List.mem_map.1 ho
  simp [isChapterEntry]

theorem tocChapter_listed (readFile : Str → Option Str) (ch : Chapter)
    (h : isListed ch = true) :
    tocChapter readFile ch = chapterEntry ch ::
      (match readFile ch.InputFile with
       | some content => tocSubEntries ch.OutputFile content
       | none => []) := by
  unfold isListed at h
  unfold tocChapter chapterEntry
  simp only [Bool.not_eq_true'] at h
  simp only [h, Bool.false_eq_true, if_false]

theorem tocChapter_skipped (readFile : Str → Option Str) (ch : Chapter)
    (h : isListed ch = false) : tocChapter readFile ch = [] := by
  unfold isListed at h
  unfold tocChapter
  simp only [Bool.not_eq_false'] at h
  simp only [h, if_true]

theorem tocChapter_filter (readFile : Str → Option Str) (ch : Chapter) :
    (tocChapter readFile ch).filter isChapterEntry
      = if isListed ch then [chapterEntry ch] else [] := by
  cases h : isListed ch with
  | false => simp [tocChapter_skipped readFile ch h]
  | true =>
    rw [tocChapter_listed readFile ch h]
    simp only [if_true]
    rw [List.filter_cons_of_pos (by simp [chapterEntry, isChapterEntry])]
    congr 1
    cases readFile ch.InputFile with
    | none => rfl
    | some content => exact tocSubEntries_not_chapter _ _

theorem flatMap_tocChapter_filter (readFile : Str → Option Str) :
    ∀ (chapters : List Chapter),
      (chapters.flatMap (tocChapter readFile)).filter isChapterEntry
        = (chapters.filter isListed).map chapterEntry
  | [] => rfl
  | ch :: rest => by
    rw [List.flatMap_cons, List.filter_append, tocChapter_filter,
      flatMap_tocChapter_filter readFile rest]
    cases h : isListed ch with
    | false => simp [List.filter_cons, h]
    | true => simp [List.filter_cons, h]

theorem trimSuffix_dot (n : Str) : trimSuffix (n ++ ".".toList) ".".toList = n := by
  simp [trimSuffix, hasSuffix, List.isPrefixOf]

theorem regexSpace_not_digit (c : Char) (h : isRegexSpace c = true) : isDigit c = false := by
  simp only [isRegexSpace, Bool.or_eq_true, beq_iff_eq] at h
  simp only [isDigit, Bool.and_eq_false_iff, decide_eq_false_iff_not]
  omega

theorem digit_not_regexSpace (c : Char) (h : isDigit c = true) : isRegexSpace c = false := by
  cases hs : isRegexSpace c with
  | false => rfl
  | true => rw [regexSpace_not_digit c hs] at h; exact absurd h (by simp)

theorem dropWhile_append_stop (p : Char → Bool) (a b : Str) (ha : ∀ x ∈ a, p x = true)
    (hb : ∀ c, b.head? = some c → p c = false) : (a ++ b).dropWhile p = b := by
  rw [List.dropWhile_append_of_pos ha, dropWhile_of_head p b hb]

theorem takeWhile_append_stop (p : Char → Bool) (a b : Str) (ha : ∀ x ∈ a, p x = true)
    (hb : ∀ c, b.head? = some c → p c = false) : (a ++ b).takeWhile p = a := by
  rw [List.takeWhile_append_of_pos ha]
  cases b with
  | nil => simp
  | cons c r => simp [List.takeWhile, hb c rfl]

/-- The label `第 N 章：` (any ASCII whitespace around the digits, either colon)
at the head of a title is removed with the whitespace that follows it. -/
theorem stripChapterLabel_label (ws1 digits ws2 ws3 rest : Str) (colon : Char)
    (hc : colon = '：' ∨ colon = ':')
    (h1 : ∀ c ∈ ws1, isRegexSpace c = true) (hd : ∀ c ∈ digits, isDigit c = true)
    (hne : digits ≠ []) (h2 : ∀ c ∈ ws2, isRegexSpace c = true)
    (h3 : ∀ c ∈ ws3, isRegexSpace c = true)
    (hr : ∀ c, rest.head? = some c → isRegexSpace c = false) :
    stripChapterLabel ('第' :: (ws1 ++ (digits ++ (ws2 ++ '章' :: colon :: (ws3 ++ rest)))))
      = rest := by
  have hmark : ∀ c, ('章' :: colon :: (ws3 ++ rest)).head? = some c → isRegexSpace c = false := by
    intro c hc'
    simp only [List.head?_cons, Option.some.injEq] at hc'
    subst hc'; decide
  have hb2 : ∀ c, (ws2 ++ '章' :: colon :: (ws3 ++ rest)).head? = some c → isDigit c = false := by
    intro c hc'
    cases ws2 with
    | nil =>
      simp only [List.nil_append, List.head?_cons, Option.some.injEq] at hc'
      subst hc'; decide
    | cons a r =>
      simp only [List.cons_append, List.head?_cons, Option.some.injEq] at hc'
      subst hc'
      exact regexSpace_not_digit _ (h2 _ (List.mem_cons_self _ _))
  have hb1 : ∀ c, (digits ++ (ws2 ++ '章' :: colon :: (ws3 ++ rest))).head? = some c →
      isRegexSpace c = false := by
    intro c hc'
    obtain ⟨d0, ds, rfl⟩ := List.exists_cons_of_ne_nil hne
    simp only [List.cons_append, List.head?_cons, Option.some.injEq] at hc'
    subst hc'
    exact digit_not_regexSpace _ (hd _ (List.mem_cons_self _ _))
  unfold stripChapterLabel
  simp only [dropWhile_append_stop isRegexSpace ws1 _ h1 hb1,
    takeWhile_append_stop isDigit digits _ hd hb2,
    dropWhile_append_stop isDigit digits _ hd hb2,
    dropWhile_append_stop isRegexSpace ws2 _ h2 hmark,
    dropWhile_append_stop isRegexSpace ws3 _ h3 hr]
  have hde : digits.isEmpty = false := by
    cases digits with
    | nil => exact absurd rfl hne
    | cons a r => rfl
  rcases hc with e | e <;> subst e <;> simp [hde]

theorem flatMap_tocChapter_render (readFile : Str → Option Str) :
    ∀ (chapters : List Chapter),
      (chapters.flatMap (tocChapter readFile)).flatMap TocOut.render
        = (chapters.filter isListed).flatMap (fun ch =>
            (chapterEntry ch).render ++
              (match readFile ch.InputFile with
               | some content => tocSubEntries ch.OutputFile content
               | none => []).flatMap TocOut.render)
  | [] => rfl
  | ch :: rest => by
    rw [List.flatMap_cons, List.flatMap_append, flatMap_tocChapter_render readFile rest]
    cases h : isListed ch with
    | false => simp [List.filter_cons, h, tocChapter_skipped readFile ch h]
    | true => simp [List.filter_cons, h, tocChapter_listed readFile ch h]

theorem generateTOC_filter (readFile : Str → Option Str) (chapters : List Chapter) :
    generateTOC readFile chapters = generateTOC readFile (chapters.filter isListed) := by
  unfold generateTOC generateTOCOut
  simp only [List.flatMap_append, flatMap_tocChapter_render, List.filter_filter, Bool.and_self]

/-- C15. For every chapter list and every file system, the text that
`generateTOC` returns is the heading and the opening of the list, then for each
chapter that is neither the contents chapter nor front matter, in the order of
the chapter list, its chapter entry followed by its sub-entries, then the
closing of the list; a contents or front-matter chapter adds nothing, so the
text is that for the list without those chapters. The chapter entry is an `<li>`
(of class `indent` when the number has more than one dot) with a link to
`OutputFile` with no fragment, showing the number without a trailing dot and
the title without a leading `第 N 章：`; every sub-entry links to a fragment. Among
the writes, the chapter entries are exactly those of the listed chapters, one
each, in order. -/
theorem toc_chapter_entries (readFile : Str → Option Str) (chapters : List Chapter) :
    generateTOC readFile chapters
      = "<h1 id=\"contents\">目录</h1>\n\n<nav epub:type=\"toc\">\n<ol>\n".toList
        ++ (chapters.filter isListed).flatMap (fun ch =>
            ("<li".toList
              ++ (if ch.Number.count '.' > 1 then " class=\"indent\"".toList else [])
              ++ "><a href=\"".toList ++ ch.OutputFile ++ "\">".toList
              ++ trimSuffix ch.Number ".".toList ++ ". ".toList ++ stripChapterLabel ch.Title
              ++ "</a></li>\n".toList)
            ++ (match readFile ch.InputFile with
                | some content => tocSubEntries ch.OutputFile content
                | none => []).flatMap TocOut.render)
        ++ "</ol>\n</nav>\n".toList ∧
    generateTOC readFile chapters = generateTOC readFile (chapters.filter isListed) ∧
    (∀ file content, ∀ o ∈ tocSubEntries file content, ∃ id title,
      o = TocOut.sub file id title ∧
      o.render = "<li class=\"indent\"><a href=\"".toList ++ file ++ "#".toList ++ id
        ++ "\">".toList ++ title ++ "</a></li>\n".toList) ∧
    (generateTOCOut readFile chapters).filter isChapterEntry
      = (chapters.filter isListed).map chapterEntry ∧
    (∀ ch, isListed ch = false → tocChapter readFile ch = []) ∧
    (∀ ch, isListed ch = true → ∃ subs, tocChapter readFile ch = chapterEntry ch :: subs ∧
      subs.filter isChapterEntry = []) ∧
    (∀ n : Str, trimSuffix (n ++ ".".toList) ".".toList = n) ∧
    (∀ digits rest : Str, digits ≠ [] → (∀ c ∈ digits, isDigit c = true) →
      (∀ c, rest.head? = some c → isRegexSpace c = false) →
      stripChapterLabel ("第 ".toList ++ digits ++ " 章：".toList ++ rest) = rest) := by
  refine ⟨?_, generateTOC_filter readFile chapters, ?_, ?_,
    fun ch h => tocChapter_skipped readFile ch h, ?_, trimSuffix_dot, ?_⟩
  · unfold generateTOC generateTOCOut
    simp only [List.flatMap_append, flatMap_tocChapter_render]
    simp [TocOut.render, chapterEntry]
  · intro file content o ho
    unfold tocSubEntries at ho
    obtain ⟨l, _, rfl⟩ := List.mem_map.1 ho
    exact ⟨_, _, rfl, rfl⟩
  · unfold generateTOCOut
    rw [List.filter_append, List.filter_append, flatMap_tocChapter_filter]
    simp [isChapterEntry]
  · intro ch h
    refine ⟨_, tocChapter_listed readFile ch h, ?_⟩
    cases readFile ch.InputFile with
    | none => rfl
    | some content => exact tocSubEntries_not_chapter _ _
  · intro digits rest hne hd hr
    have := stripChapterLabel_label " ".toList digits " ".toList [] rest '：' (Or.inl rfl)
      (by decide) hd hne (by decide) (by simp) hr
    simpa using this

/-- C15, an instance: a front-matter chapter, the contents chapter and one
numbered chapter, whose file has the second-level heading `## 背景`, give one
chapter entry, `1. 简介`, linking to `01.00-intro.html`, and its sub-entry; the
label `第 12 章：` is removed from a title. -/
theorem toc_chapter_entries_witness :
    generateTOC (fun f => if f = "intro.md".toList then some "# 简介\n## 背景\nx".toList else none)
      [⟨[], [], "前言".toList, [], "00.00-front-matter.html".toList, [], false, true⟩,
       ⟨[], [], "目录".toList, [], "00.01-contents.html".toList, [], true, false⟩,
       ⟨[], "1.".toList, "第 1 章：简介".toList, "intro.md".toList, "01.00-intro.html".toList, [],
         false, false⟩]
      = ("<h1 id=\"contents\">目录</h1>\n\n<nav epub:type=\"toc\">\n<ol>\n"
          ++ "<li><a href=\"01.00-intro.html\">1. 简介</a></li>\n"
          ++ "<li class=\"indent\"><a href=\"01.00-intro.html#背景\">背景</a></li>\n"
          ++ "</ol>\n</nav>\n").toList ∧
    stripChapterLabel "第 12 章：简介".toList = "简介".toList :=
  ⟨(toc_chapter_entries
      (fun f => if f = "intro.md".toList then some "# 简介\n## 背景\nx".toList else none)
      [⟨[], [], "前言".toList, [], "00.00-front-matter.html".toList, [], false, true⟩,
       ⟨[], [], "目录".toList, [], "00.01-contents.html".toList, [], true, false⟩,
       ⟨[], "1.".toList, "第 1 章：简介".toList, "intro.md".toList, "01.00-intro.html".toList, [],
         false, false⟩]).1,
   (toc_chapter_entries (fun _ => none) []).2.2.2.2.2.2.2 "12".toList "简介".toList
      (by decide) (by decide) (by decide)⟩

/-! ### The end of a table -/

theorem closeList_inTable (st : State) : (closeList st).inTable = st.inTable := by
  unfold closeList
  simp only []
  split_ifs <;> simp

theorem closeList_buf (st : State) : st.buf <+: (closeList st).buf := by
  unfold closeList
  simp only []
  split_ifs <;> simp

theorem listTermination_inTable (line trimmed : Str) (st : State) :
    (listTermination line trimmed st).inTable = st.inTable := by
  unfold listTermination
  simp only []
  split_ifs <;> simp [closeList_inTable]

theorem listTermination_buf (line trimmed : Str) (st : State) :
    st.buf <+: (listTermination line trimmed st).buf := by
  unfold listTermination
  simp only []
  split_ifs
  · exact closeList_buf st
  · exact List.prefix_refl _
  · exact List.prefix_refl _

theorem stepListItem_inTable (trimmed : Str) (isUL isOL : Bool) (st : State) :
    (stepListItem trimmed isUL isOL st).inTable = st.inTable := by
  unfold stepListItem
  simp only []
  split_ifs <;> simp

theorem stepListItem_buf (trimmed : Str) (isUL isOL : Bool) (st : State) :
    st.buf <+: (stepListItem trimmed isUL isOL st).buf := by
  unfold stepListItem
  simp only []
  split_ifs <;> simp [List.append_assoc]

theorem stepPlain_inTable (line trimmed : Str) (isUL isOL : Bool) (st : State) :
    (stepPlain line trimmed isUL isOL st).inTable = st.inTable := by
  unfold stepPlain
  split_ifs <;> simp [stepListItem_inTable]

theorem stepPlain_buf (line trimmed : Str) (isUL isOL : Bool) (st : State) :
    st.buf <+: (stepPlain line trimmed isUL isOL st).buf := by
  unfold stepPlain
  split_ifs
  all_goals first
    | exact stepListItem_buf _ _ _ _
    | simp

theorem stepQuote_inTable (lines : List Str) (st : State) :
    (stepQuote lines st).inTable = st.inTable := by
  unfold stepQuote
  simp

theorem stepQuote_buf (lines : List Str) (st : State) : st.buf <+: (stepQuote lines st).buf := by
  unfold stepQuote
  simp

theorem stepFence_after_closeTable (lines : List Str) (line : Str) (st : State) :
    (stepFence lines line st).inTable = false ∧
    (closeTable st).buf <+: (stepFence lines line st).buf := by
  have ht := closeTable_inTable st
  unfold stepFence
  simp only []
  generalize closeTable st = s1 at ht ⊢
  generalize (if (trimPrefix line "\x60\x60\x60".toList).isEmpty = true
      then "text".toList else trimPrefix line "\x60\x60\x60".toList) = lang
  split_ifs <;>
    simp [ht, peekCaption_inTable, peekCaption_buf, List.append_assoc]

theorem closeTable_of_open (st : State) (h : st.inTable = true) :
    (closeTable st).buf = st.buf ++ [Out.tableClose] := by
  unfold closeTable
  simp [h]

/-- C16, counterexample. In the input `| a |`, `<!-- c -->`, `| b |` the comment
line is dropped with the table left open: `| b |` becomes a body row of the
same table. -/
theorem comment_keeps_table_open :
    markdownToBookHTMLOut "| a |\n<!-- c -->\n| b |".toList
      = [.tableOpen "| a |".toList, .tableRow "| b |".toList, .tableClose] ∧
    (loop ["| a |".toList, "<!-- c -->".toList, "| b |".toList] 1 State.init).inTable = true ∧
    (step ["| a |".toList, "<!-- c -->".toList, "| b |".toList]
      (loop ["| a |".toList, "<!-- c -->".toList, "| b |".toList] 1 State.init)).inTable
      = true := by
  decide

/-- C16, amended. Whenever a table is open and the loop processes a line whose
trimmed text begins neither with `|` nor with `<!--`, the table is closed by the
end of that step: `</tbody></table>` is written and `inTable` is false. (An
HTML comment line is dropped with the table left open.) -/
theorem table_closes_on_other_line (lines : List Str) (fuel : Nat)
    (ht : (loop lines fuel State.init).inTable = true)
    (hrow : hasPrefix (trimSpace (lines.getD (loop lines fuel State.init).i [])) "|".toList
      = false)
    (hcom : hasPrefix (trimSpace (lines.getD (loop lines fuel State.init).i [])) "<!--".toList
      = false) :
    (step lines (loop lines fuel State.init)).inTable = false ∧
    ∃ w1 w2, (step lines (loop lines fuel State.init)).buf
      = (loop lines fuel State.init).buf ++ w1 ++ [Out.tableClose] ++ w2 := by
  have hinv := inv_loop lines fuel _ inv_init
  generalize loop lines fuel State.init = st at ht hrow hcom hinv ⊢
  have hc : st.inCodeBlock = false := by
    cases h : st.inCodeBlock with
    | false => rfl
    | true => exact absurd ⟨h, ht⟩ hinv.codeNoTable
  cases hf : hasPrefix (lines.getD st.i []) "\x60\x60\x60".toList with
  | true =>
    have e : step lines st = stepFence lines (lines.getD st.i []) st := by
      unfold step
      simp only [hf, if_true]
    rw [e]
    obtain ⟨h1, w2, h2⟩ := stepFence_after_closeTable lines (lines.getD st.i []) st
    rw [closeTable_of_open st ht] at h2
    exact ⟨h1, [], w2, by simpa using h2.symm⟩
  | false =>
    rw [step_outside_code lines st hf hc]
    unfold stepBlock
    simp only [hrow, hcom, Bool.false_and, Bool.or_false, if_false, Bool.false_eq_true]
    have a1 := listTermination_inTable (lines.getD st.i []) (trimSpace (lines.getD st.i [])) st
    obtain ⟨u1, b1⟩ := listTermination_buf (lines.getD st.i []) (trimSpace (lines.getD st.i []))
      st
    generalize listTermination (lines.getD st.i []) (trimSpace (lines.getD st.i [])) st = s1
      at a1 b1 ⊢
    have key : ∀ c : Bool, (if (s1.inList && c) = true then closeList s1 else s1).inTable = true ∧
        ∃ u, (if (s1.inList && c) = true then closeList s1 else s1).buf = st.buf ++ u := by
      intro c
      split_ifs
      · obtain ⟨u2, b2⟩ := closeList_buf s1
        exact ⟨by rw [closeList_inTable, a1, ht], u1 ++ u2, by rw [← b2, ← b1, List.append_assoc]⟩
      · exact ⟨by rw [a1, ht], u1, b1.symm⟩
    obtain ⟨a2, u, b2⟩ := key (hasPrefix (trimSpace (lines.getD st.i [])) "#".toList
      || (trimSpace (lines.getD st.i []) == "---".toList
        || trimSpace (lines.getD st.i []) == "***".toList))
    generalize (if (s1.inList && (hasPrefix (trimSpace (lines.getD st.i [])) "#".toList
      || (trimSpace (lines.getD st.i []) == "---".toList
        || trimSpace (lines.getD st.i []) == "***".toList))) = true
      then closeList s1 else s1) = s2 at a2 b2 ⊢
    have b3 := closeTable_of_open s2 a2
    have a3 := closeTable_inTable s2
    generalize closeTable s2 = s3 at a3 b3 ⊢
    split_ifs
    · obtain ⟨w, hw⟩ := stepQuote_buf lines s3
      exact ⟨by rw [stepQuote_inTable, a3], u, w, by rw [← hw, b3, b2]⟩
    · obtain ⟨w, hw⟩ := stepPlain_buf (lines.getD st.i []) (trimSpace (lines.getD st.i []))
        (isULLine (trimSpace (lines.getD st.i []))) (isOLLine (trimSpace (lines.getD st.i []))) s3
      exact ⟨by rw [stepPlain_inTable, a3], u, w, by rw [← hw, b3, b2]⟩

/-- C16, an instance: the paragraph line `text` after the header row `| a |`. -/
theorem table_closes_on_other_line_witness :
    (loop ["| a |".toList, "text".toList, "| b |".toList] 1 State.init).inTable = true ∧
    (step ["| a |".toList, "text".toList, "| b |".toList]
      (loop ["| a |".toList, "text".toList, "| b |".toList] 1 State.init)).inTable = false :=
  ⟨by decide,
   (table_closes_on_other_line ["| a |".toList, "text".toList, "| b |".toList] 1
      (by decide) (by decide) (by decide)).1⟩

/-! ### Whole inputs: splitting into lines and running the loop -/

theorem splitRune_no_sep (sep : Char) : ∀ (a : Str), sep ∉ a → splitRune sep a = [a]
  | [], _ => rfl
  | c :: cs, h => by
    have hc : (c == sep) = false := by
      cases hb : (c == sep) with
      | false => rfl
      | true => exact absurd (by rw [beq_iff_eq.1 hb]; exact List.mem_cons_self _ _) h
    have ih := splitRune_no_sep sep cs (fun hm => h (List.mem_cons_of_mem _ hm))
    simp only [splitRune, hc, Bool.false_eq_true, if_false, ih]

theorem splitRune_append_sep (sep : Char) (rest : Str) :
    ∀ (a : Str), sep ∉ a → splitRune sep (a ++ sep :: rest) = a :: splitRune sep rest
  | [], _ => by simp [splitRune]
  | c :: cs, h => by
    have hc : (c == sep) = false := by
      cases hb : (c == sep) with
      | false => rfl
      | true => exact absurd (by rw [beq_iff_eq.1 hb]; exact List.mem_cons_self _ _) h
    have ih := splitRune_append_sep sep rest cs (fun hm => h (List.mem_cons_of_mem _ hm))
    simp only [List.cons_append, splitRune, hc, Bool.false_eq_true, if_false]
    rw [show cs.append (sep :: rest) = cs ++ sep :: rest from rfl, ih]

/-- Splitting at newlines gives back the lines that were joined with newlines,
when no line holds a newline. -/
theorem splitRune_joinStr : ∀ (ls : List Str), ls ≠ [] → (∀ l ∈ ls, '\n' ∉ l) →
    splitRune '\n' (joinStr "\n".toList ls) = ls
  | [], h, _ => absurd rfl h
  | [x], _, h => by
    simpa [joinStr] using splitRune_no_sep '\n' x (h x (List.mem_cons_self _ _))
  | x :: y :: rest, _, h => by
    have ih := splitRune_joinStr (y :: rest) (by simp)
      (fun l hl => h l (List.mem_cons_of_mem _ hl))
    have hx := h x (List.mem_cons_self _ _)
    have : joinStr "\n".toList (x :: y :: rest) = x ++ '\n' :: joinStr "\n".toList (y :: rest) := by
      simp [joinStr]
    rw [this, splitRune_append_sep '\n' _ x hx, ih]

theorem loop_succ (lines : List Str) (fuel : Nat) (st : State) (h : st.i < lines.length) :
    loop lines (fuel + 1) st = loop lines fuel ((step lines st).setI ((step lines st).i + 1)) := by
  rw [loop]
  simp only [h, if_true]

theorem loop_done (lines : List Str) (fuel : Nat) (st : State) (h : lines.length ≤ st.i) :
    loop lines fuel st = st := by
  cases fuel with
  | zero => rfl
  | succ n =>
    rw [loop]
    simp only [not_lt.2 h, if_false]

theorem stepBlock_noList (lines : List Str) (line trimmed : Str) (st : State)
    (hl : st.inList = false) :
    stepBlock lines line trimmed st
      = if hasPrefix trimmed "<!--".toList = true then st
        else if (hasPrefix trimmed "|".toList && containsStr line "|".toList) = true then
          stepTable lines line st
        else if hasPrefix line "> ".toList = true then stepQuote lines (closeTable st)
        else stepPlain line trimmed (isULLine trimmed) (isOLLine trimmed) (closeTable st) := by
  unfold stepBlock listTermination
  simp only [hl, Bool.false_and, Bool.false_eq_true, if_false]

theorem trimSpace_nil_hasPrefix (l : Str) (h : trimSpace l = []) (d : Char) (ds : Str)
    (hd : isSpace d = false) : hasPrefix l (d :: ds) = false := by
  cases hp : hasPrefix l (d :: ds) with
  | false => rfl
  | true =>
    have := trimSpace_head l d (hasPrefix_cons_head l d ds hp) hd
    rw [h] at this
    simp at this

theorem stepPlain_blank (line : Str) (isUL isOL : Bool) (st : State) (h : trimSpace line = [])
    (hu : isUL = false) (ho : isOL = false) : stepPlain line [] isUL isOL st = st := by
  unfold stepPlain
  have h1 : hasPrefix line "# ".toList = false := trimSpace_nil_hasPrefix line h _ _ (by decide)
  have h2 : hasPrefix line "## ".toList = false := trimSpace_nil_hasPrefix line h _ _ (by decide)
  have h3 : hasPrefix line "### ".toList = false := trimSpace_nil_hasPrefix line h _ _ (by decide)
  have h4 : hasPrefix line "#### ".toList = false := trimSpace_nil_hasPrefix line h _ _ (by decide)
  subst hu ho
  simp only [h1, h2, h3, h4, Bool.false_eq_true, if_false]
  rfl

/-- A blank line, with no list open and outside a code block, only closes an
open table. -/
theorem step_blank (lines : List Str) (st : State) (hb : trimSpace (lines.getD st.i []) = [])
    (hc : st.inCodeBlock = false) (hl : st.inList = false) :
    step lines st = closeTable st := by
  have hf : hasPrefix (lines.getD st.i []) "\x60\x60\x60".toList = false :=
    trimSpace_nil_hasPrefix _ hb _ _ (by decide)
  have hq : hasPrefix (lines.getD st.i []) "> ".toList = false :=
    trimSpace_nil_hasPrefix _ hb _ _ (by decide)
  rw [step_outside_code lines st hf hc, stepBlock_noList _ _ _ _ hl, hb]
  have e1 : hasPrefix ([] : Str) "<!--".toList = false := by decide
  have e2 : hasPrefix ([] : Str) "|".toList = false := by decide
  simp only [e1, e2, hq, Bool.false_and, Bool.false_eq_true, if_false]
  exact stepPlain_blank _ (isULLine []) (isOLLine []) _ hb (by decide) (by decide)

theorem rowLine_facts (line : Str) (h : isRowLine line = true) :
    hasPrefix line "\x60\x60\x60".toList = false ∧
    hasPrefix (trimSpace line) "<!--".toList = false ∧
    containsStr line "|".toList = true := by
  unfold isRowLine at h
  have hh := hasPrefix_cons_head _ _ _ h
  refine ⟨line_hasPrefix_false line '|' _ _ hh (by decide) (by decide),
    hasPrefix_false_of_head _ '|' _ _ hh (by decide), ?_⟩
  apply containsStr_of_mem
  apply (trimSpace_isInfix line).subset
  cases ht : trimSpace line with
  | nil => rw [ht] at hh; simp at hh
  | cons a r =>
    rw [ht] at hh
    simp only [List.head?_cons, Option.some.injEq] at hh
    subst hh
    exact List.mem_cons_self _ _

/-- A table row line, with no list open and outside a code block, takes the
table branch. -/
theorem step_row (lines : List Str) (st : State) (hr : isRowLine (lines.getD st.i []) = true)
    (hc : st.inCodeBlock = false) (hl : st.inList = false) :
    step lines st = stepTable lines (lines.getD st.i []) st := by
  obtain ⟨hf, hcm, hct⟩ := rowLine_facts _ hr
  unfold isRowLine at hr
  rw [step_outside_code lines st hf hc, stepBlock_noList _ _ _ _ hl]
  simp only [hcm, hr, hct, Bool.and_self, Bool.false_eq_true, if_false, if_true]

/-! ### A table of a header row, a separator row and body rows -/

theorem getD_append_cons (pre : List Str) (r : Str) (rest : List Str) :
    (pre ++ r :: rest).getD pre.length [] = r := by
  induction pre with
  | nil => rfl
  | cons a p ih => simpa using ih

theorem stepTable_open (lines : List Str) (line : Str) (st : State) (h : st.inTable = true) :
    stepTable lines line st = st.write (.tableRow line) := by
  unfold stepTable
  simp [h]

theorem finish_of_closed (st : State) (h1 : st.inLI = false) (h2 : st.inList = false)
    (h3 : st.inTable = false) : finish st = st := by
  unfold finish
  simp [h1, h2, h3]

/-- The loop over a run of table rows, with a table open: each row is written as
a body row and the index moves past the run. -/
theorem loop_rows (lines : List Str) (post : List Str) (fuel : Nat) :
    ∀ (rows pre : List Str) (st : State), lines = pre ++ rows ++ post → st.i = pre.length →
      st.inTable = true → st.inCodeBlock = false → st.inList = false →
      (∀ r ∈ rows, isRowLine r = true) →
      ∃ st', loop lines (rows.length + fuel) st = loop lines fuel st' ∧
        st'.buf = st.buf ++ rows.map Out.tableRow ∧ st'.i = pre.length + rows.length ∧
        st'.inTable = true ∧ st'.inCodeBlock = false ∧ st'.inList = false ∧
        st'.inLI = st.inLI
  | [], pre, st, _, hi, ht, hc, hl, _ =>
    ⟨st, by simp, by simp, by simpa using hi, ht, hc, hl, rfl⟩
  | r :: rs, pre, st, hlines, hi, ht, hc, hl, hr => by
    have hget : lines.getD st.i [] = r := by
      rw [hlines, hi, List.append_assoc, List.cons_append]
      exact getD_append_cons pre r (rs ++ post)
    have hlt : st.i < lines.length := by
      rw [hlines, hi]; simp
    have hstep : step lines st = st.write (.tableRow r) := by
      rw [step_row lines st (by rw [hget]; exact hr r (List.mem_cons_self _ _)) hc hl, hget,
        stepTable_open lines r st ht]
    have hfuel : (r :: rs).length + fuel = (rs.length + fuel) + 1 := by
      simp only [List.length_cons]; omega
    rw [hfuel, loop_succ lines _ st hlt, hstep]
    obtain ⟨st', h1, h2, h3, h4, h5, h6, h7⟩ :=
      loop_rows lines post fuel rs (pre ++ [r])
        ((st.write (.tableRow r)).setI ((st.write (.tableRow r)).i + 1))
        (by rw [hlines]; simp) (by simp [hi]) (by simpa using ht) (by simpa using hc)
        (by simpa using hl) (fun x hx => hr x (List.mem_cons_of_mem _ hx))
    refine ⟨st', h1, ?_, ?_, h4, h5, h6, ?_⟩
    · rw [h2]; simp
    · rw [h3]; simp; omega
    · rw [h7]; simp

/-- C12. For every `n`, the input of a header row, a separator row that holds
`---`, `n` body rows (the trimmed text of each row begins with `|`) and a blank
line is written as one table: the opening with the header row, in a `<thead>`,
as one row of `<th>` cells, then the `n` body rows in input order as rows of
`<td>` cells, then `</tbody></table>`, written when the blank line is reached
(the buffer is complete when the loop ends); the separator row gives no
write. -/
theorem table_of_rows (header sep blank : Str) (rows : List Str)
    (hh : isRowLine header = true) (hs : containsStr sep "---".toList = true)
    (hr : ∀ r ∈ rows, isRowLine r = true) (hb : trimSpace blank = [])
    (hn : ∀ l ∈ header :: sep :: (rows ++ [blank]), '\n' ∉ l) :
    (loop (header :: sep :: (rows ++ [blank])) (header :: sep :: (rows ++ [blank])).length
        State.init).buf
      = [Out.tableOpen header] ++ rows.map Out.tableRow ++ [Out.tableClose] ∧
    markdownToBookHTMLOut (joinStr "\n".toList (header :: sep :: (rows ++ [blank])))
      = [Out.tableOpen header] ++ rows.map Out.tableRow ++ [Out.tableClose] ∧
    (Out.tableOpen header).render
      = "<table>\n<thead>\n<tr>\n".toList
          ++ (splitRune '|' (trimRune '|' header)).flatMap (renderCell "th".toList)
          ++ "</tr>\n</thead>\n<tbody>\n".toList ∧
    (∀ r, (Out.tableRow r).render
      = "<tr>\n".toList ++ (splitRune '|' (trimRune '|' r)).flatMap (renderCell "td".toList)
          ++ "</tr>\n".toList) ∧
    Out.tableClose.render = "</tbody>\n</table>\n".toList := by
  have hlen : (header :: sep :: (rows ++ [blank])).length = (rows.length + 2) + 1 := by simp
  -- the header row, with the separator row skipped
  have h0 : step (header :: sep :: (rows ++ [blank])) State.init
      = ((State.init.write (.tableOpen header)).setInTable true).setI 1 := by
    rw [step_row _ _ (by exact hh) rfl rfl]
    have hs' : containsStr sep ['-', '-', '-'] = true := hs
    unfold stepTable
    simp [State.init, hs']
  -- the body rows
  obtain ⟨s2, e2, b2, i2, t2, c2, l2, li2⟩ :=
    loop_rows (header :: sep :: (rows ++ [blank])) [blank] 2 rows [header, sep]
      ((((State.init.write (.tableOpen header)).setInTable true).setI 1).setI
        ((((State.init.write (.tableOpen header)).setInTable true).setI 1).i + 1))
      (by simp) rfl rfl rfl rfl hr
  -- the blank line
  have hget : (header :: sep :: (rows ++ [blank])).getD s2.i [] = blank := by
    have e : header :: sep :: (rows ++ [blank]) = ([header, sep] ++ rows) ++ blank :: [] := by
      simp
    have el : [header, sep].length + rows.length = ([header, sep] ++ rows).length := by
      simp; omega
    rw [i2, e, el]
    exact getD_append_cons _ _ _
  have h3 : step (header :: sep :: (rows ++ [blank])) s2 = closeTable s2 :=
    step_blank _ s2 (by rw [hget]; exact hb) c2 l2
  have hloop : loop (header :: sep :: (rows ++ [blank])) (header :: sep :: (rows ++ [blank])).length
      State.init = (closeTable s2).setI (s2.i + 1) := by
    rw [hlen, loop_succ _ _ _ (by simp [State.init]), h0, e2,
      loop_succ _ 1 s2 (by rw [i2]; simp; omega), h3, closeTable_i]
    exact loop_done _ _ _ (by simp [i2]; omega)
  have hbuf : ((closeTable s2).setI (s2.i + 1)).buf
      = [Out.tableOpen header] ++ rows.map Out.tableRow ++ [Out.tableClose] := by
    simp only [State.setI_buf]
    rw [closeTable_of_open s2 t2, b2]
    simp [State.init]
  refine ⟨by rw [hloop, hbuf], ?_, ?_, ?_, rfl⟩
  · unfold markdownToBookHTMLOut
    simp only []
    rw [splitRune_joinStr _ (by simp) hn, hloop,
      finish_of_closed _ (by simp [closeTable, t2, li2, State.init])
        (by simp [closeTable, t2, l2]) (by simp [closeTable_inTable]), hbuf]
  · simp [Out.render, renderTableRow]
  · intro r
    simp [Out.render, renderTableRow]

/-- C12, the case of the specification: a header row, a separator row, two body
rows and a blank line. -/
theorem table_of_rows_witness :
    markdownToBookHTMLOut "| a | b |\n|---|---|\n| 1 | 2 |\n| 3 | 4 |\n".toList
      = [Out.tableOpen "| a | b |".toList, Out.tableRow "| 1 | 2 |".toList,
         Out.tableRow "| 3 | 4 |".toList, Out.tableClose] :=
  (table_of_rows "| a | b |".toList "|---|---|".toList [] ["| 1 | 2 |".toList, "| 3 | 4 |".toList]
    (by decide) (by decide) (by decide) (by decide) (by decide)).2.1

/-! ### A heading, a paragraph and a list -/

theorem closeTable_of_closed (st : State) (h : st.inTable = false) : closeTable st = st := by
  unfold closeTable
  simp [h]

theorem step_heading2 (lines : List Str) (st : State) (t : Str)
    (hline : lines.getD st.i [] = "## ".toList ++ t)
    (hc : st.inCodeBlock = false) (hl : st.inList = false) (ht : st.inTable = false) :
    step lines st = st.write (.heading 2 t) := by
  have hh : (lines.getD st.i []).head? = some '#' := by rw [hline]; rfl
  have hf : hasPrefix (lines.getD st.i []) "\x60\x60\x60".toList = false :=
    hasPrefix_false_of_head _ '#' _ _ hh (by decide)
  have t2 : hasPrefix (trimSpace (lines.getD st.i [])) "<!--".toList = false :=
    trimmed_hasPrefix_false _ '#' _ _ hh (by decide) (by decide)
  have t3 : hasPrefix (trimSpace (lines.getD st.i [])) "|".toList = false :=
    trimmed_hasPrefix_false _ '#' _ _ hh (by decide) (by decide)
  have hq : hasPrefix (lines.getD st.i []) "> ".toList = false :=
    hasPrefix_false_of_head _ '#' _ _ hh (by decide)
  have h1 : hasPrefix (lines.getD st.i []) "# ".toList = false := by
    rw [hline]; simp [hasPrefix, List.isPrefixOf]
  have h2 : hasPrefix (lines.getD st.i []) "## ".toList = true := by
    rw [hline]; simp [hasPrefix]
  have h3 : trimPrefix (lines.getD st.i []) "## ".toList = t := by
    unfold trimPrefix
    rw [h2, hline]
    simp
  rw [step_outside_code lines st hf hc, stepBlock_noList _ _ _ _ hl]
  simp only [t2, t3, hq, Bool.false_and, Bool.false_eq_true, if_false,
    closeTable_of_closed st ht]
  unfold stepPlain
  simp only [h1, h2, h3, Bool.false_eq_true, if_false, if_true]

theorem step_para (lines : List Str) (st : State) (hp : isPlainLine (lines.getD st.i []) = true)
    (hc : st.inCodeBlock = false) (hl : st.inList = false) (ht : st.inTable = false) :
    step lines st = st.write (.para (lines.getD st.i [])) := by
  unfold isPlainLine at hp
  simp only [Bool.and_eq_true, Bool.not_eq_true', bne_iff_ne, ne_eq] at hp
  obtain ⟨⟨⟨⟨⟨⟨⟨⟨⟨⟨hf, hcm⟩, htb⟩, hq⟩, h1⟩, h2⟩, h3⟩, h4⟩, hr⟩, hi⟩, hne⟩ := hp
  have hne' : (trimSpace (lines.getD st.i []) != []) = true := by
    rw [bne_iff_ne]; exact hne
  rw [step_outside_code lines st hf hc, stepBlock_noList _ _ _ _ hl]
  simp only [hcm, htb, hq, Bool.false_eq_true, if_false, closeTable_of_closed st ht]
  unfold stepPlain
  simp only [h1, h2, h3, h4, hr, hi, hne', Bool.false_eq_true, if_false, if_true]

theorem hasPrefix_two (s : Str) (a b : Char) (h : hasPrefix s [a, b] = true) :
    ∃ r, s = a :: b :: r := by
  cases s with
  | nil => simp [hasPrefix, List.isPrefixOf] at h
  | cons x s' =>
    cases s' with
    | nil => simp [hasPrefix, List.isPrefixOf] at h
    | cons y r =>
      simp only [hasPrefix, List.isPrefixOf, Bool.and_eq_true, beq_iff_eq] at h
      exact ⟨r, by rw [h.1, h.2.1]⟩

/-- An item line `- …`, with no table open and outside a code block, takes the
list item branch, as an unordered item. -/
theorem step_dashItem (lines : List Str) (st : State)
    (hd : isDashItem (lines.getD st.i []) = true)
    (hc : st.inCodeBlock = false) (ht : st.inTable = false) :
    step lines st = stepListItem (trimSpace (lines.getD st.i [])) true false st := by
  unfold isDashItem at hd
  simp only [Bool.and_eq_true] at hd
  obtain ⟨hd1, hd2⟩ := hd
  have hh : (lines.getD st.i []).head? = some '-' := hasPrefix_cons_head _ _ _ hd1
  have hf : hasPrefix (lines.getD st.i []) "\x60\x60\x60".toList = false :=
    hasPrefix_false_of_head _ '-' _ _ hh (by decide)
  have hq : hasPrefix (lines.getD st.i []) "> ".toList = false :=
    hasPrefix_false_of_head _ '-' _ _ hh (by decide)
  have h1 : hasPrefix (lines.getD st.i []) "# ".toList = false :=
    hasPrefix_false_of_head _ '-' _ _ hh (by decide)
  have h2 : hasPrefix (lines.getD st.i []) "## ".toList = false :=
    hasPrefix_false_of_head _ '-' _ _ hh (by decide)
  have h3 : hasPrefix (lines.getD st.i []) "### ".toList = false :=
    hasPrefix_false_of_head _ '-' _ _ hh (by decide)
  have h4 : hasPrefix (lines.getD st.i []) "#### ".toList = false :=
    hasPrefix_false_of_head _ '-' _ _ hh (by decide)
  rw [step_outside_code lines st hf hc]
  obtain ⟨r, hr⟩ := hasPrefix_two _ _ _ hd2
  unfold stepBlock listTermination stepPlain
  rw [hr]
  have e1 : isULLine ('-' :: ' ' :: r) = true := by simp [isULLine, hasPrefix]
  have e2 : isOLLine ('-' :: ' ' :: r) = false := by
    simp [isOLLine, matchOrdered, List.takeWhile, List.dropWhile, isDigit]
  have e3 : hasPrefix ('-' :: ' ' :: r) "#".toList = false := by
    simp [hasPrefix, List.isPrefixOf]
  have e4 : hasPrefix ('-' :: ' ' :: r) "<!--".toList = false := by
    simp [hasPrefix, List.isPrefixOf]
  have e5 : hasPrefix ('-' :: ' ' :: r) "|".toList = false := by
    simp [hasPrefix, List.isPrefixOf]
  have e6 : (('-' :: ' ' :: r) == "---".toList) = false := by
    cases hb : (('-' :: ' ' :: r) == "---".toList) with
    | false => rfl
    | true => rw [beq_iff_eq] at hb; simp at hb
  have e7 : (('-' :: ' ' :: r) == "***".toList) = false := by
    cases hb : (('-' :: ' ' :: r) == "***".toList) with
    | false => rfl
    | true => rw [beq_iff_eq] at hb; simp at hb
  simp only [e1, e2, e3, e4, e5, e6, e7, hq, h1, h2, h3, h4, Bool.or_false, Bool.or_true,
    Bool.and_false, Bool.false_and, Bool.not_true, Bool.false_eq_true, if_false, if_true,
    ite_self, closeTable_of_closed st ht]

theorem stepListItem_first (trimmed : Str) (st : State) (hl : st.inList = false) :
    stepListItem trimmed true false st
      = ((((st.write (.listOpen .ul)).setInList true).setCurrentListTag .ul).write
          (.li (itemContent trimmed))).setInLI true := by
  unfold stepListItem itemContent
  simp [hl]

theorem stepListItem_next (trimmed : Str) (st : State) (hl : st.inList = true)
    (ht : st.currentListTag = .ul) (hi : st.inLI = true) :
    stepListItem trimmed true false st
      = (((st.write .liClose).write (.li (itemContent trimmed))).setInLI true) := by
  unfold stepListItem itemContent
  simp [hl, ht, hi]

/-- The loop over a run of `- ` item lines, with an unordered list and an item
open: each line closes the item before it and opens its own. -/
theorem loop_items (lines : List Str) (post : List Str) (fuel : Nat) :
    ∀ (items pre : List Str) (st : State), lines = pre ++ items ++ post → st.i = pre.length →
      st.inList = true → st.currentListTag = .ul → st.inLI = true →
      st.inCodeBlock = false → st.inTable = false →
      (∀ l ∈ items, isDashItem l = true) →
      ∃ st', loop lines (items.length + fuel) st = loop lines fuel st' ∧
        st'.buf = st.buf
          ++ items.flatMap (fun l => [Out.liClose, Out.li (itemContent (trimSpace l))]) ∧
        st'.i = pre.length + items.length ∧ st'.inList = true ∧ st'.currentListTag = .ul ∧
        st'.inLI = true ∧ st'.inCodeBlock = false ∧ st'.inTable = false
  | [], pre, st, _, hi, hl, htag, hli, hc, ht, _ =>
    ⟨st, by simp, by simp, by simpa using hi, hl, htag, hli, hc, ht⟩
  | l :: ls, pre, st, hlines, hi, hl, htag, hli, hc, ht, hd => by
    have hget : lines.getD st.i [] = l := by
      rw [hlines, hi, List.append_assoc, List.cons_append]
      exact getD_append_cons pre l (ls ++ post)
    have hlt : st.i < lines.length := by
      rw [hlines, hi]; simp
    have hstep : step lines st
        = (((st.write .liClose).write (.li (itemContent (trimSpace l)))).setInLI true) := by
      rw [step_dashItem lines st (by rw [hget]; exact hd l (List.mem_cons_self _ _)) hc ht, hget,
        stepListItem_next _ st hl htag hli]
    have hfuel : (l :: ls).length + fuel = (ls.length + fuel) + 1 := by
      simp only [List.length_cons]; omega
    rw [hfuel, loop_succ lines _ st hlt, hstep]
    obtain ⟨st', h1, h2, h3, h4, h5, h6, h7, h8⟩ :=
      loop_items lines post fuel ls (pre ++ [l])
        ((((st.write .liClose).write (.li (itemContent (trimSpace l)))).setInLI true).setI
          ((((st.write .liClose).write (.li (itemContent (trimSpace l)))).setInLI true).i + 1))
        (by rw [hlines]; simp) (by simp [hi]) (by simpa using hl) (by simpa using htag)
        (by simp) (by simpa using hc) (by simpa using ht)
        (fun x hx => hd x (List.mem_cons_of_mem _ hx))
    refine ⟨st', h1, ?_, ?_, h4, h5, h6, h7, h8⟩
    · rw [h2]; simp
    · rw [h3]; simp; omega

theorem step_empty_in_list (lines : List Str) (st : State) (hline : lines.getD st.i [] = [])
    (hc : st.inCodeBlock = false) (hl : st.inList = true) (ht : st.inTable = false) :
    step lines st = closeList st := by
  have hf : hasPrefix (lines.getD st.i []) "\x60\x60\x60".toList = false := by
    rw [hline]; decide
  rw [step_outside_code lines st hf hc, hline]
  have e0 : trimSpace ([] : Str) = [] := by decide
  have e1 : (closeList st).inList = false := by
    unfold closeList
    simp only []
    split_ifs <;> simp
  have e2 : (closeList st).inTable = false := by rw [closeList_inTable, ht]
  unfold stepBlock listTermination
  rw [e0]
  have f1 : indentOf ([] : Str) < 2 := by decide
  have f2 : isULLine ([] : Str) = false := by decide
  have f3 : isOLLine ([] : Str) = false := by decide
  have f4 : hasPrefix ([] : Str) "<!--".toList = false := by decide
  have f5 : hasPrefix ([] : Str) "|".toList = false := by decide
  have f6 : hasPrefix ([] : Str) "> ".toList = false := by decide
  have f7 : hasPrefix ([] : Str) "#".toList = false := by decide
  have f8 : (([] : Str) == "---".toList) = false := by decide
  have f9 : (([] : Str) == "***".toList) = false := by decide
  simp only [hl, f1, f2, f3, f4, f5, f6, f7, f8, f9, e1, if_true, if_false, Bool.or_false,
    Bool.not_false, Bool.and_true, Bool.and_false, Bool.false_and, Bool.false_eq_true,
    decide_True, closeTable_of_closed _ e2]
  exact stepPlain_blank [] false false _ e0 rfl rfl

theorem items_regroup (c : Str) : ∀ (ls : List Str),
    Out.li (itemContent (trimSpace c))
        :: (ls.flatMap (fun l => [Out.liClose, Out.li (itemContent (trimSpace l))])
          ++ [Out.liClose])
      = (c :: ls).flatMap (fun l => [Out.li (itemContent (trimSpace l)), Out.liClose])
  | [] => rfl
  | l :: ls => by
    have ih := items_regroup l ls
    simp only [List.flatMap_cons, List.cons_append, List.nil_append] at ih ⊢
    rw [ih]

theorem closeList_of_item (st : State) (hi : st.inLI = true) :
    (closeList st).buf = st.buf ++ [Out.liClose, Out.listClose st.currentListTag] ∧
    (closeList st).inLI = false ∧ (closeList st).inList = false := by
  unfold closeList
  simp [hi]

theorem finish_of_item (st : State) (hi : st.inLI = true) (hl : st.inList = true)
    (ht : st.inTable = false) :
    (finish st).buf = st.buf ++ [Out.liClose, Out.listClose st.currentListTag] := by
  unfold finish
  simp [hi, hl, ht]

/-- C14. A heading line `## t`, a plain line `p` and `k ≥ 1` item lines `- …`,
with or without a newline at the end of the input, are written as one `h2` for
`t`, one paragraph for `p` and one unordered list of `k` items, each item closed
and the list closed by the end of the input, and nothing else. -/
theorem heading_para_list (t p : Str) (items : List Str) (trailing : Bool)
    (hp : isPlainLine p = true) (hi : ∀ l ∈ items, isDashItem l = true) (hk : items ≠ [])
    (hn : ∀ l ∈ ("## ".toList ++ t) :: p :: (items ++ if trailing then [[]] else []), '\n' ∉ l) :
    markdownToBookHTMLOut (joinStr "\n".toList
        (("## ".toList ++ t) :: p :: (items ++ if trailing then [[]] else [])))
      = [Out.heading 2 t, Out.para p, Out.listOpen .ul]
          ++ items.flatMap (fun l => [Out.li (itemContent (trimSpace l)), Out.liClose])
          ++ [Out.listClose .ul] ∧
    (Out.heading 2 t).render
      = "<h2 id=\"".toList ++ slugify t ++ "\">".toList ++ processInline t ++ "</h2>\n\n".toList ∧
    (Out.para p).render = "<p>".toList ++ processInline p ++ "</p>\n\n".toList ∧
    (∀ c, (Out.li c).render = "<li><p>".toList ++ processInline c ++ "</p>".toList) := by
  refine ⟨?_, by simp [Out.render], rfl, fun c => rfl⟩
  obtain ⟨i1, rest, rfl⟩ := List.exists_cons_of_ne_nil hk
  unfold markdownToBookHTMLOut
  simp only []
  rw [splitRune_joinStr _ (by simp) hn]
  generalize hL : ("## ".toList ++ t) :: p :: (i1 :: rest ++ if trailing then [[]] else []) = L
  generalize htail : (if trailing then [[]] else ([] : List Str)) = tail at hL
  have hlen : L.length = (((rest.length + tail.length) + 1) + 1) + 1 := by
    rw [← hL]; simp only [List.length_cons, List.length_append]; omega
  -- the heading
  have g0 : L.getD State.init.i [] = "## ".toList ++ t := by rw [← hL]; rfl
  have h0 := step_heading2 L State.init t g0 rfl rfl rfl
  -- the paragraph
  have g1 : L.getD (((State.init.write (.heading 2 t)).setI
      ((State.init.write (.heading 2 t)).i + 1))).i [] = p := by rw [← hL]; rfl
  have h1 := step_para L ((State.init.write (.heading 2 t)).setI
      ((State.init.write (.heading 2 t)).i + 1)) (by rw [g1]; exact hp) rfl rfl rfl
  rw [g1] at h1
  generalize hs1 : (State.init.write (.heading 2 t)).setI
      ((State.init.write (.heading 2 t)).i + 1) = s1 at h1
  have s1i : s1.i = 1 := by rw [← hs1]; rfl
  have s1b : s1.buf = [Out.heading 2 t] := by rw [← hs1]; rfl
  have s1f : s1.inList = false ∧ s1.inTable = false ∧ s1.inCodeBlock = false := by
    rw [← hs1]; exact ⟨rfl, rfl, rfl⟩
  -- the first item
  have g2 : L.getD ((s1.write (.para p)).setI ((s1.write (.para p)).i + 1)).i [] = i1 := by
    simp only [State.setI_i, State.write_i, s1i]
    rw [← hL]; rfl
  have h2 := step_dashItem L ((s1.write (.para p)).setI ((s1.write (.para p)).i + 1))
    (by rw [g2]; exact hi i1 (List.mem_cons_self _ _)) (by simpa using s1f.2.2)
    (by simpa using s1f.2.1)
  rw [g2, stepListItem_first _ _ (by simpa using s1f.1)] at h2
  generalize hs2 : (s1.write (.para p)).setI ((s1.write (.para p)).i + 1) = s2 at h2
  have s2i : s2.i = 2 := by rw [← hs2]; simp [s1i]
  have s2b : s2.buf = [Out.heading 2 t, Out.para p] := by rw [← hs2]; simp [s1b]
  have s2f : s2.inTable = false ∧ s2.inCodeBlock = false := by
    rw [← hs2]; exact ⟨by simpa using s1f.2.1, by simpa using s1f.2.2⟩
  -- the other items
  obtain ⟨s4, e4, b4, i4, l4, t4, li4, c4, tb4⟩ :=
    loop_items L tail tail.length rest [("## ".toList ++ t), p, i1]
      ((((((s2.write (.listOpen .ul)).setInList true).setCurrentListTag .ul).write
          (.li (itemContent (trimSpace i1)))).setInLI true).setI
        ((((((s2.write (.listOpen .ul)).setInList true).setCurrentListTag .ul).write
          (.li (itemContent (trimSpace i1)))).setInLI true).i + 1))
      (by rw [← hL]; simp) (by simp [s2i]) (by simp) (by simp) (by simp)
      (by simpa using s2f.2) (by simpa using s2f.1)
      (fun x hx => hi x (List.mem_cons_of_mem _ hx))
  have hloop : loop L L.length State.init = loop L tail.length s4 := by
    rw [hlen, loop_succ L _ _ (by rw [hlen]; simp [State.init]), h0, hs1,
      loop_succ L _ s1 (by rw [hlen, s1i]; omega), h1, hs2,
      loop_succ L _ s2 (by rw [hlen, s2i]; omega), h2, e4]
  have b4' : s4.buf = [Out.heading 2 t, Out.para p, Out.listOpen .ul,
      Out.li (itemContent (trimSpace i1))]
      ++ rest.flatMap (fun l => [Out.liClose, Out.li (itemContent (trimSpace l))]) := by
    rw [b4]; simp [s2b]
  have hfinal : ∀ b : List Out,
      b = s4.buf ++ [Out.liClose, Out.listClose .ul] →
      b = [Out.heading 2 t, Out.para p, Out.listOpen .ul]
          ++ (i1 :: rest).flatMap (fun l => [Out.li (itemContent (trimSpace l)), Out.liClose])
          ++ [Out.listClose .ul] := by
    intro b hb
    rw [hb, b4', ← items_regroup i1 rest]
    simp
  rw [hloop]
  apply hfinal
  cases trailing with
  | false =>
    simp only [Bool.false_eq_true, if_false] at htail
    subst htail
    simp only [List.length_nil, loop]
    rw [finish_of_item s4 li4 l4 tb4, t4]
  | true =>
    simp only [if_true] at htail
    subst htail
    have g4 : L.getD s4.i [] = [] := by
      have e : L = ([("## ".toList ++ t), p, i1] ++ rest) ++ [] :: [] := by rw [← hL]; simp
      have el : [("## ".toList ++ t), p, i1].length + rest.length
          = ([("## ".toList ++ t), p, i1] ++ rest).length := by simp; omega
      rw [i4, e, el]
      exact getD_append_cons _ _ _
    have h4 := step_empty_in_list L s4 g4 c4 l4 tb4
    obtain ⟨cb, cli, cl⟩ := closeList_of_item s4 li4
    have hlt : s4.i < L.length := by rw [i4, hlen]; simp; omega
    simp only [List.length_singleton]
    rw [loop_succ L 0 s4 hlt, h4]
    simp only [loop]
    rw [finish_of_closed _ (by simpa using cli) (by simpa using cl)
      (by simp [closeList_inTable, tb4])]
    simp [cb, t4]

/-- C14, the case of the specification: the heading `## 第一节：概述`, the line
`内容。` and the two items `- 项 一`, `- 项 二`, with a newline at the end. -/
theorem heading_para_list_witness :
    markdownToBookHTMLOut "## 第一节：概述\n内容。\n- 项 一\n- 项 二\n".toList
      = [Out.heading 2 "第一节：概述".toList, Out.para "内容。".toList, Out.listOpen .ul,
         Out.li "项 一".toList, Out.liClose, Out.li "项 二".toList, Out.liClose,
         Out.listClose .ul] ∧
    markdownToBookHTML "## 第一节：概述\n内容。\n- 项 一\n- 项 二\n".toList [] false
      = ("<h2 id=\"一节概述\">第一节：概述</h2>\n\n<p>内容。</p>\n\n<ul>\n<li><p>项 一</p></li>\n"
          ++ "<li><p>项 二</p></li>\n</ul>\n").toList :=
  ⟨(heading_para_list "第一节：概述".toList "内容。".toList ["- 项 一".toList, "- 项 二".toList] true
      (by decide) (by decide) (by decide) (by decide)).1, by decide⟩

/-! ### Nesting of lists, items and tables -/

/-- C22. For the item `- a` followed by the indented table row `  | t |`, the
table is opened inside the open list item; at the end of the input, and
likewise on a terminating line, `</li>` and `</ul>` are written before
`</tbody></table>`: the closing tags do not close the most recently opened
element. -/
theorem table_in_item_misnested :
    markdownToBookHTMLOut "- a\n  | t |".toList
      = [.listOpen .ul, .li "a".toList, .tableOpen "  | t |".toList, .liClose, .listClose .ul,
         .tableClose] ∧
    properlyNested (markdownToBookHTMLOut "- a\n  | t |".toList) = false ∧
    markdownToBookHTMLOut "- a\n  | t |\nend".toList
      = [.listOpen .ul, .li "a".toList, .tableOpen "  | t |".toList, .liClose, .listClose .ul,
         .tableClose, .para "end".toList] ∧
    properlyNested (markdownToBookHTMLOut "- a\n  | t |\nend".toList) = false ∧
    markdownToBookHTML "- a\n  | t |".toList [] false
      = ("<ul>\n<li><p>a</p><table>\n<thead>\n<tr>\n<th></th>\n<th>t</th>\n</tr>\n</thead>\n<tbody>\n"
          ++ "</li>\n</ul>\n</tbody>\n</table>\n").toList ∧
    properlyNested (markdownToBookHTMLOut "- a\n- b\n\n| t |\n| u |\n".toList) = true := by
  decide

/-! ### Termination of the line loop and its reads -/

theorem lineAt_of_lt (lines : List Str) (j : Nat) (h : j < lines.length) :
    lineAt lines j = some (lines.getD j []) := by
  unfold lineAt
  rw [List.getD_eq_getElem _ _ h, List.getElem?_eq_getElem h]

theorem peekCaptionChecked_eq (lines : List Str) (st : State) :
    peekCaptionChecked lines st = some (peekCaption lines st) := by
  unfold peekCaptionChecked peekCaption
  split_ifs with h
  · rw [lineAt_of_lt lines _ h, List.getElem?_eq_getElem h, List.getD_eq_getElem _ _ h]
    rfl
  · rw [List.getElem?_eq_none (not_lt.1 h)]
    rfl

theorem stepFenceChecked_eq (lines : List Str) (line : Str) (st : State) :
    stepFenceChecked lines line st = some (stepFence lines line st) := by
  unfold stepFenceChecked stepFence
  simp only [peekCaptionChecked_eq, Option.map_some']
  split_ifs <;> rfl

theorem stepTableChecked_eq (lines : List Str) (line : Str) (st : State) :
    stepTableChecked lines line st = some (stepTable lines line st) := by
  unfold stepTableChecked stepTable
  simp only [State.setInTable_i, State.write_i]
  by_cases ht : (!st.inTable) = true
  · simp only [ht, if_true]
    by_cases h : st.i + 1 < lines.length
    · simp only [h, if_true, lineAt_of_lt lines _ h, List.getElem?_eq_getElem h,
        List.getD_eq_getElem _ _ h, Option.map_some', Option.any_some]
    · simp only [h, if_false, List.getElem?_eq_none (not_lt.1 h), Option.any_none,
        Bool.false_eq_true]
  · simp only [ht, if_false, Bool.false_eq_true]

theorem drop_eq_getD_cons (lines : List Str) (i : Nat) (h : i < lines.length) :
    lines.drop i = lines.getD i [] :: lines.drop (i + 1) := by
  rw [List.getD_eq_getElem _ _ h]
  exact List.drop_eq_getElem_cons h

/-- The checked loop of the blockquote branch ends, with no read out of range,
at the index just behind the run and with the quote lines of the run. -/
theorem quoteLoop_eq (lines : List Str) : ∀ (fuel i : Nat) (acc : List Str),
    lines.length ≤ i + fuel →
    quoteLoop lines fuel i acc
      = some (i + ((lines.drop i).takeWhile (fun l => hasPrefix l "> ".toList)).length,
          acc ++ quoteRun lines i)
  | 0, i, acc, h => by
    have hd : lines.drop i = [] := List.drop_eq_nil_of_le (by omega)
    simp [quoteLoop, quoteRun, hd]
  | fuel + 1, i, acc, h => by
    unfold quoteLoop
    by_cases hlt : i < lines.length
    · simp only [hlt, if_true, lineAt_of_lt lines i hlt]
      rw [quoteRun, drop_eq_getD_cons lines i hlt, List.takeWhile_cons]
      by_cases hp : hasPrefix (lines.getD i []) "> ".toList = true
      · simp only [hp, if_true]
        rw [quoteLoop_eq lines fuel (i + 1) _ (by omega)]
        simp [quoteRun, Nat.add_assoc, Nat.add_comm 1]
      · simp only [hp, if_false]
        simp
    · have hd : lines.drop i = [] := List.drop_eq_nil_of_le (by omega)
      simp [hlt, quoteRun, hd]

theorem stepQuoteChecked_eq (lines : List Str) (st : State) :
    stepQuoteChecked lines st = some (stepQuote lines st) := by
  unfold stepQuoteChecked stepQuote
  rw [quoteLoop_eq lines lines.length st.i [] (by omega)]
  simp [quoteRun]

theorem stepBlockChecked_eq (lines : List Str) (line trimmed : Str) (st : State) :
    stepBlockChecked lines line trimmed st = some (stepBlock lines line trimmed st) := by
  unfold stepBlockChecked stepBlock
  simp only [stepTableChecked_eq, stepQuoteChecked_eq]
  split_ifs <;> rfl

/-- Inside the line list every read of the loop body is in range: the checked
body gives the state of `step`. -/
theorem stepChecked_eq (lines : List Str) (st : State) (h : st.i < lines.length) :
    stepChecked lines st = some (step lines st) := by
  unfold stepChecked step
  rw [lineAt_of_lt lines st.i h]
  simp only [stepFenceChecked_eq, stepBlockChecked_eq]
  split_ifs <;> rfl

theorem loopChecked_eq (lines : List Str) : ∀ (fuel : Nat) (st : State),
    lines.length ≤ st.i + fuel → loopChecked lines fuel st = some (loop lines fuel st)
  | 0, st, h => by
    have : ¬ st.i < lines.length := by omega
    simp [loopChecked, loop, this]
  | fuel + 1, st, h => by
    unfold loopChecked loop
    by_cases hlt : st.i < lines.length
    · simp only [hlt, if_true, stepChecked_eq lines st hlt]
      apply loopChecked_eq lines fuel
      have := step_i lines st
      simp only [State.setI_i]
      omega
    · simp only [hlt, if_false]

/-- C21. The line loop of `markdownToBookHTML` terminates on every input, with
no read outside the line list. For the lines of any input: inside the line list
every read of the loop body, the look-aheads of the fence, table and blockquote
branches included, is in range, and the body followed by the loop's `i++`
leaves the index strictly greater than it was; so the loop, given as many
iterations as there are lines, runs to its exit, further iterations change
nothing, and the output is that of the state at the exit. -/
theorem markdownToBookHTML_total (md : Str) :
    (∀ st : State, st.i < (splitRune '\n' md).length →
      stepChecked (splitRune '\n' md) st = some (step (splitRune '\n' md) st) ∧
      st.i < ((step (splitRune '\n' md) st).setI ((step (splitRune '\n' md) st).i + 1)).i) ∧
    loopChecked (splitRune '\n' md) (splitRune '\n' md).length State.init
      = some (loop (splitRune '\n' md) (splitRune '\n' md).length State.init) ∧
    (splitRune '\n' md).length
      ≤ (loop (splitRune '\n' md) (splitRune '\n' md).length State.init).i ∧
    (∀ extra : Nat, loop (splitRune '\n' md) ((splitRune '\n' md).length + extra) State.init
      = loop (splitRune '\n' md) (splitRune '\n' md).length State.init) ∧
    markdownToBookHTMLOut md
      = (finish (loop (splitRune '\n' md) (splitRune '\n' md).length State.init)).buf := by
  refine ⟨fun st h => ⟨stepChecked_eq _ st h, ?_⟩, loopChecked_eq _ _ _ (by simp [State.init]),
    loop_exits _ _ _ (by simp [State.init]),
    fun extra => loop_fuel_irrelevant _ _ extra _ (by simp [State.init]), rfl⟩
  have := step_i (splitRune '\n' md) st
  simp only [State.setI_i]
  omega

/-- C21, an instance: an input whose last line is a quote after a quote, a table
header and an opening fence, each looking ahead at the end of the input. -/
theorem markdownToBookHTML_total_witness :
    loopChecked (splitRune '\n' "| h |\n\x60\x60\x60go\n> a\n> b".toList)
        (splitRune '\n' "| h |\n\x60\x60\x60go\n> a\n> b".toList).length State.init
      = some (loop (splitRune '\n' "| h |\n\x60\x60\x60go\n> a\n> b".toList)
          (splitRune '\n' "| h |\n\x60\x60\x60go\n> a\n> b".toList).length State.init) ∧
    (loop (splitRune '\n' "> a\n> b".toList) 1 State.init).i = 2 ∧
    (step ["| h |".toList] State.init).i = 0 ∧
    (step ["\x60\x60\x60go".toList] State.init).i = 0 :=
  ⟨(markdownToBookHTML_total "| h |\n\x60\x60\x60go\n> a\n> b".toList).2.1, by decide, by decide,
    by decide⟩

/-! ### The lines of a fenced block -/

theorem step_fence (lines : List Str) (st : State)
    (hf : hasPrefix (lines.getD st.i []) "\x60\x60\x60".toList = true) :
    step lines st = stepFence lines (lines.getD st.i []) st := by
  unfold step
  simp only [hf, if_true]

theorem closeTable_codeFileName (st : State) :
    (closeTable st).codeFileName = st.codeFileName := by
  unfold closeTable; split <;> simp

theorem stepFence_mermaid (lines : List Str) (line : Str) (st : State)
    (hc : st.inCodeBlock = false) (hm : fenceLang line = "mermaid".toList) :
    stepFence lines line st
      = ((((closeTable st).setCodeLang "mermaid".toList).write .mermaidOpen).setInCodeBlock true) := by
  have h1 : (closeTable st).inCodeBlock = false := by rw [closeTable_inCodeBlock, hc]
  unfold fenceLang at hm
  simp only [] at hm
  unfold stepFence
  simp only [h1, hm, Bool.false_eq_true, if_false, beq_self_eq_true, if_true]

theorem stepFence_ordinary (lines : List Str) (line : Str) (st : State)
    (hc : st.inCodeBlock = false) (hm : fenceLang line ≠ "mermaid".toList) :
    stepFence lines line st
      = (((if ((peekCaption lines ((closeTable st).setCodeLang (fenceLang line))).write
                (.figureOpen (fenceLang line))).codeFileName != []
            then ((peekCaption lines ((closeTable st).setCodeLang (fenceLang line))).write
                (.figureOpen (fenceLang line))).write
                  (.figcaption ((peekCaption lines
                    ((closeTable st).setCodeLang (fenceLang line))).write
                      (.figureOpen (fenceLang line))).codeFileName)
            else ((peekCaption lines ((closeTable st).setCodeLang (fenceLang line))).write
                (.figureOpen (fenceLang line)))).write
          (.preCodeOpen (fenceLang line))).setInCodeBlock true) := by
  have h1 : (closeTable st).inCodeBlock = false := by rw [closeTable_inCodeBlock, hc]
  have hm' : (fenceLang line == "mermaid".toList) = false := by
    cases hb : (fenceLang line == "mermaid".toList) with
    | false => rfl
    | true => exact absurd (beq_iff_eq.1 hb) hm
  unfold fenceLang at hm' ⊢
  simp only [] at hm' ⊢
  unfold stepFence
  simp only [h1, hm', Bool.false_eq_true, if_false]

theorem peekCaption_none (lines : List Str) (st : State)
    (h : (lines[st.i + 1]?).bind captionOf = none) : peekCaption lines st = st := by
  unfold peekCaption
  rw [h]

theorem peekCaption_some (lines : List Str) (st : State) (name : Str)
    (h : (lines[st.i + 1]?).bind captionOf = some name) :
    peekCaption lines st = (st.setCodeFileName name).setI (st.i + 1) := by
  unfold peekCaption
  rw [h]

theorem captionOf_ne_nil (next name : Str) (h : captionOf next = some name) : name ≠ [] := by
  unfold captionOf at h
  simp only [] at h
  split_ifs at h
  split at h
  · split_ifs at h with hd
    simp only [Option.some.injEq] at h
    subst h
    intro e
    rw [e] at hd
    exact absurd hd (by decide)
  · exact absurd h (by simp)

theorem getElem?_after_fence (pre : List Str) (fence : Str) (rest : List Str) :
    (pre ++ fence :: rest)[pre.length + 1]? = rest.head? := by
  induction pre with
  | nil => cases rest <;> simp
  | cons a p ih => simpa using ih

/-- The loop over a run of lines inside a code block, none of them a fence
line: each is written as a line of the block and the index moves past the run. -/
theorem loop_code_lines (lines : List Str) (post : List Str) (fuel : Nat) :
    ∀ (body pre : List Str) (st : State), lines = pre ++ body ++ post → st.i = pre.length →
      st.inCodeBlock = true →
      (∀ l ∈ body, hasPrefix l "\x60\x60\x60".toList = false) →
      ∃ st', loop lines (body.length + fuel) st = loop lines fuel st' ∧
        st'.buf = st.buf ++ body.map
          (fun l => if st.codeLang == "mermaid".toList then Out.mermaidLine l
            else Out.codeLine l) ∧
        st'.i = pre.length + body.length ∧ st'.inCodeBlock = true ∧
        st'.codeLang = st.codeLang
  | [], pre, st, _, hi, hc, _ =>
    ⟨st, by simp, by simp, by simpa using hi, hc, rfl⟩
  | r :: rs, pre, st, hlines, hi, hc, hb => by
    have hget : lines.getD st.i [] = r := by
      rw [hlines, hi, List.append_assoc, List.cons_append]
      exact getD_append_cons pre r (rs ++ post)
    have hlt : st.i < lines.length := by
      rw [hlines, hi]; simp
    have hstep : step lines st
        = st.write (if st.codeLang == "mermaid".toList then Out.mermaidLine r
            else Out.codeLine r) := by
      have hf : hasPrefix r "\x60\x60\x60".toList = false := hb r (List.mem_cons_self _ _)
      unfold step
      simp only [hget, hf, hc, if_false, if_true, Bool.false_eq_true]
      split_ifs <;> rfl
    have hfuel : (r :: rs).length + fuel = (rs.length + fuel) + 1 := by
      simp only [List.length_cons]; omega
    rw [hfuel, loop_succ lines _ st hlt, hstep]
    obtain ⟨st', h1, h2, h3, h4, h5⟩ :=
      loop_code_lines lines post fuel rs (pre ++ [r])
        ((st.write (if st.codeLang == "mermaid".toList then Out.mermaidLine r
            else Out.codeLine r)).setI
          ((st.write (if st.codeLang == "mermaid".toList then Out.mermaidLine r
            else Out.codeLine r)).i + 1))
        (by rw [hlines]; simp) (by simp [hi]) (by simpa using hc)
        (fun x hx => hb x (List.mem_cons_of_mem _ hx))
    refine ⟨st', h1, ?_, ?_, h4, ?_⟩
    · rw [h2]; simp
    · rw [h3]; simp; omega
    · rw [h5]; simp

/-- The opening of a diagram block. -/
theorem stepFence_open_mermaid (lines : List Str) (line : Str) (st : State)
    (hc : st.inCodeBlock = false) (hm : fenceLang line = "mermaid".toList) :
    (stepFence lines line st).buf = (closeTable st).buf ++ [Out.mermaidOpen] ∧
    (stepFence lines line st).i = st.i ∧ (stepFence lines line st).inCodeBlock = true ∧
    (stepFence lines line st).codeLang = "mermaid".toList := by
  rw [stepFence_mermaid lines line st hc hm]
  simp [closeTable_i]

/-- The opening of an ordinary block when the next line is no caption line. -/
theorem stepFence_open_plain (lines : List Str) (line : Str) (st : State)
    (hc : st.inCodeBlock = false) (hm : fenceLang line ≠ "mermaid".toList)
    (hp : (lines[st.i + 1]?).bind captionOf = none) :
    (stepFence lines line st).buf
      = (closeTable st).buf ++ [Out.figureOpen (fenceLang line)]
        ++ (if st.codeFileName != [] then [Out.figcaption st.codeFileName] else [])
        ++ [Out.preCodeOpen (fenceLang line)] ∧
    (stepFence lines line st).i = st.i ∧ (stepFence lines line st).inCodeBlock = true ∧
    (stepFence lines line st).codeLang = fenceLang line := by
  have hp' : (lines[((closeTable st).setCodeLang (fenceLang line)).i + 1]?).bind captionOf
      = none := by
    simpa [closeTable_i] using hp
  rw [stepFence_ordinary lines line st hc hm, peekCaption_none _ _ hp']
  simp only [State.write_codeFileName, State.setCodeLang_codeFileName, closeTable_codeFileName]
  split_ifs <;> simp [closeTable_i]

/-- The opening of an ordinary block when the next line is a caption line. -/
theorem stepFence_open_caption (lines : List Str) (line : Str) (st : State) (name : Str)
    (hc : st.inCodeBlock = false) (hm : fenceLang line ≠ "mermaid".toList)
    (hp : (lines[st.i + 1]?).bind captionOf = some name) (hn : name ≠ []) :
    (stepFence lines line st).buf
      = (closeTable st).buf ++ [Out.figureOpen (fenceLang line), Out.figcaption name,
          Out.preCodeOpen (fenceLang line)] ∧
    (stepFence lines line st).i = st.i + 1 ∧ (stepFence lines line st).inCodeBlock = true ∧
    (stepFence lines line st).codeLang = fenceLang line := by
  have hp' : (lines[((closeTable st).setCodeLang (fenceLang line)).i + 1]?).bind captionOf
      = some name := by
    simpa [closeTable_i] using hp
  have hn' : (name != []) = true := by simpa using hn
  rw [stepFence_ordinary lines line st hc hm, peekCaption_some _ _ name hp']
  simp only [State.write_codeFileName, State.setI_codeFileName,
    State.setCodeFileName_codeFileName, hn', if_true]
  simp [closeTable_i]

/-- The loop over a fence line that opens a block and a run of lines of the
block: the writes of the opening, however the opening iteration ends, are
followed by the lines of the run that come after the index it leaves. -/
theorem loop_block (lines pre body post : List Str) (fence : Str) (st : State) (skip : List Str)
    (hl : lines = pre ++ fence :: (skip ++ body ++ post)) (hi : st.i = pre.length)
    (hf : hasPrefix fence "\x60\x60\x60".toList = true)
    (hb : ∀ l ∈ body, hasPrefix l "\x60\x60\x60".toList = false)
    (hs : (stepFence lines fence st).i = st.i + skip.length)
    (hc : (stepFence lines fence st).inCodeBlock = true) :
    (loop lines (body.length + 1) st).buf
      = (stepFence lines fence st).buf ++ body.map
          (fun l => if (stepFence lines fence st).codeLang == "mermaid".toList
            then Out.mermaidLine l else Out.codeLine l) ∧
    (loop lines (body.length + 1) st).i = pre.length + 1 + skip.length + body.length ∧
    (loop lines (body.length + 1) st).inCodeBlock = true := by
  have hget : lines.getD st.i [] = fence := by
    rw [hl, hi]
    exact getD_append_cons pre fence _
  have hlt : st.i < lines.length := by
    rw [hl, hi]; simp
  have hstep : step lines st = stepFence lines fence st := by
    rw [step_fence lines st (by rw [hget]; exact hf), hget]
  rw [loop_succ lines _ st hlt, hstep]
  obtain ⟨st', h1, h2, h3, h4, _⟩ :=
    loop_code_lines lines post 0 body (pre ++ fence :: skip)
      ((stepFence lines fence st).setI ((stepFence lines fence st).i + 1))
      (by rw [hl]; simp) (by simp [hs, hi]; omega) (by simpa using hc) hb
  have h1' : loop lines body.length
      ((stepFence lines fence st).setI ((stepFence lines fence st).i + 1)) = st' := h1
  rw [h1']
  refine ⟨?_, ?_, h4⟩
  · rw [h2]; simp
  · rw [h3]; simp; omega

/-- C19, counterexample. In the input of a `go` fence, the line `// a<b>.go`, the
line `x` and a closing fence, the line after the opening fence is inside the
block but is taken as the filename caption: its second field is written as it
is, with `<` and `>`, in a `<figcaption>`, and the escaped line is nowhere in
the output. -/
theorem caption_line_not_escaped :
    markdownToBookHTMLOut "\x60\x60\x60go\n// a<b>.go\nx\n\x60\x60\x60".toList
      = [.figureOpen "go".toList, .figcaption "a<b>.go".toList, .preCodeOpen "go".toList,
         .codeLine "x".toList, .codeClose] ∧
    markdownToBookHTML "\x60\x60\x60go\n// a<b>.go\nx\n\x60\x60\x60".toList [] false
      = ("<figure class=\"code go\">\n<figcaption>File: a<b>.go</figcaption>\n"
          ++ "<pre><code class=\"language-go\">x\n</code></pre>\n</figure>\n").toList ∧
    escapeHTML "// a<b>.go".toList ++ "\n".toList = "// a&lt;b&gt;.go\n".toList ∧
    containsStr (markdownToBookHTML "\x60\x60\x60go\n// a<b>.go\nx\n\x60\x60\x60".toList [] false)
      (escapeHTML "// a<b>.go".toList ++ "\n".toList) = false := by
  decide

/-- C19, amended. A fence line reached outside a code block opens a block, and
the lines `body` that follow it, none of them a fence line, are lines of the
block. In a `mermaid` block each of them, the first included, is written as it
is and a newline. In an ordinary block whose first line is no caption line each
of them is written as `escapeHTML(line)` and a newline. In an ordinary block
whose first line is a caption line (trimmed, it begins with `// ` or `# ` and
its second field holds `.` or `/`) that line is not written as code: its second
field is written as it is in a `<figcaption>` by the opening, and each line
after it is written as `escapeHTML(line)` and a newline. The text
`escapeHTML(line)` and a newline has no `<` and no `>`, and every `&` in it
begins `&amp;`, `&lt;` or `&gt;`. -/
theorem code_block_lines (lines pre body post : List Str) (fence : Str) (st : State)
    (hl : lines = pre ++ fence :: (body ++ post)) (hi : st.i = pre.length)
    (hc : st.inCodeBlock = false)
    (hf : hasPrefix fence "\x60\x60\x60".toList = true)
    (hb : ∀ l ∈ body, hasPrefix l "\x60\x60\x60".toList = false) :
    (fenceLang fence = "mermaid".toList →
      (loop lines (body.length + 1) st).buf
        = (closeTable st).buf ++ [Out.mermaidOpen] ++ body.map Out.mermaidLine ∧
      (loop lines (body.length + 1) st).i = pre.length + 1 + body.length ∧
      (loop lines (body.length + 1) st).inCodeBlock = true) ∧
    (fenceLang fence ≠ "mermaid".toList → (body ++ post).head?.bind captionOf = none →
      (loop lines (body.length + 1) st).buf
        = (closeTable st).buf ++ [Out.figureOpen (fenceLang fence)]
          ++ (if st.codeFileName != [] then [Out.figcaption st.codeFileName] else [])
          ++ [Out.preCodeOpen (fenceLang fence)] ++ body.map Out.codeLine ∧
      (loop lines (body.length + 1) st).i = pre.length + 1 + body.length ∧
      (loop lines (body.length + 1) st).inCodeBlock = true) ∧
    (fenceLang fence ≠ "mermaid".toList → ∀ cap name rest, body = cap :: rest →
      captionOf cap = some name →
      (loop lines (rest.length + 1) st).buf
        = (closeTable st).buf ++ [Out.figureOpen (fenceLang fence), Out.figcaption name,
            Out.preCodeOpen (fenceLang fence)] ++ rest.map Out.codeLine ∧
      (loop lines (rest.length + 1) st).i = pre.length + 1 + body.length ∧
      (loop lines (rest.length + 1) st).inCodeBlock = true) ∧
    (∀ line, (Out.codeLine line).render = escapeHTML line ++ "\n".toList ∧
      (∀ c ∈ (Out.codeLine line).render, c ≠ '<' ∧ c ≠ '>') ∧
      ampsEscaped (Out.codeLine line).render = true) ∧
    (∀ line, (Out.mermaidLine line).render = line ++ "\n".toList) ∧
    (∀ name, (Out.figcaption name).render
      = "<figcaption>File: ".toList ++ name ++ "</figcaption>\n".toList) := by
  have hpeek : lines[st.i + 1]? = (body ++ post).head? := by
    rw [hl, hi]
    exact getElem?_after_fence pre fence (body ++ post)
  refine ⟨?_, ?_, ?_, ?_, fun _ => rfl, fun _ => rfl⟩
  · intro hm
    obtain ⟨o1, o2, o3, o4⟩ := stepFence_open_mermaid lines fence st hc hm
    obtain ⟨b1, b2, b3⟩ := loop_block lines pre body post fence st []
      (by rw [hl]; simp) hi hf hb (by rw [o2]; simp) o3
    refine ⟨?_, by rw [b2]; simp, b3⟩
    rw [b1, o1, o4]
    simp
  · intro hm hp
    obtain ⟨o1, o2, o3, o4⟩ := stepFence_open_plain lines fence st hc hm (by rw [hpeek]; exact hp)
    obtain ⟨b1, b2, b3⟩ := loop_block lines pre body post fence st []
      (by rw [hl]; simp) hi hf hb (by rw [o2]; simp) o3
    have hm' : (fenceLang fence == "mermaid".toList) = false := by
      cases hx : (fenceLang fence == "mermaid".toList) with
      | false => rfl
      | true => exact absurd (beq_iff_eq.1 hx) hm
    refine ⟨?_, by rw [b2]; simp, b3⟩
    rw [b1, o1, o4]
    simp only [hm', Bool.false_eq_true, if_false]
  · intro hm cap name rest hbody hcap
    subst hbody
    have hp : (lines[st.i + 1]?).bind captionOf = some name := by
      rw [hpeek]
      simpa using hcap
    obtain ⟨o1, o2, o3, o4⟩ := stepFence_open_caption lines fence st name hc hm hp
      (captionOf_ne_nil cap name hcap)
    obtain ⟨b1, b2, b3⟩ := loop_block lines pre rest post fence st [cap]
      (by rw [hl]; simp) hi hf (fun l h => hb l (List.mem_cons_of_mem _ h))
      (by rw [o2]; simp) o3
    have hm' : (fenceLang fence == "mermaid".toList) = false := by
      cases hx : (fenceLang fence == "mermaid".toList) with
      | false => rfl
      | true => exact absurd (beq_iff_eq.1 hx) hm
    refine ⟨?_, by rw [b2]; simp; omega, b3⟩
    rw [b1, o1, o4]
    simp only [hm', Bool.false_eq_true, if_false]
  · intro line
    refine ⟨rfl, ?_, escapeHTML_amps "\n".toList (by decide) _⟩
    intro c hcm
    change c ∈ escapeHTML line ++ "\n".toList at hcm
    rcases List.mem_append.1 hcm with h | h
    · exact escapeHTML_no_angle _ c h
    · clear hcm; revert c; decide

/-- C19, two instances: after a `go` fence the lines `a<b> & c` and `d` are
written escaped; after a `go` fence and the caption line `// main.go` the line
`a<b>` is written escaped and the caption line is not written as code. -/
theorem code_block_lines_witness :
    (loop ["\x60\x60\x60go".toList, "a<b> & c".toList, "d".toList, "\x60\x60\x60".toList] 3
        State.init).buf
      = [.figureOpen "go".toList, .preCodeOpen "go".toList, .codeLine "a<b> & c".toList,
         .codeLine "d".toList] ∧
    (Out.codeLine "a<b> & c".toList).render = "a&lt;b&gt; &amp; c\n".toList ∧
    (loop ["\x60\x60\x60go".toList, "// main.go".toList, "a<b>".toList, "\x60\x60\x60".toList] 2
        State.init).buf
      = [.figureOpen "go".toList, .figcaption "main.go".toList, .preCodeOpen "go".toList,
         .codeLine "a<b>".toList] :=
  ⟨((code_block_lines
      ["\x60\x60\x60go".toList, "a<b> & c".toList, "d".toList, "\x60\x60\x60".toList] []
      ["a<b> & c".toList, "d".toList] ["\x60\x60\x60".toList] "\x60\x60\x60go".toList State.init
      rfl rfl rfl (by decide) (by decide)).2.1 (by decide) (by decide)).1,
   by decide,
   ((code_block_lines
      ["\x60\x60\x60go".toList, "// main.go".toList, "a<b>".toList, "\x60\x60\x60".toList] []
      ["// main.go".toList, "a<b>".toList] ["\x60\x60\x60".toList] "\x60\x60\x60go".toList
      State.init rfl rfl rfl (by decide) (by decide)).2.2.1 (by decide)
      "// main.go".toList "main.go".toList ["a<b>".toList] rfl (by decide)).1⟩

end MdBook
